import Mathlib

/-! # Verity: image references, tag versioning and change aggregation

A shallow embedding of the release-decision core of the `verity` pipeline:

* `internal/copaconfig.go`: `ParseImageRef`, `NormalizeImageRef`
* `internal/types.go`: `Image.Reference`, `sanitize`
* `internal/matrix.go`: `buildPatchResults` and the chart loop of `AssembleResults`
* `internal/values.go`: `GenerateValuesOverride`, `setImageAtPath`
* `internal/patcher.go`: `countFixable`
* the tag versioning engine exercised by `cmd/scan_test.go`

Go strings are modelled as lists of characters.  All separators used by the
embedded code (`:`, `/`, `.`) are single ASCII characters, so splitting a
string on them is splitting the list on that character.
-/

namespace Verity

/-- Go `string`, as a list of characters. -/
abbrev Str := List Char

/-! ## The pieces of package `strings` used by the code -/

/-- `strings.Split(s, sep)` for a one-character separator: the substrings of `s`
between occurrences of `sep`.  The result is never empty; a string without the
separator gives the one-element list `[s]`. -/
def Split (sep : Char) : Str → List Str
  | [] => [[]]
  | c :: cs =>
    if c = sep then [] :: Split sep cs
    else
      match Split sep cs with
      | [] => [[c]]
      | p :: ps => (c :: p) :: ps

/-- `strings.Join(parts, sep)` for a one-character separator. -/
def Join (sep : Char) : List Str → Str
  | [] => []
  | [p] => p
  | p :: q :: ps => p ++ sep :: Join sep (q :: ps)

/-- `strings.SplitN(s, sep, 2)` for a one-character separator: `[s]` when `sep`
does not occur in `s`, otherwise the text before the first `sep` and the text
after it. -/
def SplitN2 (sep : Char) : Str → List Str
  | [] => [[]]
  | c :: cs =>
    if c = sep then [[], cs]
    else
      match SplitN2 sep cs with
      | [p] => [c :: p]
      | p :: q :: _ => [c :: p, q]
      | [] => [[c]]

/-- `strings.Contains(s, sep)` for a one-character `sep`. -/
def Contains (s : Str) (sep : Char) : Bool := s.elem sep

/-- `strings.HasSuffix(s, suffix)`. -/
def HasSuffix (s suffix : Str) : Bool := suffix.isSuffixOf s

/-! ## `internal/types.go` -/

/-- A container image found in chart values (`Image`). -/
structure Image where
  Registry : Str
  Repository : Str
  Tag : Str
  Path : Str
  deriving DecidableEq, Repr

/-- `Image.Reference`: the full image reference string. -/
def Image.Reference (img : Image) : Str :=
  let ref := img.Repository
  let ref := if img.Registry ≠ [] then img.Registry ++ '/' :: ref else ref
  let ref := if img.Tag ≠ [] then ref ++ ':' :: img.Tag else ref
  ref

/-- `sanitize`: replaces `/` and `:` by `_`. -/
def sanitize (ref : Str) : Str :=
  ref.map fun c => if c = '/' ∨ c = ':' then '_' else c

/-- The outcome of patching a single image (`PatchResult`).  The Go field
`Error error` is `none` for `nil` and `some msg` for `errors.New(msg)`. -/
structure PatchResult where
  Original : Image
  Patched : Image
  VulnCount : Int
  Skipped : Bool
  SkipReason : Str
  Error : Option Str
  ReportPath : Str
  UpstreamReportPath : Str
  OverriddenFrom : Str
  deriving DecidableEq, Repr

/-- The constant `SkipReasonNoPatchResult`. -/
def SkipReasonNoPatchResult : Str := "no patch result".toList

/-! ## `internal/copaconfig.go` -/

/-- `ParseImageRef`: parses a full image reference into registry, repository
and tag. -/
def ParseImageRef (ref : Str) : Str × Str × Str :=
  -- Split off tag
  let parts := Split ':' ref
  let tag := if parts.length > 1 then parts.getLast?.getD [] else []
  let ref := if parts.length > 1 then Join ':' parts.dropLast else ref
  -- Split off registry (first component before /)
  let slashParts := SplitN2 '/' ref
  if slashParts.length > 1 then
    if Contains (slashParts.headD []) '.' ||
        Contains (slashParts.headD []) ':' ||
        decide (slashParts.headD [] = "localhost".toList) then
      (slashParts.headD [], slashParts.getD 1 [], tag)
    else
      ([], ref, tag)
  else
    ([], ref, tag)

/-- The registry test of `ParseImageRef` (lines 85-87): the first path segment
looks like a registry when it contains `.` or `:` or is `localhost`. -/
def looksLikeRegistry (s : Str) : Bool :=
  Contains s '.' || Contains s ':' || decide (s = "localhost".toList)

/-- The second half of `ParseImageRef` (lines 81-98) on its own: splits the
text left after the tag was removed into registry and repository. -/
def splitRegistry (ref tag : Str) : Str × Str × Str :=
  let slashParts := SplitN2 '/' ref
  if slashParts.length > 1 then
    if looksLikeRegistry (slashParts.headD []) then
      (slashParts.headD [], slashParts.getD 1 [], tag)
    else
      ([], ref, tag)
  else
    ([], ref, tag)

/-- `NormalizeImageRef`: converts an image reference to a canonical form for
comparison. -/
def NormalizeImageRef (ref : Str) : Str :=
  let (registry, repository, tag) := ParseImageRef ref
  -- Default to docker.io if no registry
  let registry := if registry = [] then "docker.io".toList else registry
  -- Add library/ for official Docker images
  let repository :=
    if registry = "docker.io".toList ∧ ¬ Contains repository '/' then
      "library/".toList ++ repository
    else repository
  let result := registry ++ '/' :: repository
  if tag ≠ [] then result ++ ':' :: tag else result

/-! ## `internal/matrix.go` -/

/-- A single discovered image with its values path (`ImageDiscovery`). -/
structure ImageDiscovery where
  Registry : Str
  Repository : Str
  Tag : Str
  Path : Str
  deriving DecidableEq, Repr

/-- The Go conversion `Image(imgDisc)`: both structs have the same four fields. -/
def ImageDiscovery.toImage (d : ImageDiscovery) : Image :=
  { Registry := d.Registry, Repository := d.Repository, Tag := d.Tag, Path := d.Path }

/-- `ImageDiscovery.Reference`. -/
def ImageDiscovery.Reference (d : ImageDiscovery) : Str :=
  let img : Image := { Registry := d.Registry, Repository := d.Repository, Tag := d.Tag, Path := [] }
  img.Reference

/-- Images found in a single Helm chart dependency (`ChartDiscovery`). -/
structure ChartDiscovery where
  Name : Str
  Version : Str
  Repository : Str
  Images : List ImageDiscovery
  deriving DecidableEq, Repr

/-- All discovered images (`DiscoveryManifest`). -/
structure DiscoveryManifest where
  Charts : List ChartDiscovery
  Images : List ImageDiscovery
  deriving DecidableEq, Repr

/-- The JSON written by each matrix job after patching (`SinglePatchResult`). -/
structure SinglePatchResult where
  ImageRef : Str
  PatchedRegistry : Str
  PatchedRepository : Str
  PatchedTag : Str
  VulnCount : Int
  Skipped : Bool
  SkipReason : Str
  Error : Str
  Changed : Bool
  deriving DecidableEq, Repr

/-- An image included in a published chart (`PublishedImage`). -/
structure PublishedImage where
  Original : Str
  Patched : Str
  deriving DecidableEq, Repr

/-- A chart that was published to OCI (`PublishedChart`). -/
structure PublishedChart where
  Name : Str
  Version : Str
  Registry : Str
  OCIRef : Str
  SBOMPath : Str
  VulnPredicatePath : Str
  Images : List PublishedImage
  deriving DecidableEq, Repr

/-- The struct `Dependency` handed to `CreateWrapperChart`.  Its declaration is
not among the sources; these are the three fields `AssembleResults` sets. -/
structure Dependency where
  Name : Str
  Version : Str
  Repository : Str
  deriving DecidableEq, Repr

/-- The Go map `map[string]*SinglePatchResult` returned by `loadResults`, as a
lookup function: `none` when the key is absent.  `loadResults` only ever stores
pointers to freshly parsed records, so a present entry is never `nil`. -/
abbrev ResultMap := Str → Option SinglePatchResult

/-- The map `m` after the Go assignment `m[key] = &r`. -/
def ResultMap.insert (m : ResultMap) (key : Str) (r : SinglePatchResult) : ResultMap :=
  fun k => if k = key then some r else m k

/-- The empty map `make(map[string]*SinglePatchResult)`. -/
def ResultMap.empty : ResultMap := fun _ => none

/-- The functions `AssembleResults` and `buildPatchResults` call whose code is
outside the embedded sources: the package functions `CreateWrapperChart`,
`PublishChart`, `GenerateChartSBOM`, `AggregateVulnPredicate`, and the library
calls `filepath.Join` and `os.Stat`.  They act on a world state `σ` (file system,
registry); each returns its Go result (`Except` for `(value, error)`, `Option`
for a bare `error`) and the new world. -/
structure Collaborators (σ : Type) where
  PathJoin : Str → Str → Str
  Stat : Str → σ → Bool
  CreateWrapperChart : Dependency → List PatchResult → Str → Str → σ → Except Str Str × σ
  PublishChart : Str → Str → σ → Except Str Str × σ
  GenerateChartSBOM : ChartDiscovery → List PatchResult → Str → Str → σ → Option Str × σ
  AggregateVulnPredicate : List PatchResult → Str → Str → σ → Option Str × σ

/-- The body of the loop of `buildPatchResults` for one discovered image. -/
def buildPatchResult {σ : Type} (x : Collaborators σ) (w : σ) (resultMap : ResultMap)
    (reportsDir : Str) (imgDisc : ImageDiscovery) : PatchResult :=
  let img := imgDisc.toImage
  let ref := img.Reference
  let pr : PatchResult :=
    { Original := img, Patched := ⟨[], [], [], []⟩, VulnCount := 0, Skipped := false,
      SkipReason := [], Error := none, ReportPath := [], UpstreamReportPath := [],
      OverriddenFrom := [] }
  match resultMap ref with
  | none =>
    -- No patch result produced (matrix job may have failed).
    { pr with Skipped := true, SkipReason := SkipReasonNoPatchResult }
  | some r =>
    let pr :=
      if r.Error ≠ [] then
        { pr with Error := some r.Error }
      else if r.Skipped then
        let pr := { pr with Skipped := true, SkipReason := r.SkipReason }
        if r.PatchedRepository ≠ [] then
          { pr with Patched :=
              { Registry := r.PatchedRegistry, Repository := r.PatchedRepository,
                Tag := r.PatchedTag, Path := [] } }
        else pr
      else
        { pr with
            VulnCount := r.VulnCount
            Patched :=
              { Registry := r.PatchedRegistry, Repository := r.PatchedRepository,
                Tag := r.PatchedTag, Path := [] } }
    -- Look for trivy report by sanitized original ref.
    let reportPath := x.PathJoin reportsDir (sanitize ref ++ ".json".toList)
    if x.Stat reportPath w then
      { pr with ReportPath := reportPath, UpstreamReportPath := reportPath }
    else pr

/-- `buildPatchResults`: converts discovered images and matrix results into
`PatchResult` objects, one appended per image in order. -/
def buildPatchResults {σ : Type} (x : Collaborators σ) (w : σ) (images : List ImageDiscovery)
    (resultMap : ResultMap) (reportsDir : Str) : List PatchResult :=
  match images with
  | [] => []
  | imgDisc :: rest =>
    buildPatchResult x w resultMap reportsDir imgDisc ::
      buildPatchResults x w rest resultMap reportsDir

/-- The `hasChanges` loop of `AssembleResults` (lines 115-123): true as soon as
an image of the chart has a result record with `Changed` set. -/
def hasChanges (resultMap : ResultMap) : List ImageDiscovery → Bool
  | [] => false
  | imgDisc :: rest =>
    let ref := imgDisc.toImage.Reference
    match resultMap ref with
    | some r => if r.Changed then true else hasChanges resultMap rest
    | none => hasChanges resultMap rest

/-- The loop of `AssembleResults` filling `pc.Images` (lines 169-177): every result
without error and with a non-empty patched reference is appended. -/
def publishedImages : List PatchResult → List PublishedImage
  | [] => []
  | pr :: rest =>
    if pr.Error = none ∧ pr.Patched.Reference ≠ [] then
      { Original := pr.Original.Reference, Patched := pr.Patched.Reference } ::
        publishedImages rest
    else publishedImages rest

/-- The external steps `AssembleResults` runs for a chart. -/
inductive Step where
  | createWrapperChart
  | publishChart
  | generateChartSBOM
  | aggregateVulnPredicate
  deriving DecidableEq, Repr

/-- One invocation of an external step, with the chart it was made for. -/
structure ExternalCall where
  step : Step
  chart : ChartDiscovery
  deriving DecidableEq, Repr

/-- What the chart loop of `AssembleResults` carries from one chart to the next:
the world, the variable `publishedCharts`, and the external steps invoked so far. -/
structure AssembleState (σ : Type) where
  world : σ
  publishedCharts : List PublishedChart
  calls : List ExternalCall

/-- The body of the chart loop of `AssembleResults` (lines 106-178) for one
chart.  The first component is the error the function returns from inside the
loop (`none` when the loop goes on to the next chart). -/
def assembleChart {σ : Type} (x : Collaborators σ) (resultMap : ResultMap)
    (reportsDir outputDir registry : Str) (publish : Bool)
    (ch : ChartDiscovery) (st : AssembleState σ) : Option Str × AssembleState σ :=
  let dep : Dependency := { Name := ch.Name, Version := ch.Version, Repository := ch.Repository }
  let results := buildPatchResults x st.world ch.Images resultMap reportsDir
  -- Check if any images changed
  if ¬ hasChanges resultMap ch.Images then
    (none, st)
  else
    -- Create wrapper chart
    let st := { st with calls := st.calls ++ [ExternalCall.mk Step.createWrapperChart ch] }
    match x.CreateWrapperChart dep results outputDir registry st.world with
    | (Except.error err, w) =>
      (some ("creating wrapper chart for ".toList ++ ch.Name ++ ": ".toList ++ err),
        { st with world := w })
    | (Except.ok version, w) =>
      let st := { st with world := w }
      let chartDir := x.PathJoin outputDir ch.Name
      let ociRef := registry ++ "/charts/".toList ++ ch.Name ++ ":".toList ++ version
      -- Publish to OCI if requested
      let published : Option Str × AssembleState σ :=
        if publish ∧ registry ≠ [] then
          let st := { st with calls := st.calls ++ [ExternalCall.mk Step.publishChart ch] }
          match x.PublishChart chartDir registry st.world with
          | (Except.error err, w) =>
            (some ("publishing chart ".toList ++ ch.Name ++ ": ".toList ++ err),
              { st with world := w })
          | (Except.ok _, w) => (none, { st with world := w })
        else (none, st)
      match published with
      | (some err, st) => (some err, st)
      | (none, st) =>
        -- Generate SBOM
        let sbomPath := x.PathJoin chartDir "sbom.cdx.json".toList
        let st := { st with calls := st.calls ++ [ExternalCall.mk Step.generateChartSBOM ch] }
        match x.GenerateChartSBOM ch results version sbomPath st.world with
        | (some err, w) =>
          (some ("generating SBOM for ".toList ++ ch.Name ++ ": ".toList ++ err),
            { st with world := w })
        | (none, w) =>
          let st := { st with world := w }
          -- Generate aggregated vulnerability predicate
          let vulnPredicatePath := x.PathJoin chartDir "vuln-predicate.json".toList
          let st := { st with calls := st.calls ++ [ExternalCall.mk Step.aggregateVulnPredicate ch] }
          match x.AggregateVulnPredicate results reportsDir vulnPredicatePath st.world with
          | (some err, w) =>
            (some ("generating vuln predicate for ".toList ++ ch.Name ++ ": ".toList ++ err),
              { st with world := w })
          | (none, w) =>
            -- Record published chart
            let pc : PublishedChart :=
              { Name := ch.Name, Version := version, Registry := registry, OCIRef := ociRef,
                SBOMPath := sbomPath, VulnPredicatePath := vulnPredicatePath,
                Images := publishedImages results }
            (none, { st with world := w, publishedCharts := st.publishedCharts ++ [pc] })

/-- The chart loop of `AssembleResults` (`for _, ch := range manifest.Charts`):
runs `assembleChart` on the charts in order and stops at the first error. -/
def assembleCharts {σ : Type} (x : Collaborators σ) (resultMap : ResultMap)
    (reportsDir outputDir registry : Str) (publish : Bool) :
    List ChartDiscovery → AssembleState σ → Option Str × AssembleState σ
  | [], st => (none, st)
  | ch :: rest, st =>
    match assembleChart x resultMap reportsDir outputDir registry publish ch st with
    | (some err, st) => (some err, st)
    | (none, st) => assembleCharts x resultMap reportsDir outputDir registry publish rest st

/-- A directory entry as `os.ReadDir` returns it: `e.Name()` and `e.IsDir()`. -/
structure DirEntry where
  Name : Str
  IsDir : Bool
  deriving DecidableEq, Repr

/-- The error of a failed `os.ReadDir`: its text, and whether `os.IsNotExist`
holds of it. -/
structure DirError where
  Message : Str
  NotExist : Bool
  deriving DecidableEq, Repr

/-- The library calls `AssembleResults` and `loadResults` make on files:
`os.ReadFile`, `os.ReadDir`, `os.WriteFile` (on the world state `σ`),
`json.Unmarshal` into a `DiscoveryManifest` and into a `SinglePatchResult`, and
`json.MarshalIndent` of the published charts. -/
structure FileSystem (σ : Type) where
  ReadFile : Str → σ → Except Str Str
  ReadDir : Str → σ → Except DirError (List DirEntry)
  WriteFile : Str → Str → σ → Option Str × σ
  UnmarshalManifest : Str → Except Str DiscoveryManifest
  UnmarshalResult : Str → Except Str SinglePatchResult
  MarshalIndent : List PublishedChart → Except Str Str

/-- The loop of `loadResults` over the directory entries (lines 210-230),
starting from the map `m`.  Directories and names without the suffix `.json`
are passed over; a file that cannot be read, does not parse, or has an empty
`ImageRef` is passed over (the code prints a warning to stderr, which is not
modelled); every other file is stored under its own `ImageRef`. -/
def loadEntries {σ : Type} (x : Collaborators σ) (fs : FileSystem σ) (w : σ) (dir : Str) :
    List DirEntry → ResultMap → ResultMap
  | [], m => m
  | e :: rest, m =>
    if e.IsDir ∨ ¬ HasSuffix e.Name ".json".toList then
      loadEntries x fs w dir rest m
    else
      let filename := x.PathJoin dir e.Name
      match fs.ReadFile filename w with
      | Except.error _ => loadEntries x fs w dir rest m
      | Except.ok data =>
        match fs.UnmarshalResult data with
        | Except.error _ => loadEntries x fs w dir rest m
        | Except.ok r =>
          if r.ImageRef = [] then loadEntries x fs w dir rest m
          else loadEntries x fs w dir rest (m.insert r.ImageRef r)

/-- `loadResults`: reads all `SinglePatchResult` JSON files from a directory,
returning a map keyed by image reference. -/
def loadResults {σ : Type} (x : Collaborators σ) (fs : FileSystem σ) (w : σ) (dir : Str) :
    Except Str ResultMap :=
  let m := ResultMap.empty
  match fs.ReadDir dir w with
  | Except.error err =>
    if err.NotExist then Except.ok m
    else Except.error ("reading results dir: ".toList ++ err.Message)
  | Except.ok entries => Except.ok (loadEntries x fs w dir entries m)

/-- What the body of the loop of `loadResults` (lines 211-229) stores for one
directory entry: `none` when the entry is passed over, `some r` when
`m[r.ImageRef] = &r` is executed. -/
def entryRecord {σ : Type} (x : Collaborators σ) (fs : FileSystem σ) (w : σ) (dir : Str)
    (e : DirEntry) : Option SinglePatchResult :=
  if e.IsDir ∨ ¬ HasSuffix e.Name ".json".toList then none
  else
    match fs.ReadFile (x.PathJoin dir e.Name) w with
    | Except.error _ => none
    | Except.ok data =>
      match fs.UnmarshalResult data with
      | Except.error _ => none
      | Except.ok r => if r.ImageRef = [] then none else some r

/-- What a call of `AssembleResults` leaves behind: the error it returns
(`none` for `nil`), the world, the variable `publishedCharts`, the external
steps invoked, and the calls of `os.WriteFile` made (path and data). -/
structure AssembleOutcome (σ : Type) where
  err : Option Str
  world : σ
  publishedCharts : List PublishedChart
  calls : List ExternalCall
  writes : List (Str × Str)

/-- `AssembleResults`: reads a discovery manifest and patch results from matrix
jobs, runs the chart loop, and writes `published-charts.json` when at least one
chart was published. -/
def AssembleResults {σ : Type} (x : Collaborators σ) (fs : FileSystem σ)
    (manifestPath resultsDir reportsDir outputDir registry : Str) (publish : Bool) (w : σ) :
    AssembleOutcome σ :=
  match fs.ReadFile manifestPath w with
  | Except.error err =>
    { err := some ("reading manifest: ".toList ++ err), world := w, publishedCharts := [],
      calls := [], writes := [] }
  | Except.ok manifestData =>
    match fs.UnmarshalManifest manifestData with
    | Except.error err =>
      { err := some ("parsing manifest: ".toList ++ err), world := w, publishedCharts := [],
        calls := [], writes := [] }
    | Except.ok manifest =>
      -- Load all patch results keyed by image ref.
      match loadResults x fs w resultsDir with
      | Except.error err =>
        { err := some err, world := w, publishedCharts := [], calls := [], writes := [] }
      | Except.ok resultMap =>
        -- Create wrapper charts.
        match assembleCharts x resultMap reportsDir outputDir registry publish manifest.Charts
            { world := w, publishedCharts := [], calls := [] } with
        | (some err, st) =>
          { err := some err, world := st.world, publishedCharts := st.publishedCharts,
            calls := st.calls, writes := [] }
        | (none, st) =>
          -- Write published-charts.json
          if st.publishedCharts.length > 0 then
            match fs.MarshalIndent st.publishedCharts with
            | Except.error err =>
              { err := some ("marshaling published charts: ".toList ++ err), world := st.world,
                publishedCharts := st.publishedCharts, calls := st.calls, writes := [] }
            | Except.ok data =>
              let publishedPath := x.PathJoin outputDir "published-charts.json".toList
              match fs.WriteFile publishedPath data st.world with
              | (some err, w1) =>
                { err := some ("writing published charts: ".toList ++ err), world := w1,
                  publishedCharts := st.publishedCharts, calls := st.calls,
                  writes := [(publishedPath, data)] }
              | (none, w1) =>
                { err := none, world := w1, publishedCharts := st.publishedCharts,
                  calls := st.calls, writes := [(publishedPath, data)] }
          else
            { err := none, world := st.world, publishedCharts := st.publishedCharts,
              calls := st.calls, writes := [] }

/-! ## `internal/values.go` -/

/-- A value stored in a Go `map[string]interface{}` of the values override: a
nested map, or a value that is not a map (the code stores strings). -/
inductive Value where
  | str (s : Str)
  | map (fields : List (Str × Value))

/-- The Go map `map[string]interface{}`, as a list of keys with their values,
each key at most once.  The maps are trees: no sub-map is shared between two
keys, as in every map `GenerateValuesOverride` builds.  Map objects that may be
shared are modelled by `Heap` below. -/
abbrev ValueMap := List (Str × Value)

/-- The Go lookup `v, ok := m[key]`. -/
def mapGet {β : Type} : List (Str × β) → Str → Option β
  | [], _ => none
  | (k, v) :: rest, key => if k = key then some v else mapGet rest key

/-- The Go assignment `m[key] = v`. -/
def mapSet {β : Type} : List (Str × β) → Str → β → List (Str × β)
  | [], key, v => [(key, v)]
  | (k, v0) :: rest, key, v =>
    if k = key then (k, v) :: rest else (k, v0) :: mapSet rest key v

/-- The end of `setImageAtPath` (lines 60-67): sets the image fields at the
leaf. -/
def setLeaf (img : Image) (current : ValueMap) : ValueMap :=
  let current :=
    if img.Registry ≠ [] then mapSet current "registry".toList (Value.str img.Registry)
    else current
  let current := mapSet current "repository".toList (Value.str img.Repository)
  let current :=
    if img.Tag ≠ [] then mapSet current "tag".toList (Value.str img.Tag) else current
  current

/-- The loop of `setImageAtPath` over the path segments (lines 43-58), followed
by the leaf assignments: an existing map under `key` is entered, anything else
is replaced by a new map. -/
def walkSet (img : Image) : List Str → ValueMap → ValueMap
  | [], current => setLeaf img current
  | key :: rest, current =>
    match mapGet current key with
    | some (Value.map m) => mapSet current key (Value.map (walkSet img rest m))
    | _ => mapSet current key (Value.map (walkSet img rest []))

/-- `setImageAtPath`: sets registry/repository/tag at a dot-separated path;
returns the map `root` as the call leaves it. -/
def setImageAtPath (root : ValueMap) (dotPath : Str) (img : Image) : ValueMap :=
  let parts := Split '.' dotPath
  walkSet img parts root

/-- The loop of `GenerateValuesOverride` over the results (lines 19-24),
starting from the map `root`. -/
def overrideRoot : List PatchResult → ValueMap → ValueMap
  | [], root => root
  | r :: rest, root =>
    if r.Error ≠ none ∨ r.Skipped = true then overrideRoot rest root
    else overrideRoot rest (setImageAtPath root r.Original.Path r.Patched)

/-- What a call of `GenerateValuesOverride` leaves behind: the error it
returns, the world, the override tree `root`, and the calls of `os.WriteFile`
made (path and data). -/
structure OverrideOutcome (σ : Type) where
  err : Option Str
  world : σ
  root : ValueMap
  writes : List (Str × Str)

/-- `GenerateValuesOverride`: builds the values override and writes it to
`path`.  `marshal` is `yaml.Marshal`, whose code is outside the sources. -/
def GenerateValuesOverride {σ : Type} (marshal : ValueMap → Except Str Str)
    (fs : FileSystem σ) (results : List PatchResult) (path : Str) (w : σ) :
    OverrideOutcome σ :=
  let root := overrideRoot results []
  if root.length = 0 then
    { err := none, world := w, root := root, writes := [] }
  else
    match marshal root with
    | Except.error err =>
      { err := some ("marshaling values override: ".toList ++ err), world := w, root := root,
        writes := [] }
    | Except.ok data =>
      match fs.WriteFile path data w with
      | (e, w1) => { err := e, world := w1, root := root, writes := [(path, data)] }

/-- Following the segments of a path from a map through nested maps, as the
test does with `got["alertmanager"].(map[string]interface{})`: the map reached,
or `none` when a segment is missing or is not a map. -/
def resolve : List Str → ValueMap → Option ValueMap
  | [], m => some m
  | key :: rest, m =>
    match mapGet m key with
    | some (Value.map sub) => resolve rest sub
    | _ => none

/-! ### Maps as objects

A Go map is a reference: `setImageAtPath` enters an existing map object and
writes into it in place, so a map object that is held under two keys is
changed under both.  The definitions above give the map the call leaves when
no map object is shared, as in a root that `GenerateValuesOverride` builds.
The definitions below keep the map objects on a heap, with their addresses. -/

/-- A value stored in a Go `map[string]interface{}` whose map objects live on
a heap: a reference to a map object, or a value that is not a map. -/
inductive HeapValue where
  | str (s : Str)
  | map (addr : Nat)
  deriving DecidableEq, Repr

/-- The heap of map objects: the entries of the map object at each address,
and the address the next `make(map[string]interface{})` returns. -/
structure Heap where
  objs : Nat → List (Str × HeapValue)
  next : Nat

/-- Replaces the entries of the map object at `addr`. -/
def Heap.write (h : Heap) (addr : Nat) (m : List (Str × HeapValue)) : Heap :=
  { objs := fun b => if b = addr then m else h.objs b, next := h.next }

/-- The two statements `m := make(map[string]interface{})` and
`current[key] = m` (lines 49-50 and 54-55); the new map object is at the
address `h.next`. -/
def Heap.create (h : Heap) (current : Nat) (key : Str) : Heap :=
  let m := h.next
  let h1 : Heap := { objs := fun b => if b = m then [] else h.objs b, next := h.next + 1 }
  h1.write current (mapSet (h1.objs current) key (HeapValue.map m))

/-- The end of `setImageAtPath` (lines 60-67) on the entries of the leaf map
object. -/
def heapSetLeaf (img : Image) (current : List (Str × HeapValue)) : List (Str × HeapValue) :=
  let current :=
    if img.Registry ≠ [] then mapSet current "registry".toList (HeapValue.str img.Registry)
    else current
  let current := mapSet current "repository".toList (HeapValue.str img.Repository)
  let current :=
    if img.Tag ≠ [] then mapSet current "tag".toList (HeapValue.str img.Tag) else current
  current

/-- The loop of `setImageAtPath` over the path segments (lines 43-58), followed
by the leaf assignments, on the heap: `current` is the address of the map
object the walk has reached.  An existing map under `key` is entered (line 47);
anything else is replaced by a new map object (lines 49-51 and 54-56). -/
def heapWalk (img : Image) : List Str → Nat → Heap → Heap
  | [], current, h => h.write current (heapSetLeaf img (h.objs current))
  | key :: rest, current, h =>
    match mapGet (h.objs current) key with
    | some (HeapValue.map m) => heapWalk img rest m h
    | _ => heapWalk img rest h.next (h.create current key)

/-- `setImageAtPath` with the map objects on a heap: `root` is the address of
the root map, and the result is the heap as the call leaves it. -/
def setImageAtPathInPlace (h : Heap) (root : Nat) (dotPath : Str) (img : Image) : Heap :=
  let parts := Split '.' dotPath
  heapWalk img parts root h

/-- Following the segments of a path from the map object at `current` through
nested maps on the heap: the address of the map object reached, or `none` when
a segment is missing or is not a map. -/
def heapResolve : List Str → Nat → Heap → Option Nat
  | [], current, _ => some current
  | key :: rest, current, h =>
    match mapGet (h.objs current) key with
    | some (HeapValue.map m) => heapResolve rest m h
    | _ => none

/-! ## `internal/patcher.go` -/

/-- An entry of `Vulnerabilities` in a Trivy report. -/
structure TrivyVulnerability where
  FixedVersion : Str
  deriving DecidableEq, Repr

/-- An entry of `Results` in a Trivy report. -/
structure TrivyResult where
  Vulnerabilities : List TrivyVulnerability
  deriving DecidableEq, Repr

/-- The struct `trivyReport`. -/
structure trivyReport where
  Results : List TrivyResult
  deriving DecidableEq, Repr

/-- The inner loop of `countFixable`: `count++` for every vulnerability with a
non-empty `FixedVersion`. -/
def countVulnerabilities : List TrivyVulnerability → Int → Int
  | [], count => count
  | v :: rest, count =>
    if v.FixedVersion ≠ [] then countVulnerabilities rest (count + 1)
    else countVulnerabilities rest count

/-- The outer loop of `countFixable` over `report.Results`. -/
def countResults : List TrivyResult → Int → Int
  | [], count => count
  | r :: rest, count => countResults rest (countVulnerabilities r.Vulnerabilities count)

/-- `countFixable`: reads a Trivy JSON report and counts vulnerabilities with a
fix available.  `unmarshal` is `json.Unmarshal` into a `trivyReport`. -/
def countFixable {σ : Type} (fs : FileSystem σ) (unmarshal : Str → Except Str trivyReport)
    (reportPath : Str) (w : σ) : Except Str Int :=
  match fs.ReadFile reportPath w with
  | Except.error err => Except.error err
  | Except.ok data =>
    match unmarshal data with
    | Except.error err => Except.error err
    | Except.ok report =>
      let count := 0
      Except.ok (countResults report.Results count)

/-! ## The tag versioning engine

`cmd/scan_test.go` tests `latestPatchedTagFromList` and `nextPatchedTag`; the
file defining them is not among the sources. -/

/-- Modelled from the spec: the value of a sequence of decimal digits, read as
an unsigned integer (the function parsing the numeric suffix is missing). -/
def digitsValue (s : Str) : Nat :=
  s.foldl (fun acc c => 10 * acc + (c.toNat - 48)) 0

/-- Modelled from the spec: parsing a numeric suffix (missing from the
sources).  The suffix must be a non-empty sequence of decimal digits, with no
sign and nothing else, and its value must be representable, that is at most
`maxInt`; otherwise it does not parse. -/
def parsePatchNumber (maxInt : Nat) (s : Str) : Option Nat :=
  if s ≠ [] ∧ s.all Char.isDigit = true then
    if digitsValue s ≤ maxInt then some (digitsValue s) else none
  else none

/-- Modelled from the spec: `stripLeading p t` is the rest of `t` after the
leading string `p`, when `t` begins with exactly `p` (the matching of a tag
against its source tag is missing from the sources). -/
def stripLeading : Str → Str → Option Str
  | [], t => some t
  | _ :: _, [] => none
  | a :: p, b :: t => if a = b then stripLeading p t else none

/-- Modelled from the spec: the number `N` of a tag of the numbered form
`S-patched-N` with a valid numeric suffix; `none` for every other tag (the
function is missing from the sources). -/
def patchNumber (maxInt : Nat) (S t : Str) : Option Nat :=
  match stripLeading (S ++ "-patched-".toList) t with
  | some rest => parsePatchNumber maxInt rest
  | none => none

/-- Modelled from the spec: the numbered tag of `S` with the greatest valid
number among `tags`, with that number; `none` when there is no such tag.  Of
several tags with the same number the first one is kept (the search is missing
from the sources). -/
def bestNumbered (maxInt : Nat) (S : Str) : List Str → Option (Nat × Str)
  | [] => none
  | t :: rest =>
    match patchNumber maxInt S t with
    | none => bestNumbered maxInt S rest
    | some n =>
      match bestNumbered maxInt S rest with
      | none => some (n, t)
      | some (m, u) => if n < m then some (m, u) else some (n, t)

/-- Modelled from the spec: decimal rendering of a number, as in `S-patched-<max+1>`
(the formatting is missing from the sources). -/
def Itoa (n : Nat) : Str := Nat.toDigits 10 n

/-- Modelled from the spec: `LatestPatchedTag(tags, S)` (in the tests
`latestPatchedTagFromList`, whose code is missing): the numbered tag with the
greatest valid number if there is one, otherwise the bare form `S-patched` if
present, otherwise the empty string. -/
def LatestPatchedTag (maxInt : Nat) (tags : List Str) (S : Str) : Str :=
  match bestNumbered maxInt S tags with
  | some (_, t) => t
  | none => if S ++ "-patched".toList ∈ tags then S ++ "-patched".toList else []

/-- Modelled from the spec: `NextPatchedTag(tags, S)` (in the tests
`nextPatchedTag`, whose code is missing): `S-patched-<max+1>` if some numbered
tag has a valid number, otherwise `S-patched-1` if the bare form is present,
otherwise the bare form `S-patched`. -/
def NextPatchedTag (maxInt : Nat) (tags : List Str) (S : Str) : Str :=
  match bestNumbered maxInt S tags with
  | some (n, _) => S ++ "-patched-".toList ++ Itoa (n + 1)
  | none =>
    if S ++ "-patched".toList ∈ tags then S ++ "-patched-1".toList
    else S ++ "-patched".toList

/-- Modelled from the spec: the tag lists of the monotonicity property,
`T_0 = T` and `T_(i+1) = T_i` with `NextPatchedTag(T_i, S)` appended. -/
def tagsAfter (maxInt : Nat) (S : Str) (T : List Str) : Nat → List Str
  | 0 => T
  | i + 1 => tagsAfter maxInt S T i ++ [NextPatchedTag maxInt (tagsAfter maxInt S T i) S]

/-- Modelled from the spec: the results of the monotonicity property,
`r_i = NextPatchedTag(T_i, S)`. -/
def nextResult (maxInt : Nat) (S : Str) (T : List Str) (i : Nat) : Str :=
  NextPatchedTag maxInt (tagsAfter maxInt S T i) S

/-! ## Example data

Concrete inputs on which the statements below are evaluated. -/

/-- Collaborators that always succeed, on a world that counts the steps run. -/
def exampleCollaborators : Collaborators Nat where
  PathJoin := fun a b => a ++ '/' :: b
  Stat := fun _ _ => false
  CreateWrapperChart := fun dep _ _ _ w => (Except.ok (dep.Version ++ "-0".toList), w + 1)
  PublishChart := fun dir _ w => (Except.ok dir, w + 1)
  GenerateChartSBOM := fun _ _ _ _ w => (none, w + 1)
  AggregateVulnPredicate := fun _ _ _ w => (none, w + 1)

/-- Image A: `quay.io/prometheus/prometheus:v2.45.0`. -/
def imageA : ImageDiscovery :=
  { Registry := "quay.io".toList, Repository := "prometheus/prometheus".toList,
    Tag := "v2.45.0".toList, Path := "server.image".toList }

/-- Image B: `quay.io/prometheus/alertmanager:v0.26.0`. -/
def imageB : ImageDiscovery :=
  { Registry := "quay.io".toList, Repository := "prometheus/alertmanager".toList,
    Tag := "v0.26.0".toList, Path := "alertmanager.image".toList }

/-- A successful patch of image A: `changed=true`. -/
def recordA : SinglePatchResult :=
  { ImageRef := "quay.io/prometheus/prometheus:v2.45.0".toList,
    PatchedRegistry := "ghcr.io/verity-org".toList,
    PatchedRepository := "prometheus/prometheus".toList,
    PatchedTag := "v2.45.0-patched".toList, VulnCount := 3, Skipped := false,
    SkipReason := [], Error := [], Changed := true }

/-- Image B was mirrored without modification: skipped, `changed=false`, but
the record carries a patched reference. -/
def recordB : SinglePatchResult :=
  { ImageRef := "quay.io/prometheus/alertmanager:v0.26.0".toList,
    PatchedRegistry := "ghcr.io/verity-org".toList,
    PatchedRepository := "prometheus/alertmanager".toList,
    PatchedTag := "v0.26.0".toList, VulnCount := 0, Skipped := true,
    SkipReason := "already up to date".toList, Error := [], Changed := false }

/-- A failed patch of image A whose record nevertheless has `changed=true`. -/
def recordFailed : SinglePatchResult :=
  { ImageRef := "quay.io/prometheus/prometheus:v2.45.0".toList,
    PatchedRegistry := [], PatchedRepository := [], PatchedTag := [], VulnCount := 0,
    Skipped := false, SkipReason := [], Error := "copa patch: exit status 1".toList,
    Changed := true }

/-- The result set holding `recordA` and `recordB`. -/
def exampleResults : ResultMap :=
  (ResultMap.empty.insert recordA.ImageRef recordA).insert recordB.ImageRef recordB

/-- Image B left alone: skipped, `changed=false`, no patched reference. -/
def recordUntouched : SinglePatchResult :=
  { ImageRef := "quay.io/prometheus/alertmanager:v0.26.0".toList,
    PatchedRegistry := [], PatchedRepository := [], PatchedTag := [], VulnCount := 0,
    Skipped := true, SkipReason := "already up to date".toList, Error := [], Changed := false }

/-- The result set holding `recordA` and `recordUntouched`. -/
def plainResults : ResultMap :=
  (ResultMap.empty.insert recordA.ImageRef recordA).insert recordUntouched.ImageRef
    recordUntouched

/-- The result set holding only `recordFailed`. -/
def failedResults : ResultMap :=
  ResultMap.empty.insert recordFailed.ImageRef recordFailed

/-- A chart with the two images A and B. -/
def exampleChart : ChartDiscovery :=
  { Name := "prometheus".toList, Version := "28.9.1".toList,
    Repository := "oci://ghcr.io/prometheus-community/charts".toList,
    Images := [imageA, imageB] }

/-- A chart whose only image has no result record in `exampleResults`. -/
def untouchedChart : ChartDiscovery :=
  { Name := "grafana".toList, Version := "7.0.0".toList,
    Repository := "oci://ghcr.io/grafana/helm-charts".toList,
    Images := [{ Registry := "docker.io".toList, Repository := "grafana/grafana".toList,
                 Tag := "12.3.3".toList, Path := "image".toList }] }

/-- A manifest with `untouchedChart` and `exampleChart`. -/
def exampleManifest : DiscoveryManifest :=
  { Charts := [untouchedChart, exampleChart],
    Images := untouchedChart.Images ++ exampleChart.Images }

/-- A file system with a manifest file and a results directory holding the
files of `recordA` and `recordB`, a text file and a sub-directory. -/
def exampleFileSystem : FileSystem Nat where
  ReadFile := fun path _ =>
    if path = "manifest.json".toList then Except.ok "manifest".toList
    else if path = "results/a.json".toList then Except.ok "A".toList
    else if path = "results/b.json".toList then Except.ok "B".toList
    else Except.error "no such file".toList
  ReadDir := fun dir _ =>
    if dir = "results".toList then
      Except.ok [⟨"a.json".toList, false⟩, ⟨"b.json".toList, false⟩,
        ⟨"notes.txt".toList, false⟩, ⟨"old.json".toList, true⟩]
    else Except.error ⟨"no such file or directory".toList, true⟩
  WriteFile := fun _ _ w => (none, w + 1)
  UnmarshalManifest := fun data =>
    if data = "manifest".toList then Except.ok exampleManifest
    else Except.error "unexpected end of JSON input".toList
  UnmarshalResult := fun data =>
    if data = "A".toList then Except.ok recordA
    else if data = "B".toList then Except.ok recordB
    else Except.error "unexpected end of JSON input".toList
  MarshalIndent := fun pcs => Except.ok (Join ',' (pcs.map PublishedChart.Name))

/-- The image `nginx:1.25.3`, with no registry. -/
def nginxImage : ImageDiscovery :=
  { Registry := [], Repository := "nginx".toList, Tag := "1.25.3".toList,
    Path := "image".toList }

/-- A successful patch recorded under the normalized reference
`docker.io/library/nginx:1.25.3`. -/
def recordNginx : SinglePatchResult :=
  { ImageRef := "docker.io/library/nginx:1.25.3".toList,
    PatchedRegistry := "ghcr.io/verity-org".toList, PatchedRepository := "library/nginx".toList,
    PatchedTag := "1.25.3-patched".toList, VulnCount := 2, Skipped := false,
    SkipReason := [], Error := [], Changed := true }

/-- The result set holding only `recordNginx`. -/
def nginxResults : ResultMap :=
  ResultMap.empty.insert recordNginx.ImageRef recordNginx

/-- A results directory whose only file, `a.txt`, holds the JSON of `recordA`. -/
def textFileSystem : FileSystem Nat where
  ReadFile := fun path _ =>
    if path = "results/a.txt".toList then Except.ok "A".toList
    else Except.error "no such file".toList
  ReadDir := fun dir _ =>
    if dir = "results".toList then Except.ok [⟨"a.txt".toList, false⟩]
    else Except.error ⟨"no such file or directory".toList, true⟩
  WriteFile := fun _ _ w => (none, w + 1)
  UnmarshalManifest := fun _ => Except.ok exampleManifest
  UnmarshalResult := fun data =>
    if data = "A".toList then Except.ok recordA
    else Except.error "unexpected end of JSON input".toList
  MarshalIndent := fun pcs => Except.ok (Join ',' (pcs.map PublishedChart.Name))

/-- A results directory in which `a.json` holds `recordA` and `b.json`, listed
after it, holds `recordFailed`, which declares the same `ImageRef`. -/
def duplicateFileSystem : FileSystem Nat where
  ReadFile := fun path _ =>
    if path = "results/a.json".toList then Except.ok "A".toList
    else if path = "results/b.json".toList then Except.ok "F".toList
    else Except.error "no such file".toList
  ReadDir := fun dir _ =>
    if dir = "results".toList then
      Except.ok [⟨"a.json".toList, false⟩, ⟨"b.json".toList, false⟩]
    else Except.error ⟨"permission denied".toList, false⟩
  WriteFile := fun _ _ w => (none, w + 1)
  UnmarshalManifest := fun _ => Except.ok exampleManifest
  UnmarshalResult := fun data =>
    if data = "A".toList then Except.ok recordA
    else if data = "F".toList then Except.ok recordFailed
    else Except.error "unexpected end of JSON input".toList
  MarshalIndent := fun pcs => Except.ok (Join ',' (pcs.map PublishedChart.Name))

/-- The four results of `TestGenerateValuesOverride`: two patched images, one
skipped and one with an error. -/
def overrideResults : List PatchResult :=
  [ { Original := ⟨"docker.io".toList, "prom/alertmanager".toList, "v0.26.0".toList,
        "alertmanager.image".toList⟩,
      Patched := ⟨"ghcr.io/descope".toList, "prom/alertmanager".toList,
        "v0.26.0-patched".toList, []⟩,
      VulnCount := 3, Skipped := false, SkipReason := [], Error := none, ReportPath := [],
      UpstreamReportPath := [], OverriddenFrom := [] },
    { Original := ⟨[], "quay.io/prometheus/prometheus".toList, "v2.48.0".toList,
        "server.image".toList⟩,
      Patched := ⟨[], "quay.io/prometheus/prometheus".toList, "v2.48.0-patched".toList, []⟩,
      VulnCount := 5, Skipped := false, SkipReason := [], Error := none, ReportPath := [],
      UpstreamReportPath := [], OverriddenFrom := [] },
    { Original := ⟨[], "quay.io/prometheus/node-exporter".toList, "v1.7.0".toList,
        "nodeExporter.image".toList⟩,
      Patched := ⟨[], "quay.io/prometheus/node-exporter".toList, "v1.7.0".toList, []⟩,
      VulnCount := 0, Skipped := true, SkipReason := [], Error := none, ReportPath := [],
      UpstreamReportPath := [], OverriddenFrom := [] },
    { Original := ⟨[], "some/broken".toList, "latest".toList, "broken.image".toList⟩,
      Patched := ⟨[], [], [], []⟩,
      VulnCount := 0, Skipped := false, SkipReason := [], Error := some "file does not exist".toList,
      ReportPath := [], UpstreamReportPath := [], OverriddenFrom := [] } ]

/-- A stand-in for `yaml.Marshal` that always succeeds: the top-level keys,
separated by commas. -/
def exampleMarshal (root : ValueMap) : Except Str Str :=
  Except.ok (Join ',' (root.map Prod.fst))

/-- The report of `TestCountFixable`. -/
def exampleReport : trivyReport :=
  { Results :=
      [ { Vulnerabilities := [⟨"1.2.3".toList⟩, ⟨[]⟩, ⟨"4.5.6".toList⟩] },
        { Vulnerabilities := [⟨"7.8.9".toList⟩] } ] }

/-- A file system holding the report of `TestCountFixable` at `report.json`. -/
def reportFileSystem : FileSystem Nat where
  ReadFile := fun path _ =>
    if path = "report.json".toList then Except.ok "report".toList
    else Except.error "no such file".toList
  ReadDir := fun _ _ => Except.error ⟨"no such file or directory".toList, true⟩
  WriteFile := fun _ _ w => (none, w + 1)
  UnmarshalManifest := fun _ => Except.ok exampleManifest
  UnmarshalResult := fun _ => Except.error "unexpected end of JSON input".toList
  MarshalIndent := fun pcs => Except.ok (Join ',' (pcs.map PublishedChart.Name))

/-- A stand-in for `json.Unmarshal` into a `trivyReport` that parses the one
file content `report`. -/
def exampleUnmarshalReport (data : Str) : Except Str trivyReport :=
  if data = "report".toList then Except.ok exampleReport
  else Except.error "unexpected end of JSON input".toList

/-- A chart whose only image is image A. -/
def failedChart : ChartDiscovery :=
  { Name := "prometheus".toList, Version := "28.9.1".toList,
    Repository := "oci://ghcr.io/prometheus-community/charts".toList, Images := [imageA] }

/-- The patched image of the second result of `TestGenerateValuesOverride`. -/
def serverPatched : Image :=
  ⟨[], "quay.io/prometheus/prometheus".toList, "v2.48.0-patched".toList, []⟩

/-- The patched image of the first result of `TestGenerateValuesOverride`. -/
def alertmanagerPatched : Image :=
  ⟨"ghcr.io/descope".toList, "prom/alertmanager".toList, "v0.26.0-patched".toList, []⟩

/-- A heap in which the root map (address 0) holds the same empty map object
(address 1) under the two keys `a` and `b`. -/
def sharedHeap : Heap where
  objs := fun addr =>
    if addr = 0 then [("a".toList, HeapValue.map 1), ("b".toList, HeapValue.map 1)] else []
  next := 2

/-- A heap holding the tree `server: {image: {repository, tag}}`: the root map
at address 0, the map under `server` at address 1 and the leaf at address 2. -/
def serverHeap : Heap where
  objs := fun addr =>
    if addr = 0 then [("server".toList, HeapValue.map 1)]
    else if addr = 1 then [("image".toList, HeapValue.map 2)]
    else if addr = 2 then
      [ ("repository".toList, HeapValue.str "quay.io/prometheus/prometheus".toList),
        ("tag".toList, HeapValue.str "v2.48.0-patched".toList) ]
    else []
  next := 3

/-! ## Splitting and joining -/

theorem Split_ne_nil (sep : Char) (s : Str) : Split sep s ≠ [] := by
  induction s with
  | nil => simp [Split]
  | cons c cs ih =>
    unfold Split
    split
    · simp
    · split <;> simp

theorem Split_of_not_mem (sep : Char) (s : Str) (h : sep ∉ s) : Split sep s = [s] := by
  induction s with
  | nil => simp [Split]
  | cons c cs ih =>
    have hc : ¬ c = sep := fun e => h (by simp [e])
    have hcs : sep ∉ cs := fun e => h (by simp [e])
    simp [Split, hc, ih hcs]

theorem Split_append_sep (sep : Char) (a b : Str) :
    Split sep (a ++ sep :: b) = Split sep a ++ Split sep b := by
  induction a with
  | nil => simp [Split]
  | cons c cs ih =>
    by_cases hc : c = sep
    · simp [Split, hc, ih]
    · rw [List.cons_append]
      simp only [Split, hc, if_false]
      rw [ih]
      cases h : Split sep cs with
      | nil => exact absurd h (Split_ne_nil sep cs)
      | cons p ps => simp

theorem Join_Split (sep : Char) (s : Str) : Join sep (Split sep s) = s := by
  induction s with
  | nil => simp [Split, Join]
  | cons c cs ih =>
    by_cases hc : c = sep
    · simp only [Split, hc, if_true]
      cases h : Split sep cs with
      | nil => exact absurd h (Split_ne_nil sep cs)
      | cons p ps => rw [h] at ih; simp [Join, ih]
    · simp only [Split, hc, if_false]
      cases h : Split sep cs with
      | nil => exact absurd h (Split_ne_nil sep cs)
      | cons p ps =>
        rw [h] at ih
        cases ps with
        | nil => simp [Join] at ih ⊢; exact ih
        | cons q qs => simp [Join] at ih ⊢; exact ih

theorem exists_last_sep (sep : Char) (s : Str) (h : sep ∈ s) :
    ∃ a b, s = a ++ sep :: b ∧ sep ∉ b := by
  induction s with
  | nil => simp at h
  | cons c cs ih =>
    by_cases hcs : sep ∈ cs
    · obtain ⟨a, b, e, hb⟩ := ih hcs
      exact ⟨c :: a, b, by simp [e], hb⟩
    · have : c = sep := by
        rcases List.mem_cons.mp h with e | e
        · exact e.symm
        · exact absurd e hcs
      exact ⟨[], cs, by simp [this], hcs⟩

theorem exists_first_sep (sep : Char) (s : Str) (h : sep ∈ s) :
    ∃ a b, s = a ++ sep :: b ∧ sep ∉ a := by
  induction s with
  | nil => simp at h
  | cons c cs ih =>
    by_cases hc : c = sep
    · exact ⟨[], cs, by simp [hc], by simp⟩
    · have hcs : sep ∈ cs := by
        rcases List.mem_cons.mp h with e | e
        · exact absurd e.symm hc
        · exact e
      obtain ⟨a, b, e, ha⟩ := ih hcs
      refine ⟨c :: a, b, by simp [e], ?_⟩
      simp only [List.mem_cons, not_or]
      exact ⟨fun e => hc e.symm, ha⟩

theorem SplitN2_of_not_mem (sep : Char) (s : Str) (h : sep ∉ s) : SplitN2 sep s = [s] := by
  induction s with
  | nil => simp [SplitN2]
  | cons c cs ih =>
    have hc : ¬ c = sep := fun e => h (by simp [e])
    have hcs : sep ∉ cs := fun e => h (by simp [e])
    simp [SplitN2, hc, ih hcs]

theorem SplitN2_append_sep (sep : Char) (a b : Str) (h : sep ∉ a) :
    SplitN2 sep (a ++ sep :: b) = [a, b] := by
  induction a with
  | nil => simp [SplitN2]
  | cons c cs ih =>
    have hc : ¬ c = sep := fun e => h (by simp [e])
    have hcs : sep ∉ cs := fun e => h (by simp [e])
    simp [SplitN2, hc, ih hcs]

theorem ParseImageRef_tagged (pre t : Str) (ht : ':' ∉ t) :
    ParseImageRef (pre ++ ':' :: t) = splitRegistry pre t := by
  have hparts : Split ':' (pre ++ ':' :: t) = Split ':' pre ++ [t] := by
    rw [Split_append_sep, Split_of_not_mem ':' t ht]
  have hlen : (Split ':' pre ++ [t]).length > 1 := by
    have := List.length_pos.mpr (Split_ne_nil ':' pre)
    simp only [List.length_append, List.length_singleton]
    omega
  unfold ParseImageRef splitRegistry looksLikeRegistry
  simp only [hparts, hlen, if_true, List.getLast?_append, List.getLast?_singleton,
    List.dropLast_concat, Join_Split]
  rfl

theorem ParseImageRef_untagged (s : Str) (hs : ':' ∉ s) :
    ParseImageRef s = splitRegistry s [] := by
  unfold ParseImageRef splitRegistry looksLikeRegistry
  simp only [Split_of_not_mem ':' s hs, List.length_singleton, gt_iff_lt, lt_self_iff_false,
    if_false]

theorem splitRegistry_registry (g r t : Str) (hg : '/' ∉ g) (hl : looksLikeRegistry g = true) :
    splitRegistry (g ++ '/' :: r) t = (g, r, t) := by
  simp [splitRegistry, SplitN2_append_sep '/' g r hg, hl]

theorem splitRegistry_bare (g r t : Str) (hg : '/' ∉ g) (hl : looksLikeRegistry g = false) :
    splitRegistry (g ++ '/' :: r) t = ([], g ++ '/' :: r, t) := by
  simp [splitRegistry, SplitN2_append_sep '/' g r hg, hl]

theorem splitRegistry_noslash (r t : Str) (hr : '/' ∉ r) :
    splitRegistry r t = ([], r, t) := by
  simp [splitRegistry, SplitN2_of_not_mem '/' r hr]

theorem ParseImageRef_assembled (g r t : Str) (hg : '/' ∉ g)
    (hl : looksLikeRegistry g = true) (ht : ':' ∉ t)
    (hb : t = [] → ':' ∉ g ∧ ':' ∉ r) :
    ParseImageRef (if t ≠ [] then (g ++ '/' :: r) ++ ':' :: t else g ++ '/' :: r) = (g, r, t) := by
  by_cases h : t = []
  · obtain ⟨h1, h2⟩ := hb h
    have hc : ':' ∉ g ++ '/' :: r := by
      simp only [List.mem_append, List.mem_cons, not_or]
      exact ⟨h1, by decide, h2⟩
    simp only [h, ne_eq, not_true_eq_false, if_false]
    rw [ParseImageRef_untagged _ hc, splitRegistry_registry g r [] hg hl]
  · simp only [ne_eq, h, not_false_eq_true, if_true]
    rw [ParseImageRef_tagged _ t ht, splitRegistry_registry g r t hg hl]

theorem ParseImageRef_assembled_bare (r t : Str)
    (hr : ∀ a b, r = a ++ '/' :: b → '/' ∉ a → looksLikeRegistry a = false)
    (ht : ':' ∉ t) (hb : t = [] → ':' ∉ r) :
    ParseImageRef (if t ≠ [] then r ++ ':' :: t else r) = ([], r, t) := by
  have hs : ∀ u, splitRegistry r u = ([], r, u) := by
    intro u
    by_cases hsl : '/' ∈ r
    · obtain ⟨a, b, e, ha⟩ := exists_first_sep '/' r hsl
      rw [e, splitRegistry_bare a b u ha (hr a b e ha)]
    · exact splitRegistry_noslash r u hsl
  by_cases h : t = []
  · simp only [h, ne_eq, not_true_eq_false, if_false]
    rw [ParseImageRef_untagged _ (hb h), hs]
  · simp only [ne_eq, h, not_false_eq_true, if_true]
    rw [ParseImageRef_tagged _ t ht, hs]

/-- C1, as stated, fails: the image with registry `myregistry`, repository
`nginx` and tag `1.0` has a non-empty repository, yet parsing its reference
gives no registry and the repository `myregistry/nginx`. -/
theorem ParseImageRef_Reference_not_inverse :
    (Image.mk "myregistry".toList "nginx".toList "1.0".toList []).Repository ≠ [] ∧
    ParseImageRef (Image.mk "myregistry".toList "nginx".toList "1.0".toList []).Reference
      = ([], "myregistry/nginx".toList, "1.0".toList) ∧
    ParseImageRef (Image.mk "myregistry".toList "nginx".toList "1.0".toList []).Reference
      ≠ ("myregistry".toList, "nginx".toList, "1.0".toList) := by
  decide

/-- C1, amended: parsing the reference of an image gives back its registry,
repository and tag whenever the tag has no `:`, an image without tag has no `:`
in registry and repository, a non-empty registry has no `/` and looks like a
registry (contains `.` or `:`, or is `localhost`), and with an empty registry
the text before the first `/` of the repository does not look like one. -/
theorem ParseImageRef_Reference_roundtrip (img : Image)
    (htag : ':' ∉ img.Tag)
    (hbare : img.Tag = [] → ':' ∉ img.Registry ∧ ':' ∉ img.Repository)
    (hreg : img.Registry ≠ [] → '/' ∉ img.Registry ∧ looksLikeRegistry img.Registry = true)
    (hrepo : img.Registry = [] → ∀ a b, img.Repository = a ++ '/' :: b → '/' ∉ a →
      looksLikeRegistry a = false) :
    ParseImageRef img.Reference = (img.Registry, img.Repository, img.Tag) := by
  by_cases hg : img.Registry = []
  · have h := ParseImageRef_assembled_bare img.Repository img.Tag (hrepo hg) htag
      (fun e => (hbare e).2)
    simpa [Image.Reference, hg] using h
  · obtain ⟨h1, h2⟩ := hreg hg
    have h := ParseImageRef_assembled img.Registry img.Repository img.Tag h1 h2 htag hbare
    simpa [Image.Reference, hg] using h

theorem ParseImageRef_Reference_roundtrip_witness :
    ParseImageRef
        (Image.mk "ghcr.io".toList "verity-org/nginx".toList "1.25.3-patched".toList
          "image".toList).Reference
      = ("ghcr.io".toList, "verity-org/nginx".toList, "1.25.3-patched".toList) :=
  ParseImageRef_Reference_roundtrip
    (Image.mk "ghcr.io".toList "verity-org/nginx".toList "1.25.3-patched".toList "image".toList)
    (by decide) (by decide) (by decide) (fun h => absurd h (by decide))

theorem splitRegistry_facts (pre t : Str) :
    (splitRegistry pre t).2.2 = t ∧ '/' ∉ (splitRegistry pre t).1 ∧
    ((splitRegistry pre t).1 ≠ [] → looksLikeRegistry (splitRegistry pre t).1 = true) ∧
    (':' ∉ pre → ':' ∉ (splitRegistry pre t).1 ∧ ':' ∉ (splitRegistry pre t).2.1) := by
  by_cases hsl : '/' ∈ pre
  · obtain ⟨a, b, e, ha⟩ := exists_first_sep '/' pre hsl
    subst e
    cases hl : looksLikeRegistry a with
    | true =>
      rw [splitRegistry_registry a b t ha hl]
      refine ⟨rfl, ha, fun _ => hl, fun h => ?_⟩
      simp only [List.mem_append, List.mem_cons, not_or] at h
      exact ⟨h.1, h.2.2⟩
    | false =>
      rw [splitRegistry_bare a b t ha hl]
      exact ⟨rfl, by simp, fun h => absurd rfl h, fun h => ⟨by simp, h⟩⟩
  · rw [splitRegistry_noslash pre t hsl]
    exact ⟨rfl, by simp, fun h => absurd rfl h, fun h => ⟨by simp, h⟩⟩

theorem ParseImageRef_facts (x : Str) :
    ':' ∉ (ParseImageRef x).2.2 ∧ '/' ∉ (ParseImageRef x).1 ∧
    ((ParseImageRef x).1 ≠ [] → looksLikeRegistry (ParseImageRef x).1 = true) ∧
    (x.getLast? ≠ some ':' → (ParseImageRef x).2.2 = [] →
      ':' ∉ (ParseImageRef x).1 ∧ ':' ∉ (ParseImageRef x).2.1) := by
  by_cases hc : ':' ∈ x
  · obtain ⟨pre, t, e, ht⟩ := exists_last_sep ':' x hc
    subst e
    rw [ParseImageRef_tagged pre t ht]
    obtain ⟨f1, f2, f3, _⟩ := splitRegistry_facts pre t
    refine ⟨by rw [f1]; exact ht, f2, f3, fun hlast htag => ?_⟩
    rw [f1] at htag
    subst htag
    exact absurd (by simp) hlast
  · rw [ParseImageRef_untagged x hc]
    obtain ⟨f1, f2, f3, f4⟩ := splitRegistry_facts x []
    exact ⟨by rw [f1]; simp, f2, f3, fun _ _ => f4 hc⟩

theorem NormalizeImageRef_eq (x : Str) :
    NormalizeImageRef x =
      (if (ParseImageRef x).2.2 ≠ [] then
        ((if (ParseImageRef x).1 = [] then "docker.io".toList else (ParseImageRef x).1) ++ '/' ::
          (if (if (ParseImageRef x).1 = [] then "docker.io".toList else (ParseImageRef x).1)
                = "docker.io".toList ∧ ¬ Contains (ParseImageRef x).2.1 '/' then
              "library/".toList ++ (ParseImageRef x).2.1
            else (ParseImageRef x).2.1)) ++ ':' :: (ParseImageRef x).2.2
      else
        (if (ParseImageRef x).1 = [] then "docker.io".toList else (ParseImageRef x).1) ++ '/' ::
          (if (if (ParseImageRef x).1 = [] then "docker.io".toList else (ParseImageRef x).1)
                = "docker.io".toList ∧ ¬ Contains (ParseImageRef x).2.1 '/' then
              "library/".toList ++ (ParseImageRef x).2.1
            else (ParseImageRef x).2.1)) := by
  rfl

theorem NormalizeImageRef_parse (x : Str) (hx : x.getLast? ≠ some ':') :
    ∃ g r : Str, g ≠ [] ∧ (g = "docker.io".toList → Contains r '/' = true) ∧
      ParseImageRef (NormalizeImageRef x) = (g, r, (ParseImageRef x).2.2) ∧
      NormalizeImageRef x =
        (if (ParseImageRef x).2.2 ≠ [] then (g ++ '/' :: r) ++ ':' :: (ParseImageRef x).2.2
         else g ++ '/' :: r) := by
  obtain ⟨f1, f2, f3, f4⟩ := ParseImageRef_facts x
  refine ⟨if (ParseImageRef x).1 = [] then "docker.io".toList else (ParseImageRef x).1,
    if (if (ParseImageRef x).1 = [] then "docker.io".toList else (ParseImageRef x).1)
          = "docker.io".toList ∧ ¬ Contains (ParseImageRef x).2.1 '/' then
        "library/".toList ++ (ParseImageRef x).2.1
      else (ParseImageRef x).2.1, ?_, ?_, ?_, NormalizeImageRef_eq x⟩
  · by_cases h : (ParseImageRef x).1 = []
    · simp [h]
    · simp [h]
  · intro hg
    by_cases hcnd : (if (ParseImageRef x).1 = [] then "docker.io".toList else (ParseImageRef x).1)
          = "docker.io".toList ∧ ¬ Contains (ParseImageRef x).2.1 '/'
    · rw [if_pos hcnd]
      simp [Contains]
    · rw [if_neg hcnd]
      by_contra hc
      exact hcnd ⟨hg, hc⟩
  · rw [NormalizeImageRef_eq x]
    apply ParseImageRef_assembled
    · by_cases h : (ParseImageRef x).1 = []
      · simp only [h, if_true]; decide
      · simp only [h, if_false]; exact f2
    · by_cases h : (ParseImageRef x).1 = []
      · simp only [h, if_true]; decide
      · simp only [h, if_false]; exact f3 h
    · exact f1
    · intro ht
      obtain ⟨c1, c2⟩ := f4 hx ht
      constructor
      · by_cases h : (ParseImageRef x).1 = []
        · simp only [h, if_true]; decide
        · simp only [h, if_false]; exact c1
      · by_cases hcnd : (if (ParseImageRef x).1 = [] then "docker.io".toList
              else (ParseImageRef x).1) = "docker.io".toList ∧ ¬ Contains (ParseImageRef x).2.1 '/'
        · rw [if_pos hcnd]
          simp only [List.mem_append, not_or]
          exact ⟨by decide, c2⟩
        · rw [if_neg hcnd]
          exact c2

/-- C2, as stated, fails: normalizing `localhost:5000/img:` gives
`localhost:5000/img`, and normalizing that gives
`docker.io/library/localhost:5000/img`. -/
theorem NormalizeImageRef_not_idempotent :
    NormalizeImageRef "localhost:5000/img:".toList = "localhost:5000/img".toList ∧
    NormalizeImageRef (NormalizeImageRef "localhost:5000/img:".toList)
      = "docker.io/library/localhost:5000/img".toList ∧
    NormalizeImageRef (NormalizeImageRef "localhost:5000/img:".toList)
      ≠ NormalizeImageRef "localhost:5000/img:".toList := by
  decide

/-- C2, amended: `NormalizeImageRef` is idempotent on every string that does
not end with `:`. -/
theorem NormalizeImageRef_idempotent (x : Str) (hx : x.getLast? ≠ some ':') :
    NormalizeImageRef (NormalizeImageRef x) = NormalizeImageRef x := by
  obtain ⟨g, r, hg, hr, hp, he⟩ := NormalizeImageRef_parse x hx
  rw [NormalizeImageRef_eq (NormalizeImageRef x), hp]
  simp only [hg, if_false]
  have hno : ¬ (g = "docker.io".toList ∧ ¬ Contains r '/' = true) := fun h => h.2 (hr h.1)
  simp only [hno, if_false]
  exact he.symm

theorem NormalizeImageRef_idempotent_witness :
    "nginx:1.25.3".toList.getLast? ≠ some ':' ∧
    NormalizeImageRef (NormalizeImageRef "nginx:1.25.3".toList)
      = NormalizeImageRef "nginx:1.25.3".toList :=
  ⟨by decide, NormalizeImageRef_idempotent "nginx:1.25.3".toList (by decide)⟩

/-! ## Change aggregation -/

theorem toImage_Reference (d : ImageDiscovery) : d.toImage.Reference = d.Reference := rfl

theorem hasChanges_iff (resultMap : ResultMap) (images : List ImageDiscovery) :
    hasChanges resultMap images = true ↔
      ∃ img ∈ images, ∃ r, resultMap img.Reference = some r ∧ r.Changed = true := by
  induction images with
  | nil => simp [hasChanges]
  | cons d rest ih =>
    unfold hasChanges
    simp only [toImage_Reference]
    cases hr : resultMap d.Reference with
    | none => simp [ih, hr]
    | some r =>
      cases hc : r.Changed with
      | true => simp [hr, hc]
      | false => simp [ih, hr, hc]

theorem assembleChart_skip {σ : Type} (x : Collaborators σ) (resultMap : ResultMap)
    (reportsDir outputDir registry : Str) (publish : Bool) (ch : ChartDiscovery)
    (st : AssembleState σ) (hc : hasChanges resultMap ch.Images = false) :
    assembleChart x resultMap reportsDir outputDir registry publish ch st = (none, st) := by
  simp [assembleChart, hc]

theorem assembleChart_spec {σ : Type} (x : Collaborators σ) (resultMap : ResultMap)
    (reportsDir outputDir registry : Str) (publish : Bool) (ch : ChartDiscovery)
    (st : AssembleState σ) (hc : hasChanges resultMap ch.Images = true) :
    (∃ cs, (assembleChart x resultMap reportsDir outputDir registry publish ch st).2.calls
        = st.calls ++ cs ∧ ∀ c ∈ cs, c.chart = ch) ∧
    ((assembleChart x resultMap reportsDir outputDir registry publish ch st).1 = none →
      ∃ pc, (assembleChart x resultMap reportsDir outputDir registry publish ch st).2.publishedCharts
          = st.publishedCharts ++ [pc] ∧ pc.Name = ch.Name ∧ pc.Registry = registry ∧
        pc.Images
          = publishedImages (buildPatchResults x st.world ch.Images resultMap reportsDir)) ∧
    ((assembleChart x resultMap reportsDir outputDir registry publish ch st).1 ≠ none →
      (assembleChart x resultMap reportsDir outputDir registry publish ch st).2.publishedCharts
        = st.publishedCharts) := by
  unfold assembleChart
  simp only [hc, not_true_eq_false, if_false]
  by_cases hp : publish = true ∧ registry ≠ []
  · simp only [hp, and_self, if_true]
    split
    · simp
    · rename_i version w1 _
      rcases hpub : x.PublishChart (x.PathJoin outputDir ch.Name) registry w1 with ⟨r, w2⟩
      have hreg : registry ≠ [] := hp.2
      cases r with
      | error e => simp [hreg]
      | ok v =>
        simp only [hreg, if_false, ite_not, ne_eq, not_false_eq_true, if_true]
        repeat' split
        all_goals (try simp_all)
        all_goals (try subst_vars)
        all_goals (try simp_all)
  · simp only [hp, if_false]
    repeat' split
    all_goals simp_all


theorem buildPatchResult_world {σ : Type} (x : Collaborators σ) (w w' : σ) (resultMap : ResultMap)
    (reportsDir : Str) (img : ImageDiscovery) :
    (buildPatchResult x w resultMap reportsDir img).Error
        = (buildPatchResult x w' resultMap reportsDir img).Error ∧
    (buildPatchResult x w resultMap reportsDir img).Patched
        = (buildPatchResult x w' resultMap reportsDir img).Patched ∧
    (buildPatchResult x w resultMap reportsDir img).Original
        = (buildPatchResult x w' resultMap reportsDir img).Original := by
  rcases hr : resultMap img.toImage.Reference with _ | r
  · simp [buildPatchResult, hr]
  · simp only [buildPatchResult, hr]
    repeat' split
    all_goals simp

theorem buildPatchResult_Original {σ : Type} (x : Collaborators σ) (w : σ) (resultMap : ResultMap)
    (reportsDir : Str) (img : ImageDiscovery) :
    (buildPatchResult x w resultMap reportsDir img).Original = img.toImage := by
  rcases hr : resultMap img.toImage.Reference with _ | r
  · simp [buildPatchResult, hr]
  · simp only [buildPatchResult, hr]
    repeat' split
    all_goals simp

theorem publishedImages_world {σ : Type} (x : Collaborators σ) (w w' : σ) (resultMap : ResultMap)
    (reportsDir : Str) (images : List ImageDiscovery) :
    publishedImages (buildPatchResults x w images resultMap reportsDir)
      = publishedImages (buildPatchResults x w' images resultMap reportsDir) := by
  induction images with
  | nil => rfl
  | cons img rest ih =>
    obtain ⟨h1, h2, h3⟩ := buildPatchResult_world x w w' resultMap reportsDir img
    simp only [buildPatchResults, publishedImages, h1, h2, h3, ih]

theorem assembleCharts_ok {σ : Type} (x : Collaborators σ) (resultMap : ResultMap)
    (reportsDir outputDir registry : Str) (publish : Bool) (charts : List ChartDiscovery) :
    ∀ st : AssembleState σ,
    (assembleCharts x resultMap reportsDir outputDir registry publish charts st).1 = none →
    ∃ pcs, (assembleCharts x resultMap reportsDir outputDir registry publish charts st).2.publishedCharts
        = st.publishedCharts ++ pcs ∧
      List.Forall₂ (fun (pc : PublishedChart) (ch : ChartDiscovery) =>
          pc.Name = ch.Name ∧ pc.Registry = registry ∧
          ∀ w, pc.Images = publishedImages (buildPatchResults x w ch.Images resultMap reportsDir))
        pcs (charts.filter fun ch => hasChanges resultMap ch.Images) := by
  induction charts with
  | nil =>
    intro st _
    exact ⟨[], by simp [assembleCharts], by simp⟩
  | cons ch rest ih =>
    intro st h
    unfold assembleCharts at h ⊢
    cases hc : hasChanges resultMap ch.Images with
    | false =>
      rw [assembleChart_skip x resultMap reportsDir outputDir registry publish ch st hc] at h ⊢
      simp only [] at h ⊢
      obtain ⟨pcs, e, hf⟩ := ih st h
      exact ⟨pcs, e, by simpa [List.filter, hc] using hf⟩
    | true =>
      obtain ⟨_, hok, _⟩ :=
        assembleChart_spec x resultMap reportsDir outputDir registry publish ch st hc
      rcases hstep : assembleChart x resultMap reportsDir outputDir registry publish ch st
        with ⟨e1, st1⟩
      rw [hstep] at h hok
      cases e1 with
      | some err => simp at h
      | none =>
        simp only [] at h ⊢
        obtain ⟨pc, hpc, hn, hr, hi⟩ := hok rfl
        obtain ⟨pcs, e, hf⟩ := ih st1 h
        refine ⟨pc :: pcs, ?_, ?_⟩
        · rw [e]
          simp only [] at hpc
          rw [hpc]
          simp
        · simp only [List.filter, hc]
          refine List.Forall₂.cons ⟨hn, hr, fun w => ?_⟩ hf
          rw [hi]
          exact publishedImages_world x st.world w resultMap reportsDir ch.Images

theorem assembleCharts_calls {σ : Type} (x : Collaborators σ) (resultMap : ResultMap)
    (reportsDir outputDir registry : Str) (publish : Bool) (charts : List ChartDiscovery) :
    ∀ st : AssembleState σ,
    ∃ cs, (assembleCharts x resultMap reportsDir outputDir registry publish charts st).2.calls
        = st.calls ++ cs ∧
      ∀ c ∈ cs, c.chart ∈ charts ∧ hasChanges resultMap c.chart.Images = true := by
  induction charts with
  | nil =>
    intro st
    exact ⟨[], by simp [assembleCharts], by simp⟩
  | cons ch rest ih =>
    intro st
    unfold assembleCharts
    cases hc : hasChanges resultMap ch.Images with
    | false =>
      rw [assembleChart_skip x resultMap reportsDir outputDir registry publish ch st hc]
      simp only []
      obtain ⟨cs, e, hcs⟩ := ih st
      exact ⟨cs, e, fun c hm => ⟨List.mem_cons_of_mem _ (hcs c hm).1, (hcs c hm).2⟩⟩
    | true =>
      obtain ⟨⟨cs1, e1, h1⟩, _, _⟩ :=
        assembleChart_spec x resultMap reportsDir outputDir registry publish ch st hc
      rcases hstep : assembleChart x resultMap reportsDir outputDir registry publish ch st
        with ⟨r1, st1⟩
      rw [hstep] at e1
      simp only [] at e1
      have hmine : ∀ c ∈ cs1, c.chart ∈ ch :: rest ∧ hasChanges resultMap c.chart.Images = true := by
        intro c hm
        rw [h1 c hm]
        exact ⟨List.mem_cons_self _ _, hc⟩
      cases r1 with
      | some err => exact ⟨cs1, e1, hmine⟩
      | none =>
        simp only []
        obtain ⟨cs, e, hcs⟩ := ih st1
        refine ⟨cs1 ++ cs, by rw [e, e1, List.append_assoc], fun c hm => ?_⟩
        rcases List.mem_append.mp hm with hm | hm
        · exact hmine c hm
        · exact ⟨List.mem_cons_of_mem _ (hcs c hm).1, (hcs c hm).2⟩


/-- C3: for every chart and every result set, the chart's `hasChanges` is the
logical OR, over the chart's images, of the `changed` flag of the image's
result record, an image without a record contributing `false`. -/
theorem hasChanges_eq_any_changed (resultMap : ResultMap) (ch : ChartDiscovery) :
    hasChanges resultMap ch.Images =
      ch.Images.any (fun img =>
        match resultMap img.Reference with
        | some r => r.Changed
        | none => false) := by
  induction ch.Images with
  | nil => rfl
  | cons d rest ih =>
    unfold hasChanges
    simp only [toImage_Reference, List.any_cons]
    cases hr : resultMap d.Reference with
    | none => simpa using ih
    | some r =>
      rw [ih]
      cases hc : r.Changed with
      | true => simp [hc]
      | false => simp [hc]

/-- C7, as stated, fails: the only image of the chart has the record
`recordFailed`, which carries an error and has `changed=true`; `hasChanges` is
true although no image has a record with an empty error, `skipped=false` and
`changed=true`. -/
theorem hasChanges_counts_failed_record :
    hasChanges failedResults [imageA] = true ∧
    ¬ ∃ img ∈ [imageA], ∃ r, failedResults img.Reference = some r ∧
        r.Error = [] ∧ r.Skipped = false ∧ r.Changed = true := by
  refine ⟨by decide, ?_⟩
  rintro ⟨img, hm, r, hr, he, -, -⟩
  rw [List.mem_singleton] at hm
  subst hm
  have hrec : failedResults imageA.Reference = some recordFailed := by decide
  rw [hrec] at hr
  have hrr : recordFailed = r := Option.some.inj hr
  subst hrr
  exact absurd he (by decide)

/-- C7, amended: a chart's `hasChanges` is true exactly when at least one of
its images has a result record with `changed=true`; the record's error and
skipped fields are not consulted. -/
theorem hasChanges_iff_some_record_changed (resultMap : ResultMap) (ch : ChartDiscovery) :
    hasChanges resultMap ch.Images = true ↔
      ∃ img ∈ ch.Images, ∃ r, resultMap img.Reference = some r ∧ r.Changed = true := by
  induction ch.Images with
  | nil => simp [hasChanges]
  | cons d rest ih =>
    unfold hasChanges
    simp only [toImage_Reference]
    cases hr : resultMap d.Reference with
    | none => simp [ih, hr]
    | some r =>
      cases hc : r.Changed with
      | true => simp [hr, hc]
      | false => simp [ih, hr, hc]


theorem publishedImages_eq_filter (results : List PatchResult) :
    publishedImages results =
      (results.filter fun pr => decide (pr.Error = none ∧ pr.Patched.Reference ≠ [])).map
        fun pr => PublishedImage.mk pr.Original.Reference pr.Patched.Reference := by
  induction results with
  | nil => rfl
  | cons pr rest ih =>
    by_cases h : pr.Error = none ∧ pr.Patched.Reference ≠ []
    · simp [publishedImages, List.filter, h, ih]
    · simp [publishedImages, List.filter, h, ih]

theorem buildPatchResult_none {σ : Type} (x : Collaborators σ) (w : σ) (resultMap : ResultMap)
    (reportsDir : Str) (img : ImageDiscovery) (h : resultMap img.Reference = none) :
    (buildPatchResult x w resultMap reportsDir img).Error = none ∧
    (buildPatchResult x w resultMap reportsDir img).Patched = ⟨[], [], [], []⟩ := by
  rw [← toImage_Reference] at h
  simp [buildPatchResult, h]

theorem buildPatchResult_failed {σ : Type} (x : Collaborators σ) (w : σ) (resultMap : ResultMap)
    (reportsDir : Str) (img : ImageDiscovery) (r : SinglePatchResult)
    (h : resultMap img.Reference = some r) (he : r.Error ≠ []) :
    (buildPatchResult x w resultMap reportsDir img).Error = some r.Error ∧
    (buildPatchResult x w resultMap reportsDir img).Patched = ⟨[], [], [], []⟩ := by
  rw [← toImage_Reference] at h
  simp only [buildPatchResult, h, he, ne_eq, not_false_eq_true, if_true]
  split <;> simp

theorem buildPatchResult_patched {σ : Type} (x : Collaborators σ) (w : σ) (resultMap : ResultMap)
    (reportsDir : Str) (img : ImageDiscovery) (r : SinglePatchResult)
    (h : resultMap img.Reference = some r) (he : r.Error = [])
    (hp : r.Skipped = false ∨ r.PatchedRepository ≠ []) :
    (buildPatchResult x w resultMap reportsDir img).Error = none ∧
    (buildPatchResult x w resultMap reportsDir img).Patched
      = ⟨r.PatchedRegistry, r.PatchedRepository, r.PatchedTag, []⟩ := by
  rw [← toImage_Reference] at h
  simp only [buildPatchResult, h, he, ne_eq, not_true_eq_false, if_false]
  rcases hp with hp | hp
  · simp only [hp, Bool.false_eq_true, if_false]
    split <;> simp
  · simp only [hp, not_false_eq_true, if_true]
    repeat' split
    all_goals simp

theorem Image.Reference_ne_nil (img : Image) (h : img.Repository ≠ []) : img.Reference ≠ [] := by
  unfold Image.Reference
  simp only []
  repeat' split
  all_goals simp [h]

theorem Image.Reference_zero : (Image.mk [] [] [] []).Reference = [] := by decide

theorem publishedImages_sublist {σ : Type} (x : Collaborators σ) (w : σ) (resultMap : ResultMap)
    (reportsDir : Str) (images : List ImageDiscovery) :
    List.Sublist
      ((publishedImages (buildPatchResults x w images resultMap reportsDir)).map
        PublishedImage.Original)
      (images.map ImageDiscovery.Reference) := by
  induction images with
  | nil => simp [buildPatchResults, publishedImages]
  | cons img rest ih =>
    simp only [buildPatchResults, publishedImages, List.map_cons]
    split
    · simp only [List.map_cons, buildPatchResult_Original, toImage_Reference]
      exact List.Sublist.cons₂ _ ih
    · exact List.Sublist.cons _ ih


/-- C4: the published-release list has an entry for a chart exactly when the
chart's `hasChanges` is true: when the run returns no error, the names of the
published charts are the names of the manifest's charts with `hasChanges`, in
order.  Whether or not the run succeeds, every external step (wrapper chart,
publish, SBOM, vulnerability predicate) was invoked for a chart with
`hasChanges`, so none is invoked for a chart whose images are all unchanged or
without a result record. -/
theorem published_iff_hasChanges {σ : Type} (x : Collaborators σ) (resultMap : ResultMap)
    (reportsDir outputDir registry : Str) (publish : Bool) (manifest : DiscoveryManifest)
    (w : σ) :
    ((assembleCharts x resultMap reportsDir outputDir registry publish manifest.Charts
        ⟨w, [], []⟩).1 = none →
      (assembleCharts x resultMap reportsDir outputDir registry publish manifest.Charts
          ⟨w, [], []⟩).2.publishedCharts.map PublishedChart.Name
        = (manifest.Charts.filter fun ch => hasChanges resultMap ch.Images).map
            ChartDiscovery.Name) ∧
    (∀ c ∈ (assembleCharts x resultMap reportsDir outputDir registry publish manifest.Charts
        ⟨w, [], []⟩).2.calls, hasChanges resultMap c.chart.Images = true) ∧
    (∀ ch : ChartDiscovery,
      (∀ img ∈ ch.Images, ∀ r, resultMap img.Reference = some r → r.Changed = false) →
      ∀ c ∈ (assembleCharts x resultMap reportsDir outputDir registry publish manifest.Charts
        ⟨w, [], []⟩).2.calls, c.chart ≠ ch) := by
  obtain ⟨cs, hcs, hall⟩ :=
    assembleCharts_calls x resultMap reportsDir outputDir registry publish manifest.Charts
      ⟨w, [], []⟩
  simp only [List.nil_append] at hcs
  refine ⟨fun h => ?_, fun c hc => ?_, fun ch hch c hc hcc => ?_⟩
  · obtain ⟨pcs, e, hf⟩ :=
      assembleCharts_ok x resultMap reportsDir outputDir registry publish manifest.Charts
        ⟨w, [], []⟩ h
    simp only [List.nil_append] at e
    rw [e]
    clear e
    generalize (manifest.Charts.filter fun ch => hasChanges resultMap ch.Images) = sel at hf
    induction hf with
    | nil => rfl
    | cons hhead _ ih => simp only [List.map_cons, hhead.1, ih]
  · rw [hcs] at hc
    exact (hall c hc).2
  · rw [hcs] at hc
    have htrue := (hall c hc).2
    rw [hcc] at htrue
    obtain ⟨img, hm, r, hr, hchanged⟩ := (hasChanges_iff resultMap ch.Images).mp htrue
    rw [hch img hm r hr] at hchanged
    exact absurd hchanged (by decide)

theorem published_iff_hasChanges_witness :
    (assembleCharts exampleCollaborators exampleResults "reports".toList "charts".toList
        "ghcr.io/verity-org".toList true exampleManifest.Charts
        ⟨0, [], []⟩).2.publishedCharts.map PublishedChart.Name
      = (exampleManifest.Charts.filter fun ch => hasChanges exampleResults ch.Images).map
          ChartDiscovery.Name :=
  (published_iff_hasChanges exampleCollaborators exampleResults "reports".toList
    "charts".toList "ghcr.io/verity-org".toList true exampleManifest 0).1 (by decide)

/-- C5: when the run returns no error, the image list of every released chart
consists of exactly those aggregated results of the chart's images that have no
error and a non-empty patched reference, in order, each recorded as (original
reference, patched reference).  An image without a result record, or whose
record carries an error, fails that test and is omitted; the charts released
are still all the charts with `hasChanges`. -/
theorem published_images_exact {σ : Type} (x : Collaborators σ) (resultMap : ResultMap)
    (reportsDir outputDir registry : Str) (publish : Bool) (manifest : DiscoveryManifest)
    (w : σ)
    (hok : (assembleCharts x resultMap reportsDir outputDir registry publish manifest.Charts
        ⟨w, [], []⟩).1 = none) :
    List.Forall₂
      (fun (pc : PublishedChart) (ch : ChartDiscovery) => ∀ w1 : σ,
        pc.Images =
          ((buildPatchResults x w1 ch.Images resultMap reportsDir).filter fun pr =>
              decide (pr.Error = none ∧ pr.Patched.Reference ≠ [])).map
            fun pr => PublishedImage.mk pr.Original.Reference pr.Patched.Reference)
      (assembleCharts x resultMap reportsDir outputDir registry publish manifest.Charts
        ⟨w, [], []⟩).2.publishedCharts
      (manifest.Charts.filter fun ch => hasChanges resultMap ch.Images) ∧
    ∀ (img : ImageDiscovery) (w1 : σ),
      (resultMap img.Reference = none ∨
        ∃ r, resultMap img.Reference = some r ∧ r.Error ≠ []) →
      decide ((buildPatchResult x w1 resultMap reportsDir img).Error = none ∧
        (buildPatchResult x w1 resultMap reportsDir img).Patched.Reference ≠ []) = false := by
  constructor
  · obtain ⟨pcs, e, hf⟩ :=
      assembleCharts_ok x resultMap reportsDir outputDir registry publish manifest.Charts
        ⟨w, [], []⟩ hok
    simp only [List.nil_append] at e
    rw [e]
    refine List.Forall₂.imp (fun pc ch h w1 => ?_) hf
    rw [h.2.2 w1, publishedImages_eq_filter]
  · intro img w1 h
    rcases h with h | ⟨r, h, he⟩
    · obtain ⟨_, h2⟩ := buildPatchResult_none x w1 resultMap reportsDir img h
      simp [h2, Image.Reference_zero]
    · obtain ⟨h1, _⟩ := buildPatchResult_failed x w1 resultMap reportsDir img r h he
      simp [h1]

theorem published_images_exact_witness :
    List.Forall₂
      (fun (pc : PublishedChart) (ch : ChartDiscovery) => ∀ w1 : Nat,
        pc.Images =
          ((buildPatchResults exampleCollaborators w1 ch.Images exampleResults
              "reports".toList).filter fun pr =>
              decide (pr.Error = none ∧ pr.Patched.Reference ≠ [])).map
            fun pr => PublishedImage.mk pr.Original.Reference pr.Patched.Reference)
      (assembleCharts exampleCollaborators exampleResults "reports".toList "charts".toList
        "ghcr.io/verity-org".toList true exampleManifest.Charts ⟨0, [], []⟩).2.publishedCharts
      (exampleManifest.Charts.filter fun ch => hasChanges exampleResults ch.Images) :=
  (published_images_exact exampleCollaborators exampleResults "reports".toList
    "charts".toList "ghcr.io/verity-org".toList true exampleManifest 0 (by decide)).1

/-- C10: when the run returns no error, the published charts are the
manifest's charts with `hasChanges`, in manifest order, and the original
references in each published chart's image list form a subsequence, in
declaration order, of the references of that chart's images. -/
theorem published_in_manifest_order {σ : Type} (x : Collaborators σ) (resultMap : ResultMap)
    (reportsDir outputDir registry : Str) (publish : Bool) (manifest : DiscoveryManifest)
    (w : σ)
    (hok : (assembleCharts x resultMap reportsDir outputDir registry publish manifest.Charts
        ⟨w, [], []⟩).1 = none) :
    List.Forall₂
      (fun (pc : PublishedChart) (ch : ChartDiscovery) =>
        pc.Name = ch.Name ∧
        List.Sublist (pc.Images.map PublishedImage.Original)
          (ch.Images.map ImageDiscovery.Reference))
      (assembleCharts x resultMap reportsDir outputDir registry publish manifest.Charts
        ⟨w, [], []⟩).2.publishedCharts
      (manifest.Charts.filter fun ch => hasChanges resultMap ch.Images) ∧
    List.Sublist (manifest.Charts.filter fun ch => hasChanges resultMap ch.Images)
      manifest.Charts := by
  refine ⟨?_, List.filter_sublist _⟩
  obtain ⟨pcs, e, hf⟩ :=
    assembleCharts_ok x resultMap reportsDir outputDir registry publish manifest.Charts
      ⟨w, [], []⟩ hok
  simp only [List.nil_append] at e
  rw [e]
  refine List.Forall₂.imp (fun pc ch h => ⟨h.1, ?_⟩) hf
  rw [h.2.2 w]
  exact publishedImages_sublist x w resultMap reportsDir ch.Images

theorem published_in_manifest_order_witness :
    List.Forall₂
      (fun (pc : PublishedChart) (ch : ChartDiscovery) =>
        pc.Name = ch.Name ∧
        List.Sublist (pc.Images.map PublishedImage.Original)
          (ch.Images.map ImageDiscovery.Reference))
      (assembleCharts exampleCollaborators exampleResults "reports".toList "charts".toList
        "ghcr.io/verity-org".toList true exampleManifest.Charts ⟨0, [], []⟩).2.publishedCharts
      (exampleManifest.Charts.filter fun ch => hasChanges exampleResults ch.Images) :=
  (published_in_manifest_order exampleCollaborators exampleResults "reports".toList
    "charts".toList "ghcr.io/verity-org".toList true exampleManifest 0 (by decide)).1


/-- C6, as stated, fails: in `exampleResults` image A has `changed=true` and
image B has `changed=false`; `hasChanges` is true, but B, which was mirrored
and carries a patched reference, is listed next to A. -/
theorem unchanged_image_is_published :
    exampleResults imageA.Reference = some recordA ∧ recordA.Changed = true ∧
    exampleResults imageB.Reference = some recordB ∧ recordB.Changed = false ∧
    hasChanges exampleResults exampleChart.Images = true ∧
    (assembleCharts exampleCollaborators exampleResults "reports".toList "charts".toList
        "ghcr.io/verity-org".toList true [exampleChart]
        ⟨0, [], []⟩).2.publishedCharts.map PublishedChart.Images
      = [[⟨"quay.io/prometheus/prometheus:v2.45.0".toList,
            "ghcr.io/verity-org/prometheus/prometheus:v2.45.0-patched".toList⟩,
          ⟨"quay.io/prometheus/alertmanager:v0.26.0".toList,
            "ghcr.io/verity-org/prometheus/alertmanager:v0.26.0".toList⟩]] := by
  decide

/-- C6, amended: a manifest with one chart holding two images A and B, A's
record with `changed=true`, no error and a non-empty patched repository, B's
record with `changed=false` and either an error or no patched reference.  Then
`hasChanges` is true and, when the run returns no error, the chart's published
image list holds A's mapping only. -/
theorem two_image_chart_release {σ : Type} (x : Collaborators σ) (resultMap : ResultMap)
    (reportsDir outputDir registry : Str) (publish : Bool) (name version repository : Str)
    (A B : ImageDiscovery) (ra rb : SinglePatchResult) (w : σ)
    (hA : resultMap A.Reference = some ra) (hB : resultMap B.Reference = some rb)
    (hca : ra.Changed = true) (_hcb : rb.Changed = false)
    (hea : ra.Error = []) (hpa : ra.PatchedRepository ≠ [])
    (hb : rb.Error ≠ [] ∨
      (rb.PatchedRegistry = [] ∧ rb.PatchedRepository = [] ∧ rb.PatchedTag = []))
    (hok : (assembleCharts x resultMap reportsDir outputDir registry publish
        [⟨name, version, repository, [A, B]⟩] ⟨w, [], []⟩).1 = none) :
    hasChanges resultMap [A, B] = true ∧
    (assembleCharts x resultMap reportsDir outputDir registry publish
        [⟨name, version, repository, [A, B]⟩] ⟨w, [], []⟩).2.publishedCharts.map
        PublishedChart.Images
      = [[⟨A.Reference,
          (Image.mk ra.PatchedRegistry ra.PatchedRepository ra.PatchedTag []).Reference⟩]] := by
  have hc : hasChanges resultMap [A, B] = true :=
    (hasChanges_iff resultMap [A, B]).mpr ⟨A, by simp, ra, hA, hca⟩
  refine ⟨hc, ?_⟩
  obtain ⟨pcs, e, hf⟩ :=
    assembleCharts_ok x resultMap reportsDir outputDir registry publish
      [⟨name, version, repository, [A, B]⟩] ⟨w, [], []⟩ hok
  simp only [List.nil_append] at e
  rw [e]
  simp only [List.filter, hc] at hf
  cases hf with
  | cons hhead htail =>
    cases htail
    obtain ⟨hA1, hA2⟩ :=
      buildPatchResult_patched x w resultMap reportsDir A ra hA hea (Or.inr hpa)
    have hrefA : (Image.mk ra.PatchedRegistry ra.PatchedRepository ra.PatchedTag []).Reference
        ≠ [] := Image.Reference_ne_nil _ hpa
    have hBout : ¬ ((buildPatchResult x w resultMap reportsDir B).Error = none ∧
        (buildPatchResult x w resultMap reportsDir B).Patched.Reference ≠ []) := by
      rintro ⟨h1, h2⟩
      rcases hb with hb | ⟨b1, b2, b3⟩
      · rw [(buildPatchResult_failed x w resultMap reportsDir B rb hB hb).1] at h1
        exact absurd h1 (by simp)
      · by_cases heb : rb.Error = []
        · by_cases hs : rb.Skipped = false
          · rw [(buildPatchResult_patched x w resultMap reportsDir B rb hB heb (Or.inl hs)).2,
              b1, b2, b3] at h2
            exact h2 Image.Reference_zero
          · have hs1 : rb.Skipped = true := by simpa using hs
            apply h2
            rw [← toImage_Reference] at hB
            simp only [buildPatchResult, hB, heb, hs1, b2, ne_eq, not_true_eq_false, if_false,
              if_true]
            split <;> exact Image.Reference_zero
        · rw [(buildPatchResult_failed x w resultMap reportsDir B rb hB heb).1] at h1
          exact absurd h1 (by simp)
    simp only [List.map_cons, List.map_nil, hhead.2.2 w, buildPatchResults, publishedImages,
      hA1, hA2, hrefA, hBout, ne_eq, not_false_eq_true, and_self, if_true, if_false,
      buildPatchResult_Original, toImage_Reference]

theorem two_image_chart_release_witness :
    hasChanges plainResults [imageA, imageB] = true ∧
    (assembleCharts exampleCollaborators plainResults "reports".toList "charts".toList
        "ghcr.io/verity-org".toList true
        [⟨"prometheus".toList, "28.9.1".toList, [], [imageA, imageB]⟩]
        ⟨0, [], []⟩).2.publishedCharts.map PublishedChart.Images
      = [[⟨imageA.Reference,
          (Image.mk recordA.PatchedRegistry recordA.PatchedRepository recordA.PatchedTag
            []).Reference⟩]] :=
  two_image_chart_release exampleCollaborators plainResults "reports".toList "charts".toList
    "ghcr.io/verity-org".toList true "prometheus".toList "28.9.1".toList [] imageA imageB
    recordA recordUntouched 0 (by decide) (by decide) (by decide) (by decide) (by decide)
    (by decide) (by decide) (by decide)


/-! ## Tag versioning -/

theorem stripLeading_eq_some (p t rest : Str) :
    stripLeading p t = some rest ↔ t = p ++ rest := by
  induction p generalizing t with
  | nil => simp [stripLeading, eq_comm]
  | cons a p ih =>
    cases t with
    | nil => simp [stripLeading]
    | cons b t =>
      by_cases hab : a = b
      · simp [stripLeading, hab, ih]
      · simp only [stripLeading, hab, if_false, List.cons_append, List.cons.injEq]
        constructor
        · intro h; exact absurd h (by simp)
        · intro h; exact absurd h.1.symm hab

theorem parsePatchNumber_eq_some (maxInt : Nat) (s : Str) (n : Nat) :
    parsePatchNumber maxInt s = some n ↔
      s ≠ [] ∧ (∀ c ∈ s, c.isDigit = true) ∧ digitsValue s = n ∧ n ≤ maxInt := by
  unfold parsePatchNumber
  by_cases h1 : s ≠ [] ∧ s.all Char.isDigit = true
  · rw [if_pos h1]
    have hall : ∀ c ∈ s, c.isDigit = true := by simpa using h1.2
    by_cases h2 : digitsValue s ≤ maxInt
    · rw [if_pos h2]
      constructor
      · intro h
        have e : digitsValue s = n := Option.some.inj h
        exact ⟨h1.1, hall, e, e ▸ h2⟩
      · rintro ⟨_, _, e, _⟩
        rw [e]
    · rw [if_neg h2]
      constructor
      · intro h; exact absurd h (by simp)
      · rintro ⟨_, _, e, hle⟩
        exact absurd (e ▸ hle) h2
  · rw [if_neg h1]
    constructor
    · intro h; exact absurd h (by simp)
    · rintro ⟨hne, hall, _, _⟩
      exact absurd ⟨hne, by simpa using hall⟩ h1

theorem patchNumber_eq_some (maxInt : Nat) (S t : Str) (n : Nat) :
    patchNumber maxInt S t = some n ↔
      ∃ N : Str, t = S ++ "-patched-".toList ++ N ∧ N ≠ [] ∧ (∀ c ∈ N, c.isDigit = true) ∧
        digitsValue N = n ∧ n ≤ maxInt := by
  unfold patchNumber
  cases hs : stripLeading (S ++ "-patched-".toList) t with
  | none =>
    constructor
    · intro h; exact absurd h (by simp)
    · rintro ⟨N, e, _⟩
      have := (stripLeading_eq_some (S ++ "-patched-".toList) t N).mpr e
      rw [hs] at this
      exact absurd this (by simp)
  | some rest =>
    have e := (stripLeading_eq_some _ _ _).mp hs
    simp only []
    rw [parsePatchNumber_eq_some]
    constructor
    · rintro ⟨h1, h2, h3, h4⟩
      exact ⟨rest, e, h1, h2, h3, h4⟩
    · rintro ⟨N, e2, h1, h2, h3, h4⟩
      have : rest = N := by
        rw [e] at e2
        exact List.append_cancel_left e2
      subst this
      exact ⟨h1, h2, h3, h4⟩

theorem bestNumbered_eq_none (maxInt : Nat) (S : Str) (tags : List Str) :
    bestNumbered maxInt S tags = none ↔ ∀ t ∈ tags, patchNumber maxInt S t = none := by
  induction tags with
  | nil => simp [bestNumbered]
  | cons t rest ih =>
    unfold bestNumbered
    cases hp : patchNumber maxInt S t with
    | none => simp [ih, hp]
    | some n =>
      simp only [List.mem_cons, forall_eq_or_imp, hp]
      cases hb : bestNumbered maxInt S rest with
      | none => simp
      | some mu =>
        obtain ⟨m, u⟩ := mu
        simp only []
        split <;> simp

theorem bestNumbered_eq_some (maxInt : Nat) (S : Str) (tags : List Str) (n : Nat) (t : Str)
    (h : bestNumbered maxInt S tags = some (n, t)) :
    t ∈ tags ∧ patchNumber maxInt S t = some n ∧
      ∀ u ∈ tags, ∀ m, patchNumber maxInt S u = some m → m ≤ n := by
  induction tags generalizing n t with
  | nil => simp [bestNumbered] at h
  | cons a rest ih =>
    unfold bestNumbered at h
    cases hp : patchNumber maxInt S a with
    | none =>
      rw [hp] at h
      simp only [] at h
      obtain ⟨h1, h2, h3⟩ := ih n t h
      refine ⟨List.mem_cons_of_mem _ h1, h2, fun u hu m hm => ?_⟩
      rcases List.mem_cons.mp hu with e | hu
      · subst e; rw [hp] at hm; exact absurd hm (by simp)
      · exact h3 u hu m hm
    | some k =>
      rw [hp] at h
      simp only [] at h
      cases hb : bestNumbered maxInt S rest with
      | none =>
        rw [hb] at h
        simp only [Option.some.injEq, Prod.mk.injEq] at h
        obtain ⟨e1, e2⟩ := h
        subst e1 e2
        refine ⟨List.mem_cons_self _ _, hp, fun u hu m hm => ?_⟩
        rcases List.mem_cons.mp hu with e | hu
        · subst e; rw [hp] at hm; exact le_of_eq (Option.some.inj hm).symm
        · have := (bestNumbered_eq_none maxInt S rest).mp hb u hu
          rw [this] at hm; exact absurd hm (by simp)
      | some mu =>
        obtain ⟨m0, u0⟩ := mu
        rw [hb] at h
        simp only [] at h
        obtain ⟨h1, h2, h3⟩ := ih m0 u0 hb
        by_cases hlt : k < m0
        · rw [if_pos hlt] at h
          simp only [Option.some.injEq, Prod.mk.injEq] at h
          obtain ⟨e1, e2⟩ := h
          subst e1 e2
          refine ⟨List.mem_cons_of_mem _ h1, h2, fun u hu m hm => ?_⟩
          rcases List.mem_cons.mp hu with e | hu
          · subst e; rw [hp] at hm
            have := Option.some.inj hm
            omega
          · exact h3 u hu m hm
        · rw [if_neg hlt] at h
          simp only [Option.some.injEq, Prod.mk.injEq] at h
          obtain ⟨e1, e2⟩ := h
          subst e1 e2
          refine ⟨List.mem_cons_self _ _, hp, fun u hu m hm => ?_⟩
          rcases List.mem_cons.mp hu with e | hu
          · subst e; rw [hp] at hm; exact le_of_eq (Option.some.inj hm).symm
          · have := h3 u hu m hm
            omega


theorem digitChar_digit (k : Nat) (hk : k < 10) :
    (Nat.digitChar k).isDigit = true ∧ (Nat.digitChar k).toNat - 48 = k := by
  interval_cases k <;> decide

theorem toDigitsCore_value (fuel : Nat) :
    ∀ (n : Nat) (ds : Str), n < fuel →
      List.foldl (fun acc c => 10 * acc + (c.toNat - 48)) 0 (Nat.toDigitsCore 10 fuel n ds)
        = List.foldl (fun acc c => 10 * acc + (c.toNat - 48)) n ds := by
  induction fuel with
  | zero => intro n ds h; omega
  | succ fuel ih =>
    intro n ds h
    have hd := (digitChar_digit (n % 10) (Nat.mod_lt n (by decide))).2
    unfold Nat.toDigitsCore
    simp only []
    by_cases h0 : n / 10 = 0
    · rw [if_pos h0]
      simp only [List.foldl_cons, hd]
      congr 1
      omega
    · rw [if_neg h0]
      rw [ih (n / 10) _ (by omega)]
      simp only [List.foldl_cons, hd]
      congr 1
      omega

theorem toDigitsCore_digits (fuel : Nat) :
    ∀ (n : Nat) (ds : Str), (∀ c ∈ ds, c.isDigit = true) →
      ∀ c ∈ Nat.toDigitsCore 10 fuel n ds, c.isDigit = true := by
  induction fuel with
  | zero => intro n ds h; simpa [Nat.toDigitsCore] using h
  | succ fuel ih =>
    intro n ds h
    have hd := (digitChar_digit (n % 10) (Nat.mod_lt n (by decide))).1
    have hcons : ∀ c ∈ Nat.digitChar (n % 10) :: ds, c.isDigit = true := by
      intro c hc
      rcases List.mem_cons.mp hc with e | hc
      · rw [e]; exact hd
      · exact h c hc
    unfold Nat.toDigitsCore
    simp only []
    by_cases h0 : n / 10 = 0
    · rw [if_pos h0]; exact hcons
    · rw [if_neg h0]; exact ih _ _ hcons

theorem toDigitsCore_ne_nil (fuel n : Nat) (ds : Str) :
    Nat.toDigitsCore 10 (fuel + 1) n ds ≠ [] := by
  induction fuel generalizing n ds with
  | zero =>
    unfold Nat.toDigitsCore
    simp only []
    split
    · simp
    · simp [Nat.toDigitsCore]
  | succ fuel ih =>
    unfold Nat.toDigitsCore
    simp only []
    split
    · simp
    · exact ih _ _

theorem Itoa_spec (n : Nat) :
    Itoa n ≠ [] ∧ (∀ c ∈ Itoa n, c.isDigit = true) ∧ digitsValue (Itoa n) = n := by
  refine ⟨toDigitsCore_ne_nil n n [], toDigitsCore_digits (n + 1) n [] (by simp), ?_⟩
  unfold digitsValue Itoa Nat.toDigits
  rw [toDigitsCore_value (n + 1) n [] (by omega)]
  rfl

/-- C9: when `LatestPatchedTag(T, S)` is non-empty it is an element of `T` and
is exactly `S-patched`, or `S-patched-N` with `N` a non-empty sequence of
decimal digits. -/
theorem LatestPatchedTag_mem_and_shape (maxInt : Nat) (T : List Str) (S : Str)
    (h : LatestPatchedTag maxInt T S ≠ []) :
    LatestPatchedTag maxInt T S ∈ T ∧
    (LatestPatchedTag maxInt T S = S ++ "-patched".toList ∨
      ∃ N : Str, N ≠ [] ∧ (∀ c ∈ N, c.isDigit = true) ∧
        LatestPatchedTag maxInt T S = S ++ "-patched-".toList ++ N) := by
  unfold LatestPatchedTag at h ⊢
  cases hb : bestNumbered maxInt S T with
  | none =>
    rw [hb] at h
    simp only [] at h ⊢
    by_cases hm : S ++ "-patched".toList ∈ T
    · rw [if_pos hm]
      exact ⟨hm, Or.inl rfl⟩
    · rw [if_neg hm] at h
      exact absurd rfl h
  | some nt =>
    obtain ⟨n, t⟩ := nt
    simp only []
    obtain ⟨h1, h2, _⟩ := bestNumbered_eq_some maxInt S T n t hb
    obtain ⟨N, e, hne, hd, _, _⟩ := (patchNumber_eq_some maxInt S t n).mp h2
    exact ⟨h1, Or.inr ⟨N, hne, hd, e⟩⟩

theorem LatestPatchedTag_mem_and_shape_witness :
    LatestPatchedTag 9223372036854775807
        ["1.29.3-patched-2".toList, "1.29.30-patched-5".toList] "1.29.3".toList
      ∈ ["1.29.3-patched-2".toList, "1.29.30-patched-5".toList] ∧
    (LatestPatchedTag 9223372036854775807
        ["1.29.3-patched-2".toList, "1.29.30-patched-5".toList] "1.29.3".toList
        = "1.29.3".toList ++ "-patched".toList ∨
      ∃ N : Str, N ≠ [] ∧ (∀ c ∈ N, c.isDigit = true) ∧
        LatestPatchedTag 9223372036854775807
            ["1.29.3-patched-2".toList, "1.29.30-patched-5".toList] "1.29.3".toList
          = "1.29.3".toList ++ "-patched-".toList ++ N) :=
  LatestPatchedTag_mem_and_shape 9223372036854775807
    ["1.29.3-patched-2".toList, "1.29.30-patched-5".toList] "1.29.3".toList (by decide)

/-- C8, as stated, fails: with the largest representable integer
`9223372036854775807`, the tag list holds `1.29.3-patched-9223372036854775807`
and `1.29.3-patched-9223372036854775808`; the second suffix is too large and is
ignored, so the next tag is `1.29.3-patched-9223372036854775808`, which is in
the list.  The same happens whatever the largest representable integer `m` is,
with the tags numbered `m` and `m + 1`. -/
theorem NextPatchedTag_collides_at_bound :
    (NextPatchedTag 9223372036854775807
        ["1.29.3-patched-9223372036854775807".toList,
          "1.29.3-patched-9223372036854775808".toList] "1.29.3".toList
      = "1.29.3-patched-9223372036854775808".toList ∧
    NextPatchedTag 9223372036854775807
        ["1.29.3-patched-9223372036854775807".toList,
          "1.29.3-patched-9223372036854775808".toList] "1.29.3".toList
      ∈ ["1.29.3-patched-9223372036854775807".toList,
          "1.29.3-patched-9223372036854775808".toList]) ∧
    ∀ m : Nat,
      NextPatchedTag m
          ["1.29.3".toList ++ "-patched-".toList ++ Itoa m,
            "1.29.3".toList ++ "-patched-".toList ++ Itoa (m + 1)] "1.29.3".toList
        ∈ ["1.29.3".toList ++ "-patched-".toList ++ Itoa m,
            "1.29.3".toList ++ "-patched-".toList ++ Itoa (m + 1)] := by
  refine ⟨by decide, fun m => ?_⟩
  obtain ⟨a1, a2, a3⟩ := Itoa_spec m
  obtain ⟨b1, b2, b3⟩ := Itoa_spec (m + 1)
  have h1 : patchNumber m "1.29.3".toList ("1.29.3".toList ++ "-patched-".toList ++ Itoa m)
      = some m :=
    (patchNumber_eq_some m _ _ m).mpr ⟨Itoa m, rfl, a1, a2, a3, le_refl m⟩
  have h2 : patchNumber m "1.29.3".toList
      ("1.29.3".toList ++ "-patched-".toList ++ Itoa (m + 1)) = none := by
    cases hp : patchNumber m "1.29.3".toList
        ("1.29.3".toList ++ "-patched-".toList ++ Itoa (m + 1)) with
    | none => rfl
    | some k =>
      obtain ⟨N, e, _, _, hv, hle⟩ := (patchNumber_eq_some m _ _ k).mp hp
      have hN : Itoa (m + 1) = N := List.append_cancel_left e
      rw [← hN, b3] at hv
      omega
  have hbest : bestNumbered m "1.29.3".toList
      ["1.29.3".toList ++ "-patched-".toList ++ Itoa m,
        "1.29.3".toList ++ "-patched-".toList ++ Itoa (m + 1)]
      = some (m, "1.29.3".toList ++ "-patched-".toList ++ Itoa m) := by
    simp only [bestNumbered, h1, h2]
  unfold NextPatchedTag
  rw [hbest]
  simp

/-- C8, amended: when the largest representable integer is at least 1 and no
tag of `T` is a numbered patch `S-patched-N` of `S` whose number is the largest
representable integer, `NextPatchedTag(T, S)` is not an element of `T`. -/
theorem NextPatchedTag_not_mem (maxInt : Nat) (T : List Str) (S : Str)
    (hpos : 0 < maxInt) (hmax : ∀ t ∈ T, patchNumber maxInt S t ≠ some maxInt) :
    NextPatchedTag maxInt T S ∉ T := by
  unfold NextPatchedTag
  cases hb : bestNumbered maxInt S T with
  | none =>
    simp only []
    by_cases hm : S ++ "-patched".toList ∈ T
    · rw [if_pos hm]
      intro hin
      have hnone := (bestNumbered_eq_none maxInt S T).mp hb _ hin
      have hsome : patchNumber maxInt S (S ++ "-patched-1".toList) = some 1 :=
        (patchNumber_eq_some maxInt S _ 1).mpr
          ⟨"1".toList, by simp, by decide, by decide, by decide, hpos⟩
      rw [hsome] at hnone
      exact absurd hnone (by simp)
    · rw [if_neg hm]
      exact hm
  | some nt =>
    obtain ⟨n, t⟩ := nt
    simp only []
    obtain ⟨h1, h2, h3⟩ := bestNumbered_eq_some maxInt S T n t hb
    obtain ⟨_, _, _, _, _, hle⟩ := (patchNumber_eq_some maxInt S t n).mp h2
    have hne : n ≠ maxInt := fun e => hmax t h1 (e ▸ h2)
    obtain ⟨i1, i2, i3⟩ := Itoa_spec (n + 1)
    intro hin
    have hsome : patchNumber maxInt S (S ++ "-patched-".toList ++ Itoa (n + 1)) = some (n + 1) :=
      (patchNumber_eq_some maxInt S _ (n + 1)).mpr ⟨Itoa (n + 1), rfl, i1, i2, i3, by omega⟩
    have := h3 _ hin _ hsome
    omega

theorem NextPatchedTag_not_mem_witness :
    NextPatchedTag 9223372036854775807
        ["1.29.3-patched".toList, "1.29.3-patched-99999999999999999999".toList]
        "1.29.3".toList
      ∉ ["1.29.3-patched".toList, "1.29.3-patched-99999999999999999999".toList] :=
  NextPatchedTag_not_mem 9223372036854775807
    ["1.29.3-patched".toList, "1.29.3-patched-99999999999999999999".toList] "1.29.3".toList
    (by decide) (by decide)


/-! ## Writing the published-release record -/

theorem assembleCharts_no_changes {σ : Type} (x : Collaborators σ) (resultMap : ResultMap)
    (reportsDir outputDir registry : Str) (publish : Bool) (charts : List ChartDiscovery)
    (st : AssembleState σ)
    (h : ∀ ch ∈ charts, hasChanges resultMap ch.Images = false) :
    assembleCharts x resultMap reportsDir outputDir registry publish charts st = (none, st) := by
  induction charts with
  | nil => rfl
  | cons ch rest ih =>
    unfold assembleCharts
    rw [assembleChart_skip x resultMap reportsDir outputDir registry publish ch st
      (h ch (List.mem_cons_self _ _))]
    exact ih fun c hc => h c (List.mem_cons_of_mem _ hc)

theorem assembleCharts_published_length {σ : Type} (x : Collaborators σ) (resultMap : ResultMap)
    (reportsDir outputDir registry : Str) (publish : Bool) (charts : List ChartDiscovery)
    (w : σ)
    (h : (assembleCharts x resultMap reportsDir outputDir registry publish charts
        ⟨w, [], []⟩).1 = none) :
    (assembleCharts x resultMap reportsDir outputDir registry publish charts
        ⟨w, [], []⟩).2.publishedCharts.length
      = (charts.filter fun ch => hasChanges resultMap ch.Images).length := by
  obtain ⟨pcs, e, hf⟩ :=
    assembleCharts_ok x resultMap reportsDir outputDir registry publish charts ⟨w, [], []⟩ h
  simp only [List.nil_append] at e
  rw [e]
  exact hf.length_eq

theorem filter_hasChanges_pos (resultMap : ResultMap) (charts : List ChartDiscovery) :
    0 < (charts.filter fun ch => hasChanges resultMap ch.Images).length ↔
      ∃ ch ∈ charts, hasChanges resultMap ch.Images = true := by
  rw [List.length_pos, ne_eq, List.filter_eq_nil_iff]
  simp

/-- C11: with the manifest and the results loaded, `AssembleResults` calls
`os.WriteFile` only for `published-charts.json` and only when some chart of the
manifest has `hasChanges`; on a run that returns no error the file is written
exactly when some chart has `hasChanges`; and when no chart has `hasChanges`
the run returns no error, writes nothing and invokes no external step. -/
theorem AssembleResults_writes_iff_changes {σ : Type} (x : Collaborators σ) (fs : FileSystem σ)
    (manifestPath resultsDir reportsDir outputDir registry : Str) (publish : Bool) (w : σ)
    (manifestData : Str) (manifest : DiscoveryManifest) (resultMap : ResultMap)
    (hread : fs.ReadFile manifestPath w = Except.ok manifestData)
    (hparse : fs.UnmarshalManifest manifestData = Except.ok manifest)
    (hload : loadResults x fs w resultsDir = Except.ok resultMap) :
    ((∀ ch ∈ manifest.Charts, hasChanges resultMap ch.Images = false) →
      (AssembleResults x fs manifestPath resultsDir reportsDir outputDir registry publish w).err
          = none ∧
      (AssembleResults x fs manifestPath resultsDir reportsDir outputDir registry publish
          w).writes = [] ∧
      (AssembleResults x fs manifestPath resultsDir reportsDir outputDir registry publish
          w).calls = []) ∧
    ((AssembleResults x fs manifestPath resultsDir reportsDir outputDir registry publish w).err
        = none →
      ((AssembleResults x fs manifestPath resultsDir reportsDir outputDir registry publish
          w).writes ≠ [] ↔
        ∃ ch ∈ manifest.Charts, hasChanges resultMap ch.Images = true)) ∧
    ((AssembleResults x fs manifestPath resultsDir reportsDir outputDir registry publish
        w).writes ≠ [] →
      ∃ ch ∈ manifest.Charts, hasChanges resultMap ch.Images = true) ∧
    (∀ pd ∈ (AssembleResults x fs manifestPath resultsDir reportsDir outputDir registry publish
        w).writes, pd.1 = x.PathJoin outputDir "published-charts.json".toList) := by
  have hlen := assembleCharts_published_length x resultMap reportsDir outputDir registry publish
    manifest.Charts w
  have hpos := filter_hasChanges_pos resultMap manifest.Charts
  refine ⟨fun hno => ?_, ?_⟩
  · unfold AssembleResults
    simp only [hread, hparse, hload]
    rw [assembleCharts_no_changes x resultMap reportsDir outputDir registry publish
      manifest.Charts _ hno]
    simp
  · unfold AssembleResults
    simp only [hread, hparse, hload]
    rcases hrun : assembleCharts x resultMap reportsDir outputDir registry publish
        manifest.Charts ⟨w, [], []⟩ with ⟨e, st⟩
    rw [hrun] at hlen
    cases e with
    | some err => simp
    | none =>
      have hl := hlen rfl
      simp only [] at hl ⊢
      by_cases hp : st.publishedCharts.length > 0
      · have hex : ∃ ch ∈ manifest.Charts, hasChanges resultMap ch.Images = true :=
          hpos.mp (by omega)
        simp only [hp, if_true]
        cases fs.MarshalIndent st.publishedCharts with
        | error err => simp
        | ok data =>
          simp only []
          rcases fs.WriteFile (x.PathJoin outputDir "published-charts.json".toList) data
              st.world with ⟨r, w1⟩
          cases r with
          | some err => simp [hex]
          | none => simp [hex]
      · have hnex : ¬ ∃ ch ∈ manifest.Charts, hasChanges resultMap ch.Images = true :=
          fun hex => hp (by have := hpos.mpr hex; omega)
        simp only [hp, if_false]
        simp [hnex]

theorem AssembleResults_writes_iff_changes_witness :
    (AssembleResults exampleCollaborators exampleFileSystem "manifest.json".toList
        "results".toList "reports".toList "charts".toList "ghcr.io/verity-org".toList true
        0).writes ≠ [] ↔
      ∃ ch ∈ exampleManifest.Charts, hasChanges exampleResults ch.Images = true :=
  (AssembleResults_writes_iff_changes exampleCollaborators exampleFileSystem
    "manifest.json".toList "results".toList "reports".toList "charts".toList
    "ghcr.io/verity-org".toList true 0 "manifest".toList exampleManifest exampleResults
    rfl rfl rfl).2.1 (by decide)


/-! ## The join key -/

/-- C12, as stated, fails: the image `nginx:1.25.3` and the loaded record with
`imageRef` `docker.io/library/nginx:1.25.3` have the same normalized form, yet
the record is not used: the image counts as having no patch result and
`hasChanges` is false although the record has `changed=true`. -/
theorem join_ignores_normalized_match :
    NormalizeImageRef recordNginx.ImageRef = NormalizeImageRef nginxImage.Reference ∧
    nginxResults recordNginx.ImageRef = some recordNginx ∧
    recordNginx.Changed = true ∧
    hasChanges nginxResults [nginxImage] = false ∧
    (buildPatchResult exampleCollaborators 0 nginxResults "reports".toList nginxImage).Skipped
      = true ∧
    (buildPatchResult exampleCollaborators 0 nginxResults "reports".toList nginxImage).SkipReason
      = SkipReasonNoPatchResult ∧
    (buildPatchResult exampleCollaborators 0 nginxResults "reports".toList nginxImage).Patched
      = ⟨[], [], [], []⟩ := by
  decide

/-- C12, amended: aggregation joins on the exact reference string.  What
`buildPatchResults` and the `hasChanges` computation do for an image depends on
the result map only through the entry stored under the image's `Reference()`;
when a record is stored there, `hasChanges` of the image is that record's
`changed` flag and the aggregated result carries that record's error, or else
its patched reference. -/
theorem join_on_exact_reference {σ : Type} (x : Collaborators σ) (w : σ) (reportsDir : Str)
    (img : ImageDiscovery) :
    (∀ m1 m2 : ResultMap, m1 img.Reference = m2 img.Reference →
      buildPatchResults x w [img] m1 reportsDir = buildPatchResults x w [img] m2 reportsDir ∧
      hasChanges m1 [img] = hasChanges m2 [img]) ∧
    (∀ (m : ResultMap) (r : SinglePatchResult), m img.Reference = some r →
      hasChanges m [img] = r.Changed ∧
      (r.Error ≠ [] → (buildPatchResult x w m reportsDir img).Error = some r.Error) ∧
      (r.Error = [] → (r.Skipped = false ∨ r.PatchedRepository ≠ []) →
        (buildPatchResult x w m reportsDir img).Error = none ∧
        (buildPatchResult x w m reportsDir img).Patched
          = ⟨r.PatchedRegistry, r.PatchedRepository, r.PatchedTag, []⟩)) := by
  constructor
  · intro m1 m2 h
    have h' : m1 img.toImage.Reference = m2 img.toImage.Reference := by
      rw [toImage_Reference]; exact h
    constructor
    · simp only [buildPatchResults, buildPatchResult, h']
    · simp only [hasChanges, h']
  · intro m r h
    refine ⟨?_, fun he => (buildPatchResult_failed x w m reportsDir img r h he).1,
      fun he hp => buildPatchResult_patched x w m reportsDir img r h he hp⟩
    have h' : m img.toImage.Reference = some r := by rw [toImage_Reference]; exact h
    simp only [hasChanges, h']
    cases r.Changed <;> simp

theorem join_on_exact_reference_witness :
    hasChanges exampleResults [imageA] = recordA.Changed ∧
    (recordA.Error ≠ [] →
      (buildPatchResult exampleCollaborators 0 exampleResults "reports".toList imageA).Error
        = some recordA.Error) ∧
    (recordA.Error = [] → (recordA.Skipped = false ∨ recordA.PatchedRepository ≠ []) →
      (buildPatchResult exampleCollaborators 0 exampleResults "reports".toList imageA).Error
        = none ∧
      (buildPatchResult exampleCollaborators 0 exampleResults "reports".toList imageA).Patched
        = ⟨recordA.PatchedRegistry, recordA.PatchedRepository, recordA.PatchedTag, []⟩) :=
  (join_on_exact_reference exampleCollaborators 0 "reports".toList imageA).2
    exampleResults recordA (by decide)


/-! ## Registry detection and reassembly -/

theorem looksLikeRegistry_iff (a : Str) :
    looksLikeRegistry a = true ↔ '.' ∈ a ∨ ':' ∈ a ∨ a = "localhost".toList := by
  simp [looksLikeRegistry, Contains, or_assoc]

theorem splitRegistry_reassemble (pre t : Str) :
    (if (splitRegistry pre t).1 ≠ [] then
        (splitRegistry pre t).1 ++ '/' :: (splitRegistry pre t).2.1
      else (splitRegistry pre t).2.1) = pre ∧
    (splitRegistry pre t).2.2 = t := by
  by_cases hsl : '/' ∈ pre
  · obtain ⟨a, b, e, ha⟩ := exists_first_sep '/' pre hsl
    subst e
    cases hl : looksLikeRegistry a with
    | true =>
      have hne : a ≠ [] := by
        intro h
        rw [h] at hl
        exact absurd hl (by decide)
      rw [splitRegistry_registry a b t ha hl]
      simp [hne]
    | false =>
      rw [splitRegistry_bare a b t ha hl]
      simp
  · rw [splitRegistry_noslash pre t hsl]
    simp

theorem Reference_ParseImageRef_aux (x p : Str) (hx : x.getLast? ≠ some ':') :
    (Image.mk (ParseImageRef x).1 (ParseImageRef x).2.1 (ParseImageRef x).2.2 p).Reference
      = x := by
  by_cases hc : ':' ∈ x
  · obtain ⟨pre, t, e, ht⟩ := exists_last_sep ':' x hc
    subst e
    have htne : t ≠ [] := by
      intro h
      subst h
      exact hx (by simp)
    obtain ⟨h1, h2⟩ := splitRegistry_reassemble pre t
    rw [ParseImageRef_tagged pre t ht]
    unfold Image.Reference
    simp only [h2, htne, ne_eq, not_false_eq_true, if_true]
    rw [h1]
  · obtain ⟨h1, h2⟩ := splitRegistry_reassemble x []
    rw [ParseImageRef_untagged x hc]
    unfold Image.Reference
    simp only [h2, ne_eq, not_true_eq_false, if_false]
    exact h1

/-- C13: registry detection.  Let `rest` be the reference with its last `:` and
everything after it removed (the whole reference if it has no `:`).  If the
text before the first `/` of `rest` contains `.` or `:` or is `localhost`,
`ParseImageRef` returns that text as registry and the text after that `/` as
repository; otherwise (no `/`, or a first segment of another shape) it returns
an empty registry and `rest` as repository. -/
theorem ParseImageRef_registry_detection (s rest : Str)
    (hrest : (':' ∉ s ∧ rest = s) ∨ ∃ t, s = rest ++ ':' :: t ∧ ':' ∉ t) :
    (∀ a b, rest = a ++ '/' :: b → '/' ∉ a →
      ('.' ∈ a ∨ ':' ∈ a ∨ a = "localhost".toList) →
      (ParseImageRef s).1 = a ∧ (ParseImageRef s).2.1 = b) ∧
    ((∀ a b, rest = a ++ '/' :: b → '/' ∉ a →
        ¬ ('.' ∈ a ∨ ':' ∈ a ∨ a = "localhost".toList)) →
      (ParseImageRef s).1 = [] ∧ (ParseImageRef s).2.1 = rest) := by
  have hparse : ∃ t, ParseImageRef s = splitRegistry rest t := by
    rcases hrest with ⟨hc, e⟩ | ⟨t, e, ht⟩
    · exact ⟨[], by rw [e]; exact ParseImageRef_untagged s hc⟩
    · exact ⟨t, by rw [e]; exact ParseImageRef_tagged rest t ht⟩
  obtain ⟨t, hp⟩ := hparse
  rw [hp]
  constructor
  · intro a b e ha hl
    rw [e, splitRegistry_registry a b t ha ((looksLikeRegistry_iff a).mpr hl)]
    exact ⟨rfl, rfl⟩
  · intro hno
    by_cases hsl : '/' ∈ rest
    · obtain ⟨a, b, e, ha⟩ := exists_first_sep '/' rest hsl
      have hl : looksLikeRegistry a = false := by
        cases h : looksLikeRegistry a with
        | false => rfl
        | true => exact absurd ((looksLikeRegistry_iff a).mp h) (hno a b e ha)
      have hs := splitRegistry_bare a b t ha hl
      rw [← e] at hs
      rw [hs]
      exact ⟨rfl, rfl⟩
    · rw [splitRegistry_noslash rest t hsl]
      exact ⟨rfl, rfl⟩

theorem ParseImageRef_registry_detection_witness :
    (ParseImageRef "localhost:5000/myimage:latest".toList).1 = "localhost:5000".toList ∧
    (ParseImageRef "localhost:5000/myimage:latest".toList).2.1 = "myimage".toList :=
  (ParseImageRef_registry_detection "localhost:5000/myimage:latest".toList
      "localhost:5000/myimage".toList
      (Or.inr ⟨"latest".toList, by decide, by decide⟩)).1
    "localhost:5000".toList "myimage".toList (by decide) (by decide) (by decide)

/-- C14: the code at `localhost:5000/myimage`, a reference with a registry
port and no tag: the text after the port's `:` is returned as the tag, and no
registry is reported. -/
theorem ParseImageRef_host_port_untagged :
    ParseImageRef "localhost:5000/myimage".toList
      = ([], "localhost".toList, "5000/myimage".toList) := by
  decide

/-- C15: for a repository name `n` without `/` and a non-empty tag `t`
without `:`, `NormalizeImageRef(n:t)` is `docker.io/library/n:t` (a `:` inside
`n` would not change this). -/
theorem NormalizeImageRef_official (n t : Str) (hn : '/' ∉ n) (hne : t ≠ [])
    (ht : ':' ∉ t) :
    NormalizeImageRef (n ++ ':' :: t) = "docker.io/library/".toList ++ n ++ ':' :: t := by
  rw [NormalizeImageRef_eq, ParseImageRef_tagged n t ht, splitRegistry_noslash n t hn]
  have hc : ¬ Contains n '/' = true := by simpa [Contains] using hn
  simp [hne, hc]

theorem NormalizeImageRef_official_witness :
    NormalizeImageRef "nginx:1.25.3".toList = "docker.io/library/nginx:1.25.3".toList :=
  NormalizeImageRef_official "nginx".toList "1.25.3".toList (by decide) (by decide)
    (by decide)

/-- C16: a reference that does not end with `:` and whose parsed registry is
non-empty and different from `docker.io` is returned unchanged by
`NormalizeImageRef`. -/
theorem NormalizeImageRef_other_registry (x : Str) (hx : x.getLast? ≠ some ':')
    (hg : (ParseImageRef x).1 ≠ []) (hd : (ParseImageRef x).1 ≠ "docker.io".toList) :
    NormalizeImageRef x = x := by
  have h := Reference_ParseImageRef_aux x [] hx
  unfold Image.Reference at h
  simp only [hg, ne_eq, not_false_eq_true, if_true] at h
  rw [NormalizeImageRef_eq]
  simp only [hg, hd, if_false, false_and]
  exact h

theorem NormalizeImageRef_other_registry_witness :
    NormalizeImageRef "quay.io/prometheus/prometheus:v3.9.1".toList
      = "quay.io/prometheus/prometheus:v3.9.1".toList :=
  NormalizeImageRef_other_registry "quay.io/prometheus/prometheus:v3.9.1".toList
    (by decide) (by decide) (by decide)

/-- C17: `Reference()` is the repository, preceded by the registry and `/`
exactly when the registry is non-empty and followed by `:` and the tag exactly
when the tag is non-empty; it is the same for every `Path`, and
`ImageDiscovery.Reference` is `Image.Reference` on the same registry,
repository and tag. -/
theorem Reference_shape (img : Image) (d : ImageDiscovery) (p : Str) :
    img.Reference
      = (if img.Registry ≠ [] then img.Registry ++ "/".toList else []) ++ img.Repository ++
          (if img.Tag ≠ [] then ":".toList ++ img.Tag else []) ∧
    (Image.mk img.Registry img.Repository img.Tag p).Reference = img.Reference ∧
    d.Reference = (Image.mk d.Registry d.Repository d.Tag p).Reference ∧
    d.toImage.Reference = d.Reference := by
  refine ⟨?_, rfl, rfl, rfl⟩
  unfold Image.Reference
  by_cases hg : img.Registry = [] <;> by_cases ht : img.Tag = [] <;> simp [hg, ht]

/-- C18, as stated, fails: `nginx:1.25:` parses to the repository `nginx:1.25`
with no registry and no tag; the reference built from these components is
`nginx:1.25`, which parses to the repository `nginx` with tag `1.25`. -/
theorem parsed_components_not_stable :
    ParseImageRef "nginx:1.25:".toList = ([], "nginx:1.25".toList, []) ∧
    (Image.mk [] "nginx:1.25".toList [] []).Reference = "nginx:1.25".toList ∧
    ParseImageRef (Image.mk [] "nginx:1.25".toList [] []).Reference
      = ([], "nginx".toList, "1.25".toList) ∧
    ParseImageRef
        (Image.mk (ParseImageRef "nginx:1.25:".toList).1 (ParseImageRef "nginx:1.25:".toList).2.1
          (ParseImageRef "nginx:1.25:".toList).2.2 []).Reference
      ≠ ParseImageRef "nginx:1.25:".toList := by
  decide

/-- C18, amended: for every string `s` that does not end with `:`, parsing the
reference built from the parsed components of `s` gives these components
back. -/
theorem parsed_components_roundtrip (s p : Str) (hs : s.getLast? ≠ some ':') :
    ParseImageRef
        (Image.mk (ParseImageRef s).1 (ParseImageRef s).2.1 (ParseImageRef s).2.2 p).Reference
      = ((ParseImageRef s).1, (ParseImageRef s).2.1, (ParseImageRef s).2.2) := by
  rw [Reference_ParseImageRef_aux s p hs]

theorem parsed_components_roundtrip_witness :
    ParseImageRef
        (Image.mk (ParseImageRef "ghcr.io/verity-org/nginx:1.25.3".toList).1
          (ParseImageRef "ghcr.io/verity-org/nginx:1.25.3".toList).2.1
          (ParseImageRef "ghcr.io/verity-org/nginx:1.25.3".toList).2.2 []).Reference
      = ((ParseImageRef "ghcr.io/verity-org/nginx:1.25.3".toList).1,
          (ParseImageRef "ghcr.io/verity-org/nginx:1.25.3".toList).2.1,
          (ParseImageRef "ghcr.io/verity-org/nginx:1.25.3".toList).2.2) :=
  parsed_components_roundtrip "ghcr.io/verity-org/nginx:1.25.3".toList [] (by decide)


/-! ## The next and the latest patched tag -/

theorem bestNumbered_of_max (maxInt : Nat) (S : Str) (T : List Str) (n : Nat)
    (hmem : ∃ t ∈ T, patchNumber maxInt S t = some n)
    (hmax : ∀ t ∈ T, ∀ m, patchNumber maxInt S t = some m → m ≤ n) :
    ∃ u, bestNumbered maxInt S T = some (n, u) := by
  obtain ⟨t, ht, hp⟩ := hmem
  cases hb : bestNumbered maxInt S T with
  | none =>
    have := (bestNumbered_eq_none maxInt S T).mp hb t ht
    rw [hp] at this
    exact absurd this (by simp)
  | some ku =>
    obtain ⟨k, u⟩ := ku
    obtain ⟨h1, h2, h3⟩ := bestNumbered_eq_some maxInt S T k u hb
    have hle1 : n ≤ k := h3 t ht n hp
    have hle2 : k ≤ n := hmax u h1 k h2
    have : k = n := by omega
    exact ⟨u, by rw [this]⟩

/-- C19: let `V` be the numbers of the tags of `T` of the form `S-patched-N`
with a valid numeric suffix.  If `n` is the greatest element of `V`,
`NextPatchedTag(T, S)` is `S-patched-(n+1)`; if `V` is empty and `S-patched` is
in `T` it is `S-patched-1`; if `V` is empty and `S-patched` is not in `T` it is
`S-patched`. -/
theorem NextPatchedTag_cases (maxInt : Nat) (T : List Str) (S : Str) :
    (∀ n, (∃ t ∈ T, patchNumber maxInt S t = some n) →
      (∀ t ∈ T, ∀ m, patchNumber maxInt S t = some m → m ≤ n) →
      NextPatchedTag maxInt T S = S ++ "-patched-".toList ++ Itoa (n + 1)) ∧
    ((∀ t ∈ T, patchNumber maxInt S t = none) → S ++ "-patched".toList ∈ T →
      NextPatchedTag maxInt T S = S ++ "-patched-1".toList) ∧
    ((∀ t ∈ T, patchNumber maxInt S t = none) → S ++ "-patched".toList ∉ T →
      NextPatchedTag maxInt T S = S ++ "-patched".toList) := by
  refine ⟨fun n hmem hmax => ?_, fun hnone hbare => ?_, fun hnone hbare => ?_⟩
  · obtain ⟨u, hb⟩ := bestNumbered_of_max maxInt S T n hmem hmax
    unfold NextPatchedTag
    rw [hb]
  · have hb := (bestNumbered_eq_none maxInt S T).mpr hnone
    unfold NextPatchedTag
    rw [hb]
    simp only [hbare, if_true]
  · have hb := (bestNumbered_eq_none maxInt S T).mpr hnone
    unfold NextPatchedTag
    rw [hb]
    simp only [hbare, if_false]

theorem NextPatchedTag_cases_witness :
    NextPatchedTag 9223372036854775807
        ["1.29.3-patched-3".toList, "1.29.4-patched-99".toList, "1.29.3-other".toList]
        "1.29.3".toList
      = "1.29.3".toList ++ "-patched-".toList ++ Itoa (3 + 1) :=
  (NextPatchedTag_cases 9223372036854775807
      ["1.29.3-patched-3".toList, "1.29.4-patched-99".toList, "1.29.3-other".toList]
      "1.29.3".toList).1 3 ⟨"1.29.3-patched-3".toList, by decide, by decide⟩
    (by
      intro t ht m hm
      simp only [List.mem_cons, List.mem_singleton, List.not_mem_nil, or_false] at ht
      rcases ht with e | e | e
      · subst e
        have h3 : patchNumber 9223372036854775807 "1.29.3".toList "1.29.3-patched-3".toList
            = some 3 := by decide
        rw [h3] at hm
        exact le_of_eq (Option.some.inj hm).symm
      · subst e
        have h0 : patchNumber 9223372036854775807 "1.29.3".toList "1.29.4-patched-99".toList
            = none := by decide
        rw [h0] at hm
        exact absurd hm (by simp)
      · subst e
        have h0 : patchNumber 9223372036854775807 "1.29.3".toList "1.29.3-other".toList
            = none := by decide
        rw [h0] at hm
        exact absurd hm (by simp))

/-- C20: if `T` contains a numbered tag `S-patched-N` with a valid numeric
suffix, `LatestPatchedTag(T, S)` is a tag of `T` of that form whose number is
the greatest one, whether or not the bare form is present; otherwise it is
`S-patched` if `T` contains it, and the empty string if not. -/
theorem LatestPatchedTag_cases (maxInt : Nat) (T : List Str) (S : Str) :
    ((∃ t ∈ T, ∃ n, patchNumber maxInt S t = some n) →
      LatestPatchedTag maxInt T S ∈ T ∧
      ∃ n, patchNumber maxInt S (LatestPatchedTag maxInt T S) = some n ∧
        ∀ t ∈ T, ∀ m, patchNumber maxInt S t = some m → m ≤ n) ∧
    ((∀ t ∈ T, patchNumber maxInt S t = none) → S ++ "-patched".toList ∈ T →
      LatestPatchedTag maxInt T S = S ++ "-patched".toList) ∧
    ((∀ t ∈ T, patchNumber maxInt S t = none) → S ++ "-patched".toList ∉ T →
      LatestPatchedTag maxInt T S = []) := by
  refine ⟨fun hmem => ?_, fun hnone hbare => ?_, fun hnone hbare => ?_⟩
  · obtain ⟨t, ht, n, hp⟩ := hmem
    cases hb : bestNumbered maxInt S T with
    | none =>
      have := (bestNumbered_eq_none maxInt S T).mp hb t ht
      rw [hp] at this
      exact absurd this (by simp)
    | some ku =>
      obtain ⟨k, u⟩ := ku
      obtain ⟨h1, h2, h3⟩ := bestNumbered_eq_some maxInt S T k u hb
      have hl : LatestPatchedTag maxInt T S = u := by
        unfold LatestPatchedTag
        rw [hb]
      rw [hl]
      exact ⟨h1, k, h2, h3⟩
  · have hb := (bestNumbered_eq_none maxInt S T).mpr hnone
    unfold LatestPatchedTag
    rw [hb]
    simp only [hbare, if_true]
  · have hb := (bestNumbered_eq_none maxInt S T).mpr hnone
    unfold LatestPatchedTag
    rw [hb]
    simp only [hbare, if_false]

theorem LatestPatchedTag_cases_witness :
    LatestPatchedTag 9223372036854775807
        ["1.29.3-patched".toList, "1.29.3-patched-2".toList, "1.29.3-patched-3".toList]
        "1.29.3".toList
      ∈ ["1.29.3-patched".toList, "1.29.3-patched-2".toList, "1.29.3-patched-3".toList] ∧
    ∃ n, patchNumber 9223372036854775807 "1.29.3".toList
          (LatestPatchedTag 9223372036854775807
            ["1.29.3-patched".toList, "1.29.3-patched-2".toList, "1.29.3-patched-3".toList]
            "1.29.3".toList) = some n ∧
      ∀ t ∈ ["1.29.3-patched".toList, "1.29.3-patched-2".toList, "1.29.3-patched-3".toList],
        ∀ m, patchNumber 9223372036854775807 "1.29.3".toList t = some m → m ≤ n :=
  (LatestPatchedTag_cases 9223372036854775807
      ["1.29.3-patched".toList, "1.29.3-patched-2".toList, "1.29.3-patched-3".toList]
      "1.29.3".toList).1 ⟨"1.29.3-patched-2".toList, by decide, 2, by decide⟩


/-! ## Tags that do not belong to the source tag -/

theorem bestNumbered_insert_none (maxInt : Nat) (S t : Str) (T1 T2 : List Str)
    (h : patchNumber maxInt S t = none) :
    bestNumbered maxInt S (T1 ++ t :: T2) = bestNumbered maxInt S (T1 ++ T2) := by
  induction T1 with
  | nil => simp [bestNumbered, h]
  | cons a rest ih =>
    simp only [List.cons_append, bestNumbered]
    simp only [List.append_eq]
    rw [ih]

/-- C21: a tag `t` that is neither exactly `S-patched` nor `S-patched-N` with
`N` a non-empty sequence of decimal digits whose value is representable is
ignored: inserting `t` anywhere in `T` changes neither `LatestPatchedTag(T, S)`
nor `NextPatchedTag(T, S)`. -/
theorem foreign_tag_ignored (maxInt : Nat) (S t : Str) (T1 T2 : List Str)
    (hbare : t ≠ S ++ "-patched".toList)
    (hnum : ¬ ∃ N : Str, t = S ++ "-patched-".toList ++ N ∧ N ≠ [] ∧
      (∀ c ∈ N, c.isDigit = true) ∧ digitsValue N ≤ maxInt) :
    LatestPatchedTag maxInt (T1 ++ t :: T2) S = LatestPatchedTag maxInt (T1 ++ T2) S ∧
    NextPatchedTag maxInt (T1 ++ t :: T2) S = NextPatchedTag maxInt (T1 ++ T2) S := by
  have hp : patchNumber maxInt S t = none := by
    cases h : patchNumber maxInt S t with
    | none => rfl
    | some n =>
      obtain ⟨N, e, h1, h2, h3, h4⟩ := (patchNumber_eq_some maxInt S t n).mp h
      exact absurd ⟨N, e, h1, h2, by omega⟩ hnum
  have hb := bestNumbered_insert_none maxInt S t T1 T2 hp
  have hmem : S ++ "-patched".toList ∈ T1 ++ t :: T2 ↔ S ++ "-patched".toList ∈ T1 ++ T2 := by
    simp only [List.mem_append, List.mem_cons]
    constructor
    · rintro (h | h | h)
      · exact Or.inl h
      · exact absurd h.symm hbare
      · exact Or.inr h
    · rintro (h | h)
      · exact Or.inl h
      · exact Or.inr (Or.inr h)
  unfold LatestPatchedTag NextPatchedTag
  rw [hb]
  constructor
  · cases bestNumbered maxInt S (T1 ++ T2) with
    | some nt => rfl
    | none => simp only [hmem]
  · cases bestNumbered maxInt S (T1 ++ T2) with
    | some nt => rfl
    | none => simp only [hmem]

theorem foreign_tag_ignored_witness :
    LatestPatchedTag 9223372036854775807
        (["1.29.3-patched-2".toList] ++ "1.29.30-patched-5".toList :: []) "1.29.3".toList
      = LatestPatchedTag 9223372036854775807 (["1.29.3-patched-2".toList] ++ [])
          "1.29.3".toList ∧
    NextPatchedTag 9223372036854775807
        (["1.29.3-patched-2".toList] ++ "1.29.30-patched-5".toList :: []) "1.29.3".toList
      = NextPatchedTag 9223372036854775807 (["1.29.3-patched-2".toList] ++ [])
          "1.29.3".toList :=
  foreign_tag_ignored 9223372036854775807 "1.29.3".toList "1.29.30-patched-5".toList
    ["1.29.3-patched-2".toList] [] (by decide)
    (by
      rintro ⟨N, e, -⟩
      have h := (stripLeading_eq_some ("1.29.3".toList ++ "-patched-".toList)
        "1.29.30-patched-5".toList N).mpr e
      have hnone : stripLeading ("1.29.3".toList ++ "-patched-".toList)
          "1.29.30-patched-5".toList = none := by decide
      rw [hnone] at h
      exact absurd h (by simp))


/-! ## Monotonicity of the next patched tag -/

theorem Itoa_injective (a b : Nat) (h : Itoa a = Itoa b) : a = b := by
  have ha := (Itoa_spec a).2.2
  have hb := (Itoa_spec b).2.2
  rw [h] at ha
  omega

theorem numbered_ne_bare (S X : Str) :
    S ++ "-patched-".toList ++ X ≠ S ++ "-patched".toList := by
  intro h
  rw [List.append_assoc] at h
  have h2 := List.append_cancel_left h
  simp at h2

theorem patched_one (S : Str) :
    S ++ "-patched-1".toList = S ++ "-patched-".toList ++ Itoa 1 := by
  rw [List.append_assoc]
  rfl

theorem patchNumber_numbered (maxInt : Nat) (S : Str) (n : Nat) (h : n ≤ maxInt) :
    patchNumber maxInt S (S ++ "-patched-".toList ++ Itoa n) = some n := by
  obtain ⟨a1, a2, a3⟩ := Itoa_spec n
  exact (patchNumber_eq_some maxInt S _ n).mpr ⟨Itoa n, rfl, a1, a2, a3, h⟩

theorem patchNumber_too_large (maxInt : Nat) (S : Str) (n : Nat) (h : maxInt < n) :
    patchNumber maxInt S (S ++ "-patched-".toList ++ Itoa n) = none := by
  cases hp : patchNumber maxInt S (S ++ "-patched-".toList ++ Itoa n) with
  | none => rfl
  | some k =>
    obtain ⟨N, e, _, _, hv, hle⟩ := (patchNumber_eq_some maxInt S _ k).mp hp
    have hN : Itoa n = N := List.append_cancel_left e
    rw [← hN, (Itoa_spec n).2.2] at hv
    omega

theorem patchNumber_bare (maxInt : Nat) (S : Str) :
    patchNumber maxInt S (S ++ "-patched".toList) = none := by
  cases hp : patchNumber maxInt S (S ++ "-patched".toList) with
  | none => rfl
  | some k =>
    obtain ⟨N, e, _⟩ := (patchNumber_eq_some maxInt S _ k).mp hp
    exact absurd e.symm (numbered_ne_bare S N)

theorem NextPatchedTag_shape (maxInt : Nat) (T : List Str) (S : Str) :
    NextPatchedTag maxInt T S = S ++ "-patched".toList ∨
      ∃ n, NextPatchedTag maxInt T S = S ++ "-patched-".toList ++ Itoa n := by
  unfold NextPatchedTag
  cases bestNumbered maxInt S T with
  | some nt => exact Or.inr ⟨nt.1 + 1, rfl⟩
  | none =>
    simp only []
    split
    · exact Or.inr ⟨1, patched_one S⟩
    · exact Or.inl rfl

theorem NextPatchedTag_after_numbered (maxInt : Nat) (T : List Str) (S : Str) (n : Nat)
    (hr : NextPatchedTag maxInt T S = S ++ "-patched-".toList ++ Itoa n) (hn : n ≤ maxInt) :
    NextPatchedTag maxInt (T ++ [NextPatchedTag maxInt T S]) S
      = S ++ "-patched-".toList ++ Itoa (n + 1) := by
  have hbound : ∀ t ∈ T, ∀ m, patchNumber maxInt S t = some m → m ≤ n := by
    intro t ht m hm
    cases hb : bestNumbered maxInt S T with
    | none =>
      have := (bestNumbered_eq_none maxInt S T).mp hb t ht
      rw [hm] at this
      exact absurd this (by simp)
    | some ku =>
      obtain ⟨k, u⟩ := ku
      obtain ⟨_, _, h3⟩ := bestNumbered_eq_some maxInt S T k u hb
      have hk : NextPatchedTag maxInt T S = S ++ "-patched-".toList ++ Itoa (k + 1) := by
        unfold NextPatchedTag
        rw [hb]
      rw [hk] at hr
      have := Itoa_injective _ _ (List.append_cancel_left hr)
      have := h3 t ht m hm
      omega
  rw [hr]
  have hnum := patchNumber_numbered maxInt S n hn
  obtain ⟨u, hb⟩ := bestNumbered_of_max maxInt S (T ++ [S ++ "-patched-".toList ++ Itoa n]) n
    ⟨_, by simp, hnum⟩
    (by
      intro t ht m hm
      rcases List.mem_append.mp ht with h | h
      · exact hbound t h m hm
      · rw [List.mem_singleton] at h
        rw [h, hnum] at hm
        exact le_of_eq (Option.some.inj hm).symm)
  unfold NextPatchedTag
  rw [hb]

theorem NextPatchedTag_after_bare (maxInt : Nat) (T : List Str) (S : Str)
    (hr : NextPatchedTag maxInt T S = S ++ "-patched".toList) :
    NextPatchedTag maxInt (T ++ [NextPatchedTag maxInt T S]) S = S ++ "-patched-1".toList := by
  have hnone : bestNumbered maxInt S T = none := by
    cases hb : bestNumbered maxInt S T with
    | none => rfl
    | some ku =>
      have hk : NextPatchedTag maxInt T S = S ++ "-patched-".toList ++ Itoa (ku.1 + 1) := by
        unfold NextPatchedTag
        rw [hb]
      rw [hk] at hr
      exact absurd hr (numbered_ne_bare S _)
  rw [hr]
  have hb : bestNumbered maxInt S (T ++ [S ++ "-patched".toList]) = none := by
    rw [bestNumbered_eq_none]
    intro t ht
    rcases List.mem_append.mp ht with h | h
    · exact (bestNumbered_eq_none maxInt S T).mp hnone t h
    · rw [List.mem_singleton] at h
      rw [h]
      exact patchNumber_bare maxInt S
  unfold NextPatchedTag
  rw [hb]
  simp

theorem nextResult_succ (maxInt : Nat) (S : Str) (T : List Str) (i : Nat) :
    nextResult maxInt S T (i + 1)
      = NextPatchedTag maxInt
          (tagsAfter maxInt S T i ++ [NextPatchedTag maxInt (tagsAfter maxInt S T i) S]) S :=
  rfl

theorem nextResult_rank (maxInt : Nat) (S : Str) (T : List Str) (i : Nat) :
    ∀ d : Nat,
      (∀ k, k < i + d + 1 → ∀ n, nextResult maxInt S T k = S ++ "-patched-".toList ++ Itoa n →
        n ≤ maxInt) →
      (nextResult maxInt S T i = S ++ "-patched".toList ∧
        nextResult maxInt S T (i + d + 1) = S ++ "-patched-".toList ++ Itoa (d + 1)) ∨
      ∃ n, nextResult maxInt S T i = S ++ "-patched-".toList ++ Itoa n ∧
        nextResult maxInt S T (i + d + 1) = S ++ "-patched-".toList ++ Itoa (n + d + 1) := by
  intro d
  induction d with
  | zero =>
    intro hrep
    rcases NextPatchedTag_shape maxInt (tagsAfter maxInt S T i) S with h | ⟨n, h⟩
    · refine Or.inl ⟨h, ?_⟩
      rw [nextResult_succ, NextPatchedTag_after_bare maxInt _ S h]
      exact patched_one S
    · refine Or.inr ⟨n, h, ?_⟩
      rw [nextResult_succ]
      exact NextPatchedTag_after_numbered maxInt _ S n h (hrep i (by omega) n h)
  | succ d ih =>
    intro hrep
    have ih' := ih (fun k hk n hn => hrep k (by omega) n hn)
    rcases ih' with ⟨h0, hd⟩ | ⟨n, h0, hd⟩
    · refine Or.inl ⟨h0, ?_⟩
      have hle := hrep (i + d + 1) (by omega) (d + 1) hd
      have := NextPatchedTag_after_numbered maxInt _ S (d + 1) hd hle
      rw [show i + (d + 1) + 1 = (i + d + 1) + 1 by omega, nextResult_succ]
      exact this
    · refine Or.inr ⟨n, h0, ?_⟩
      have hle := hrep (i + d + 1) (by omega) (n + d + 1) hd
      have := NextPatchedTag_after_numbered maxInt _ S (n + d + 1) hd hle
      rw [show i + (d + 1) + 1 = (i + d + 1) + 1 by omega, nextResult_succ]
      exact this


/-- C22, as stated, fails: with the largest representable integer
`9223372036854775807` and `T` holding `1.29.3-patched-9223372036854775807`, the
first two results are both `1.29.3-patched-9223372036854775808`: the appended
tag has a suffix too large to represent and is ignored.  The same happens
whatever the largest representable integer `m` is. -/
theorem nextResult_repeats_at_bound :
    (nextResult 9223372036854775807 "1.29.3".toList
        ["1.29.3-patched-9223372036854775807".toList] 0
      = "1.29.3-patched-9223372036854775808".toList ∧
    nextResult 9223372036854775807 "1.29.3".toList
        ["1.29.3-patched-9223372036854775807".toList] 1
      = "1.29.3-patched-9223372036854775808".toList) ∧
    ∀ m : Nat,
      nextResult m "1.29.3".toList ["1.29.3".toList ++ "-patched-".toList ++ Itoa m] 0
        = nextResult m "1.29.3".toList ["1.29.3".toList ++ "-patched-".toList ++ Itoa m] 1 := by
  refine ⟨by decide, fun m => ?_⟩
  have h1 := patchNumber_numbered m "1.29.3".toList m (le_refl m)
  have h2 := patchNumber_too_large m "1.29.3".toList (m + 1) (by omega)
  have hb0 : bestNumbered m "1.29.3".toList ["1.29.3".toList ++ "-patched-".toList ++ Itoa m]
      = some (m, "1.29.3".toList ++ "-patched-".toList ++ Itoa m) := by
    simp only [bestNumbered, h1]
  have hr0 : NextPatchedTag m ["1.29.3".toList ++ "-patched-".toList ++ Itoa m] "1.29.3".toList
      = "1.29.3".toList ++ "-patched-".toList ++ Itoa (m + 1) := by
    unfold NextPatchedTag
    rw [hb0]
  have hb1 : bestNumbered m "1.29.3".toList
      (["1.29.3".toList ++ "-patched-".toList ++ Itoa m] ++
        ["1.29.3".toList ++ "-patched-".toList ++ Itoa (m + 1)])
      = some (m, "1.29.3".toList ++ "-patched-".toList ++ Itoa m) := by
    simp only [List.singleton_append, bestNumbered, h1, h2]
  show NextPatchedTag m ["1.29.3".toList ++ "-patched-".toList ++ Itoa m] "1.29.3".toList
    = NextPatchedTag m
        (["1.29.3".toList ++ "-patched-".toList ++ Itoa m] ++
          [NextPatchedTag m ["1.29.3".toList ++ "-patched-".toList ++ Itoa m] "1.29.3".toList])
        "1.29.3".toList
  rw [hr0]
  unfold NextPatchedTag
  rw [hb1]

/-- C22, amended: with `T_0 = T`, `r_i = NextPatchedTag(T_i, S)` and `T_(i+1)`
the list `T_i` with `r_i` appended: when `r_i` is `S-patched-n` with `n`
representable, `r_(i+1)` is `S-patched-(n+1)`; when `r_i` is the bare form
`S-patched`, `r_(i+1)` is `S-patched-1`; and `r_i` and `r_j` are distinct for
`i < j` as long as every numbered result before `r_j` has a representable
number. -/
theorem nextResult_monotone (maxInt : Nat) (S : Str) (T : List Str) :
    (∀ i n, nextResult maxInt S T i = S ++ "-patched-".toList ++ Itoa n → n ≤ maxInt →
      nextResult maxInt S T (i + 1) = S ++ "-patched-".toList ++ Itoa (n + 1)) ∧
    (∀ i, nextResult maxInt S T i = S ++ "-patched".toList →
      nextResult maxInt S T (i + 1) = S ++ "-patched-1".toList) ∧
    (∀ i j, i < j →
      (∀ k, k < j → ∀ n, nextResult maxInt S T k = S ++ "-patched-".toList ++ Itoa n →
        n ≤ maxInt) →
      nextResult maxInt S T i ≠ nextResult maxInt S T j) := by
  refine ⟨fun i n h hn => ?_, fun i h => ?_, fun i j hij hrep => ?_⟩
  · rw [nextResult_succ]
    exact NextPatchedTag_after_numbered maxInt _ S n h hn
  · rw [nextResult_succ]
    exact NextPatchedTag_after_bare maxInt _ S h
  · obtain ⟨d, hd⟩ : ∃ d, j = i + d + 1 := ⟨j - i - 1, by omega⟩
    subst hd
    rcases nextResult_rank maxInt S T i d hrep with ⟨h0, h1⟩ | ⟨n, h0, h1⟩
    · rw [h0, h1]
      exact (numbered_ne_bare S _).symm
    · rw [h0, h1]
      intro e
      have := Itoa_injective _ _ (List.append_cancel_left e)
      omega

theorem nextResult_monotone_witness :
    nextResult 9223372036854775807 "1.29.3".toList ["1.29.3".toList, "1.29.4".toList] (0 + 1)
      = "1.29.3".toList ++ "-patched-1".toList :=
  (nextResult_monotone 9223372036854775807 "1.29.3".toList
    ["1.29.3".toList, "1.29.4".toList]).2.1 0 (by decide)


/-! ## The four outcomes of an image -/

theorem buildPatchResults_append {σ : Type} (x : Collaborators σ) (w : σ)
    (resultMap : ResultMap) (reportsDir : Str) (pre post : List ImageDiscovery) :
    buildPatchResults x w (pre ++ post) resultMap reportsDir
      = buildPatchResults x w pre resultMap reportsDir ++
          buildPatchResults x w post resultMap reportsDir := by
  induction pre with
  | nil => rfl
  | cons a rest ih =>
    simp only [List.cons_append, buildPatchResults]
    simp only [List.append_eq]
    rw [ih]

theorem hasChanges_append (resultMap : ResultMap) (pre post : List ImageDiscovery) :
    hasChanges resultMap (pre ++ post) = (hasChanges resultMap pre || hasChanges resultMap post) := by
  induction pre with
  | nil => simp [hasChanges]
  | cons a rest ih =>
    simp only [List.cons_append, hasChanges]
    cases resultMap a.toImage.Reference with
    | none => simpa using ih
    | some r =>
      simp only []
      cases r.Changed with
      | true => simp
      | false => simpa using ih

theorem publishedImages_mem {σ : Type} (x : Collaborators σ) (w : σ) (resultMap : ResultMap)
    (reportsDir : Str) (images : List ImageDiscovery) (pi : PublishedImage)
    (h : pi ∈ publishedImages (buildPatchResults x w images resultMap reportsDir)) :
    ∃ img ∈ images, pi.Original = img.Reference ∧
      (buildPatchResult x w resultMap reportsDir img).Error = none := by
  induction images with
  | nil => simp [buildPatchResults, publishedImages] at h
  | cons a rest ih =>
    simp only [buildPatchResults, publishedImages] at h
    split at h
    · rename_i hc
      rcases List.mem_cons.mp h with e | h
      · refine ⟨a, List.mem_cons_self _ _, ?_, hc.1⟩
        rw [e]
        simp only [buildPatchResult_Original, toImage_Reference]
      · obtain ⟨img, hm, h1, h2⟩ := ih h
        exact ⟨img, List.mem_cons_of_mem _ hm, h1, h2⟩
    · obtain ⟨img, hm, h1, h2⟩ := ih h
      exact ⟨img, List.mem_cons_of_mem _ hm, h1, h2⟩

/-- C23: an image whose reference has no entry in the result map is recorded
by `buildPatchResults`, at its place in the list, as skipped with the reason
`no patch result`, with no error, an empty patched image and vulnerability
count 0; and it does not make `hasChanges` true: `hasChanges` is the same with
and without the image. -/
theorem missing_result_is_skipped {σ : Type} (x : Collaborators σ) (w : σ)
    (resultMap : ResultMap) (reportsDir : Str) (img : ImageDiscovery)
    (pre post : List ImageDiscovery) (h : resultMap img.Reference = none) :
    buildPatchResults x w (pre ++ img :: post) resultMap reportsDir
      = buildPatchResults x w pre resultMap reportsDir ++
          { Original := img.toImage, Patched := ⟨[], [], [], []⟩, VulnCount := 0,
            Skipped := true, SkipReason := "no patch result".toList, Error := none,
            ReportPath := [], UpstreamReportPath := [], OverriddenFrom := [] } ::
          buildPatchResults x w post resultMap reportsDir ∧
    hasChanges resultMap (pre ++ img :: post) = hasChanges resultMap (pre ++ post) := by
  have h' : resultMap img.toImage.Reference = none := by rw [toImage_Reference]; exact h
  constructor
  · rw [buildPatchResults_append]
    simp only [buildPatchResults, buildPatchResult, h']
    rfl
  · rw [hasChanges_append, hasChanges_append]
    simp only [hasChanges, h']

theorem missing_result_is_skipped_witness :
    buildPatchResults exampleCollaborators 0 ([imageA] ++ nginxImage :: [imageB]) exampleResults
        "reports".toList
      = buildPatchResults exampleCollaborators 0 [imageA] exampleResults "reports".toList ++
          { Original := nginxImage.toImage, Patched := ⟨[], [], [], []⟩, VulnCount := 0,
            Skipped := true, SkipReason := "no patch result".toList, Error := none,
            ReportPath := [], UpstreamReportPath := [], OverriddenFrom := [] } ::
          buildPatchResults exampleCollaborators 0 [imageB] exampleResults "reports".toList ∧
    hasChanges exampleResults ([imageA] ++ nginxImage :: [imageB])
      = hasChanges exampleResults ([imageA] ++ [imageB]) :=
  missing_result_is_skipped exampleCollaborators 0 exampleResults "reports".toList nginxImage
    [imageA] [imageB] (by decide)

/-- C24: for an image whose record has an empty error and `skipped=true`,
`buildPatchResults` records it as skipped with the record's skip reason (no
error, vulnerability count 0); when the record carries a patched reference,
that is a non-empty patched repository, the patched registry, repository and
tag are recorded as the result's `Patched` image, and otherwise `Patched` stays
empty. -/
theorem skipped_record_result {σ : Type} (x : Collaborators σ) (w : σ)
    (resultMap : ResultMap) (reportsDir : Str) (img : ImageDiscovery) (r : SinglePatchResult)
    (h : resultMap img.Reference = some r) (he : r.Error = []) (hs : r.Skipped = true) :
    (buildPatchResult x w resultMap reportsDir img).Skipped = true ∧
    (buildPatchResult x w resultMap reportsDir img).SkipReason = r.SkipReason ∧
    (buildPatchResult x w resultMap reportsDir img).Error = none ∧
    (buildPatchResult x w resultMap reportsDir img).VulnCount = 0 ∧
    (buildPatchResult x w resultMap reportsDir img).Original = img.toImage ∧
    (r.PatchedRepository ≠ [] →
      (buildPatchResult x w resultMap reportsDir img).Patched
        = ⟨r.PatchedRegistry, r.PatchedRepository, r.PatchedTag, []⟩) ∧
    (r.PatchedRepository = [] →
      (buildPatchResult x w resultMap reportsDir img).Patched = ⟨[], [], [], []⟩) := by
  have h' : resultMap img.toImage.Reference = some r := by rw [toImage_Reference]; exact h
  simp only [buildPatchResult, h', he, hs, ne_eq, not_true_eq_false, if_false, if_true]
  by_cases hp : r.PatchedRepository = []
  · simp only [hp, not_true_eq_false, if_false]
    split <;> simp
  · simp only [hp, not_false_eq_true, if_true]
    split <;> simp

theorem skipped_record_result_witness :
    (buildPatchResult exampleCollaborators 0 exampleResults "reports".toList imageB).Skipped
      = true ∧
    (buildPatchResult exampleCollaborators 0 exampleResults "reports".toList imageB).SkipReason
      = recordB.SkipReason ∧
    (buildPatchResult exampleCollaborators 0 exampleResults "reports".toList imageB).Error
      = none ∧
    (buildPatchResult exampleCollaborators 0 exampleResults "reports".toList imageB).VulnCount
      = 0 ∧
    (buildPatchResult exampleCollaborators 0 exampleResults "reports".toList imageB).Original
      = imageB.toImage ∧
    (recordB.PatchedRepository ≠ [] →
      (buildPatchResult exampleCollaborators 0 exampleResults "reports".toList imageB).Patched
        = ⟨recordB.PatchedRegistry, recordB.PatchedRepository, recordB.PatchedTag, []⟩) ∧
    (recordB.PatchedRepository = [] →
      (buildPatchResult exampleCollaborators 0 exampleResults "reports".toList imageB).Patched
        = ⟨[], [], [], []⟩) :=
  skipped_record_result exampleCollaborators 0 exampleResults "reports".toList imageB recordB
    (by decide) (by decide) (by decide)

/-- C25: for an image whose record has an empty error and `skipped=false`,
`buildPatchResults` records the record's vulnerability count and the patched
image (patched registry, repository, tag), with `Skipped` false and no
error. -/
theorem successful_record_result {σ : Type} (x : Collaborators σ) (w : σ)
    (resultMap : ResultMap) (reportsDir : Str) (img : ImageDiscovery) (r : SinglePatchResult)
    (h : resultMap img.Reference = some r) (he : r.Error = []) (hs : r.Skipped = false) :
    (buildPatchResult x w resultMap reportsDir img).VulnCount = r.VulnCount ∧
    (buildPatchResult x w resultMap reportsDir img).Patched
      = ⟨r.PatchedRegistry, r.PatchedRepository, r.PatchedTag, []⟩ ∧
    (buildPatchResult x w resultMap reportsDir img).Skipped = false ∧
    (buildPatchResult x w resultMap reportsDir img).SkipReason = [] ∧
    (buildPatchResult x w resultMap reportsDir img).Error = none ∧
    (buildPatchResult x w resultMap reportsDir img).Original = img.toImage := by
  have h' : resultMap img.toImage.Reference = some r := by rw [toImage_Reference]; exact h
  simp only [buildPatchResult, h', he, hs, ne_eq, not_true_eq_false, if_false,
    Bool.false_eq_true]
  split <;> simp

theorem successful_record_result_witness :
    (buildPatchResult exampleCollaborators 0 exampleResults "reports".toList imageA).VulnCount
      = recordA.VulnCount ∧
    (buildPatchResult exampleCollaborators 0 exampleResults "reports".toList imageA).Patched
      = ⟨recordA.PatchedRegistry, recordA.PatchedRepository, recordA.PatchedTag, []⟩ ∧
    (buildPatchResult exampleCollaborators 0 exampleResults "reports".toList imageA).Skipped
      = false ∧
    (buildPatchResult exampleCollaborators 0 exampleResults "reports".toList imageA).SkipReason
      = [] ∧
    (buildPatchResult exampleCollaborators 0 exampleResults "reports".toList imageA).Error
      = none ∧
    (buildPatchResult exampleCollaborators 0 exampleResults "reports".toList imageA).Original
      = imageA.toImage :=
  successful_record_result exampleCollaborators 0 exampleResults "reports".toList imageA recordA
    (by decide) (by decide) (by decide)

/-- C26: error takes precedence over skipped.  For an image whose record has a
non-empty error, whatever its skipped flag and patched fields,
`buildPatchResults` yields a result with `Error` set to that error, `Skipped`
false, an empty `Patched` image and vulnerability count 0; and the image's
reference is the original of no entry of a published image list. -/
theorem failed_record_result {σ : Type} (x : Collaborators σ) (w : σ)
    (resultMap : ResultMap) (reportsDir : Str) (img : ImageDiscovery) (r : SinglePatchResult)
    (h : resultMap img.Reference = some r) (he : r.Error ≠ []) :
    (buildPatchResult x w resultMap reportsDir img).Error = some r.Error ∧
    (buildPatchResult x w resultMap reportsDir img).Skipped = false ∧
    (buildPatchResult x w resultMap reportsDir img).SkipReason = [] ∧
    (buildPatchResult x w resultMap reportsDir img).Patched = ⟨[], [], [], []⟩ ∧
    (buildPatchResult x w resultMap reportsDir img).VulnCount = 0 ∧
    ∀ (images : List ImageDiscovery) (w1 : σ),
      ∀ pi ∈ publishedImages (buildPatchResults x w1 images resultMap reportsDir),
        pi.Original ≠ img.Reference := by
  have h' : resultMap img.toImage.Reference = some r := by rw [toImage_Reference]; exact h
  refine ⟨?_, ?_, ?_, ?_, ?_, ?_⟩
  · simp only [buildPatchResult, h', he, ne_eq, not_false_eq_true, if_true]
    split <;> simp
  · simp only [buildPatchResult, h', he, ne_eq, not_false_eq_true, if_true]
    split <;> simp
  · simp only [buildPatchResult, h', he, ne_eq, not_false_eq_true, if_true]
    split <;> simp
  · simp only [buildPatchResult, h', he, ne_eq, not_false_eq_true, if_true]
    split <;> simp
  · simp only [buildPatchResult, h', he, ne_eq, not_false_eq_true, if_true]
    split <;> simp
  · intro images w1 pi hpi hEq
    obtain ⟨other, _, ho, herr⟩ := publishedImages_mem x w1 resultMap reportsDir images pi hpi
    have hsame : resultMap other.Reference = some r := by
      rw [← ho, hEq]
      exact h
    rw [(buildPatchResult_failed x w1 resultMap reportsDir other r hsame he).1] at herr
    exact absurd herr (by simp)

theorem failed_record_result_witness :
    (buildPatchResult exampleCollaborators 0 failedResults "reports".toList imageA).Error
      = some recordFailed.Error ∧
    (buildPatchResult exampleCollaborators 0 failedResults "reports".toList imageA).Skipped
      = false ∧
    (buildPatchResult exampleCollaborators 0 failedResults "reports".toList imageA).SkipReason
      = [] ∧
    (buildPatchResult exampleCollaborators 0 failedResults "reports".toList imageA).Patched
      = ⟨[], [], [], []⟩ ∧
    (buildPatchResult exampleCollaborators 0 failedResults "reports".toList imageA).VulnCount
      = 0 ∧
    ∀ (images : List ImageDiscovery) (w1 : Nat),
      ∀ pi ∈ publishedImages
          (buildPatchResults exampleCollaborators w1 images failedResults "reports".toList),
        pi.Original ≠ imageA.Reference :=
  failed_record_result exampleCollaborators 0 failedResults "reports".toList imageA recordFailed
    (by decide) (by decide)


/-! ## Loading the result records -/

theorem loadEntries_cons {σ : Type} (x : Collaborators σ) (fs : FileSystem σ) (w : σ)
    (dir : Str) (e : DirEntry) (rest : List DirEntry) (m : ResultMap) :
    loadEntries x fs w dir (e :: rest) m =
      loadEntries x fs w dir rest
        (match entryRecord x fs w dir e with
          | none => m
          | some r => m.insert r.ImageRef r) := by
  unfold entryRecord
  rw [loadEntries]
  by_cases h1 : e.IsDir ∨ ¬ HasSuffix e.Name ".json".toList
  · simp only [h1, if_true]
  · simp only [h1, if_false]
    cases fs.ReadFile (x.PathJoin dir e.Name) w with
    | error err => rfl
    | ok data =>
      simp only []
      cases fs.UnmarshalResult data with
      | error err => rfl
      | ok r =>
        simp only []
        by_cases h2 : r.ImageRef = []
        · simp only [h2, if_true]
        · simp only [h2, if_false]

theorem loadEntries_append {σ : Type} (x : Collaborators σ) (fs : FileSystem σ) (w : σ)
    (dir : Str) (pre post : List DirEntry) :
    ∀ m : ResultMap, loadEntries x fs w dir (pre ++ post) m
      = loadEntries x fs w dir post (loadEntries x fs w dir pre m) := by
  induction pre with
  | nil => intro m; rfl
  | cons e rest ih =>
    intro m
    rw [List.cons_append, loadEntries_cons, loadEntries_cons, ih]

theorem entryRecord_eq_some {σ : Type} (x : Collaborators σ) (fs : FileSystem σ) (w : σ)
    (dir : Str) (e : DirEntry) (r : SinglePatchResult) :
    entryRecord x fs w dir e = some r ↔
      e.IsDir = false ∧ HasSuffix e.Name ".json".toList = true ∧
      ∃ data, fs.ReadFile (x.PathJoin dir e.Name) w = Except.ok data ∧
        fs.UnmarshalResult data = Except.ok r ∧ r.ImageRef ≠ [] := by
  unfold entryRecord
  by_cases h1 : e.IsDir ∨ ¬ HasSuffix e.Name ".json".toList
  · simp only [h1, if_true]
    constructor
    · intro h; exact absurd h (by simp)
    · rintro ⟨a, b, _⟩
      rcases h1 with h | h
      · rw [a] at h; exact absurd h (by simp)
      · exact absurd b h
  · simp only [h1, if_false]
    have hd : e.IsDir = false := by
      cases hh : e.IsDir with
      | false => rfl
      | true => exact absurd (Or.inl hh) h1
    have hs : HasSuffix e.Name ".json".toList = true := by
      by_contra hh
      exact h1 (Or.inr hh)
    cases hread : fs.ReadFile (x.PathJoin dir e.Name) w with
    | error err =>
      simp only []
      constructor
      · intro h; exact absurd h (by simp)
      · rintro ⟨_, _, data, hr, _⟩
        exact absurd hr (by simp)
    | ok data =>
      simp only []
      cases hparse : fs.UnmarshalResult data with
      | error err =>
        simp only []
        constructor
        · intro h; exact absurd h (by simp)
        · rintro ⟨_, _, data2, hr, hp, _⟩
          have : data2 = data := (Except.ok.inj hr).symm
          rw [this, hparse] at hp
          exact absurd hp (by simp)
      | ok r0 =>
        simp only []
        by_cases h2 : r0.ImageRef = []
        · simp only [h2, if_true]
          constructor
          · intro h; exact absurd h (by simp)
          · rintro ⟨_, _, data2, hr, hp, hne⟩
            have : data2 = data := (Except.ok.inj hr).symm
            rw [this, hparse] at hp
            have : r0 = r := Except.ok.inj hp
            rw [← this] at hne
            exact absurd h2 hne
        · simp only [h2, if_false]
          constructor
          · intro h
            have : r0 = r := Option.some.inj h
            subst this
            exact ⟨hd, hs, data, rfl, hparse, h2⟩
          · rintro ⟨_, _, data2, hr, hp, _⟩
            have : data2 = data := (Except.ok.inj hr).symm
            rw [this, hparse] at hp
            rw [Except.ok.inj hp]

theorem loadEntries_skip {σ : Type} (x : Collaborators σ) (fs : FileSystem σ) (w : σ)
    (dir : Str) (es : List DirEntry) (k : Str)
    (h : ∀ e ∈ es, ∀ r, entryRecord x fs w dir e = some r → r.ImageRef ≠ k) :
    ∀ m : ResultMap, loadEntries x fs w dir es m k = m k := by
  induction es with
  | nil => intro m; rfl
  | cons e rest ih =>
    intro m
    rw [loadEntries_cons, ih (fun e' he' => h e' (List.mem_cons_of_mem _ he'))]
    cases hr : entryRecord x fs w dir e with
    | none => rfl
    | some r =>
      have hne := h e (List.mem_cons_self _ _) r hr
      simp only [ResultMap.insert]
      rw [if_neg (fun e1 => hne e1.symm)]

theorem loadEntries_nil_key {σ : Type} (x : Collaborators σ) (fs : FileSystem σ) (w : σ)
    (dir : Str) (es : List DirEntry) (m : ResultMap) (h : m [] = none) :
    loadEntries x fs w dir es m [] = none := by
  rw [loadEntries_skip x fs w dir es [] _ m, h]
  intro e _ r hr
  exact ((entryRecord_eq_some x fs w dir e r).mp hr).2.2.choose_spec.2.2

theorem loadEntries_last {σ : Type} (x : Collaborators σ) (fs : FileSystem σ) (w : σ)
    (dir : Str) (pre post : List DirEntry) (e : DirEntry) (r : SinglePatchResult)
    (m : ResultMap) (hr : entryRecord x fs w dir e = some r)
    (hpost : ∀ e1 ∈ post, ∀ r1, entryRecord x fs w dir e1 = some r1 →
      r1.ImageRef ≠ r.ImageRef) :
    loadEntries x fs w dir (pre ++ e :: post) m r.ImageRef = some r := by
  rw [loadEntries_append, loadEntries_cons, hr, loadEntries_skip x fs w dir post r.ImageRef hpost]
  simp [ResultMap.insert]

theorem loadEntries_present {σ : Type} (x : Collaborators σ) (fs : FileSystem σ) (w : σ)
    (dir : Str) (es : List DirEntry) (k : Str) :
    ∀ m : ResultMap, (∃ r0, m k = some r0 ∧ r0.ImageRef = k) →
      ∃ r1, loadEntries x fs w dir es m k = some r1 ∧ r1.ImageRef = k := by
  induction es with
  | nil => intro m h; exact h
  | cons e rest ih =>
    intro m h
    rw [loadEntries_cons]
    apply ih
    cases hr : entryRecord x fs w dir e with
    | none => exact h
    | some r =>
      simp only [ResultMap.insert]
      by_cases hk : k = r.ImageRef
      · exact ⟨r, by rw [if_pos hk], hk.symm⟩
      · rw [if_neg hk]
        exact h


theorem entryRecord_congr {σ : Type} (x : Collaborators σ) (fs fs2 : FileSystem σ) (w : σ)
    (dir : Str) (h1 : fs2.ReadFile = fs.ReadFile) (h2 : fs2.UnmarshalResult = fs.UnmarshalResult)
    (e : DirEntry) : entryRecord x fs2 w dir e = entryRecord x fs w dir e := by
  unfold entryRecord
  rw [h1, h2]

theorem loadEntries_congr {σ : Type} (x : Collaborators σ) (fs fs2 : FileSystem σ) (w : σ)
    (dir : Str) (h1 : fs2.ReadFile = fs.ReadFile) (h2 : fs2.UnmarshalResult = fs.UnmarshalResult)
    (es : List DirEntry) :
    ∀ m : ResultMap, loadEntries x fs2 w dir es m = loadEntries x fs w dir es m := by
  induction es with
  | nil => intro m; rfl
  | cons e rest ih =>
    intro m
    rw [loadEntries_cons, loadEntries_cons, entryRecord_congr x fs fs2 w dir h1 h2, ih]

theorem loadResults_ok {σ : Type} (x : Collaborators σ) (fs : FileSystem σ) (w : σ) (dir : Str)
    (entries : List DirEntry) (h : fs.ReadDir dir w = Except.ok entries) :
    loadResults x fs w dir = Except.ok (loadEntries x fs w dir entries ResultMap.empty) := by
  unfold loadResults
  rw [h]

/-- C27: when listing the directory fails, `loadResults` returns the empty
result map and no error if the directory does not exist, and returns the
failure as an error otherwise. -/
theorem loadResults_listing_failure {σ : Type} (x : Collaborators σ) (fs : FileSystem σ) (w : σ)
    (dir : Str) (err : DirError) (h : fs.ReadDir dir w = Except.error err) :
    (err.NotExist = true → loadResults x fs w dir = Except.ok ResultMap.empty) ∧
    (err.NotExist = false →
      loadResults x fs w dir
        = Except.error ("reading results dir: ".toList ++ err.Message)) := by
  unfold loadResults
  rw [h]
  constructor
  · intro hn
    simp only [hn, if_true]
  · intro hn
    simp only [hn, Bool.false_eq_true, if_false]

theorem loadResults_listing_failure_witness :
    loadResults exampleCollaborators exampleFileSystem 0 "nowhere".toList
      = Except.ok ResultMap.empty :=
  (loadResults_listing_failure exampleCollaborators exampleFileSystem 0 "nowhere".toList
    ⟨"no such file or directory".toList, true⟩ rfl).1 rfl

/-- C28: for a directory that can be listed `loadResults` succeeds; the
returned map never has the empty string as a key; and a file that cannot be
read, fails to parse, or parses with an empty `ImageRef` contributes nothing:
the same map is returned when that file is taken out of the listing. -/
theorem loadResults_skips_bad_files {σ : Type} (x : Collaborators σ) (fs : FileSystem σ)
    (w : σ) (dir : Str) (entries : List DirEntry)
    (h : fs.ReadDir dir w = Except.ok entries) :
    ∃ m, loadResults x fs w dir = Except.ok m ∧ m [] = none ∧
      ∀ pre e post, entries = pre ++ e :: post →
        ((∃ err, fs.ReadFile (x.PathJoin dir e.Name) w = Except.error err) ∨
          (∃ data err, fs.ReadFile (x.PathJoin dir e.Name) w = Except.ok data ∧
            fs.UnmarshalResult data = Except.error err) ∨
          (∃ data r, fs.ReadFile (x.PathJoin dir e.Name) w = Except.ok data ∧
            fs.UnmarshalResult data = Except.ok r ∧ r.ImageRef = [])) →
        loadResults x { fs with ReadDir := fun _ _ => Except.ok (pre ++ post) } w dir
          = Except.ok m := by
  refine ⟨loadEntries x fs w dir entries ResultMap.empty, loadResults_ok x fs w dir entries h,
    loadEntries_nil_key x fs w dir entries ResultMap.empty rfl, ?_⟩
  intro pre e post he hbad
  have hnone : entryRecord x fs w dir e = none := by
    cases hr : entryRecord x fs w dir e with
    | none => rfl
    | some r =>
      obtain ⟨_, _, data, h1, h2, h3⟩ := (entryRecord_eq_some x fs w dir e r).mp hr
      rcases hbad with ⟨err, hb⟩ | ⟨d2, err, hb1, hb2⟩ | ⟨d2, r2, hb1, hb2, hb3⟩
      · rw [h1] at hb
        exact absurd hb (by simp)
      · rw [h1] at hb1
        have : data = d2 := Except.ok.inj hb1
        rw [← this, h2] at hb2
        exact absurd hb2 (by simp)
      · rw [h1] at hb1
        have : data = d2 := Except.ok.inj hb1
        rw [← this, h2] at hb2
        have : r = r2 := Except.ok.inj hb2
        rw [← this] at hb3
        exact absurd hb3 h3
  have hc := loadEntries_congr x fs { fs with ReadDir := fun _ _ => Except.ok (pre ++ post) }
    w dir rfl rfl (pre ++ post) ResultMap.empty
  rw [loadResults_ok x _ w dir (pre ++ post) rfl, hc, he, loadEntries_append,
    loadEntries_append, loadEntries_cons, hnone]

theorem loadResults_skips_bad_files_witness :
    ∃ m, loadResults exampleCollaborators exampleFileSystem 0 "results".toList = Except.ok m ∧
      m [] = none ∧
      ∀ pre e post,
        [(⟨"a.json".toList, false⟩ : DirEntry), ⟨"b.json".toList, false⟩,
          ⟨"notes.txt".toList, false⟩, ⟨"old.json".toList, true⟩] = pre ++ e :: post →
        ((∃ err, exampleFileSystem.ReadFile (exampleCollaborators.PathJoin "results".toList
              e.Name) 0 = Except.error err) ∨
          (∃ data err, exampleFileSystem.ReadFile (exampleCollaborators.PathJoin
              "results".toList e.Name) 0 = Except.ok data ∧
            exampleFileSystem.UnmarshalResult data = Except.error err) ∨
          (∃ data r, exampleFileSystem.ReadFile (exampleCollaborators.PathJoin
              "results".toList e.Name) 0 = Except.ok data ∧
            exampleFileSystem.UnmarshalResult data = Except.ok r ∧ r.ImageRef = [])) →
        loadResults exampleCollaborators
            { exampleFileSystem with ReadDir := fun _ _ => Except.ok (pre ++ post) } 0
            "results".toList
          = Except.ok m :=
  loadResults_skips_bad_files exampleCollaborators exampleFileSystem 0 "results".toList
    [⟨"a.json".toList, false⟩, ⟨"b.json".toList, false⟩, ⟨"notes.txt".toList, false⟩,
      ⟨"old.json".toList, true⟩] rfl

/-- C29: last write wins.  When a valid file of the listing (a regular file
named `*.json` that can be read and parses to a record with a non-empty
`ImageRef`) is the last one in listing order to declare its `ImageRef`, the map
returned by `loadResults` holds that file's record under that `ImageRef`,
whatever the files before it declare. -/
theorem loadResults_last_wins {σ : Type} (x : Collaborators σ) (fs : FileSystem σ) (w : σ)
    (dir : Str) (pre post : List DirEntry) (e : DirEntry) (data : Str)
    (r : SinglePatchResult)
    (h : fs.ReadDir dir w = Except.ok (pre ++ e :: post))
    (hfile : e.IsDir = false) (hname : HasSuffix e.Name ".json".toList = true)
    (hread : fs.ReadFile (x.PathJoin dir e.Name) w = Except.ok data)
    (hparse : fs.UnmarshalResult data = Except.ok r) (hkey : r.ImageRef ≠ [])
    (hlast : ∀ e1 ∈ post, ∀ r1, entryRecord x fs w dir e1 = some r1 →
      r1.ImageRef ≠ r.ImageRef) :
    ∃ m, loadResults x fs w dir = Except.ok m ∧ m r.ImageRef = some r := by
  have hr : entryRecord x fs w dir e = some r :=
    (entryRecord_eq_some x fs w dir e r).mpr ⟨hfile, hname, data, hread, hparse, hkey⟩
  exact ⟨_, loadResults_ok x fs w dir _ h,
    loadEntries_last x fs w dir pre post e r ResultMap.empty hr hlast⟩

theorem loadResults_last_wins_witness :
    ∃ m, loadResults exampleCollaborators duplicateFileSystem 0 "results".toList = Except.ok m ∧
      m recordFailed.ImageRef = some recordFailed :=
  loadResults_last_wins exampleCollaborators duplicateFileSystem 0 "results".toList
    [⟨"a.json".toList, false⟩] [] ⟨"b.json".toList, false⟩ "F".toList recordFailed
    rfl rfl (by decide) rfl rfl (by decide) (fun e1 he1 => absurd he1 (by simp))

/-- C30, as stated, fails: the only file of the directory, `a.txt`, is a
regular file whose content parses to `recordA`, which has a non-empty
`ImageRef`; the map returned by `loadResults` has no entry under that
`ImageRef`. -/
theorem loadResults_ignores_other_names :
    textFileSystem.ReadDir "results".toList 0 = Except.ok [⟨"a.txt".toList, false⟩] ∧
    textFileSystem.ReadFile (exampleCollaborators.PathJoin "results".toList "a.txt".toList) 0
      = Except.ok "A".toList ∧
    textFileSystem.UnmarshalResult "A".toList = Except.ok recordA ∧
    recordA.ImageRef ≠ [] ∧
    ∃ m, loadResults exampleCollaborators textFileSystem 0 "results".toList = Except.ok m ∧
      m recordA.ImageRef = none :=
  ⟨rfl, rfl, rfl, by decide, ResultMap.empty, rfl, rfl⟩

/-- C30, amended: every regular file of the directory whose name ends in
`.json` and whose content parses to a record with a non-empty `ImageRef`
yields a map entry under that `ImageRef`, holding a record that declares that
`ImageRef`; apart from the suffix the file's name plays no part. -/
theorem loadResults_json_file_entry {σ : Type} (x : Collaborators σ) (fs : FileSystem σ)
    (w : σ) (dir : Str) (entries : List DirEntry) (e : DirEntry) (data : Str)
    (r : SinglePatchResult)
    (h : fs.ReadDir dir w = Except.ok entries) (he : e ∈ entries)
    (hfile : e.IsDir = false) (hname : HasSuffix e.Name ".json".toList = true)
    (hread : fs.ReadFile (x.PathJoin dir e.Name) w = Except.ok data)
    (hparse : fs.UnmarshalResult data = Except.ok r) (hkey : r.ImageRef ≠ []) :
    ∃ m, loadResults x fs w dir = Except.ok m ∧
      ∃ r1, m r.ImageRef = some r1 ∧ r1.ImageRef = r.ImageRef := by
  have hr : entryRecord x fs w dir e = some r :=
    (entryRecord_eq_some x fs w dir e r).mpr ⟨hfile, hname, data, hread, hparse, hkey⟩
  obtain ⟨pre, post, hsplit⟩ := List.append_of_mem he
  refine ⟨_, loadResults_ok x fs w dir _ h, ?_⟩
  rw [hsplit, loadEntries_append, loadEntries_cons, hr]
  apply loadEntries_present
  exact ⟨r, by simp [ResultMap.insert], rfl⟩

theorem loadResults_json_file_entry_witness :
    ∃ m, loadResults exampleCollaborators exampleFileSystem 0 "results".toList = Except.ok m ∧
      ∃ r1, m recordA.ImageRef = some r1 ∧ r1.ImageRef = recordA.ImageRef :=
  loadResults_json_file_entry exampleCollaborators exampleFileSystem 0 "results".toList
    [⟨"a.json".toList, false⟩, ⟨"b.json".toList, false⟩, ⟨"notes.txt".toList, false⟩,
      ⟨"old.json".toList, true⟩] ⟨"a.json".toList, false⟩ "A".toList recordA
    rfl (by decide) rfl (by decide) rfl rfl (by decide)


/-! ## Reassembly, normal forms and the shape of the aggregated results -/

/-- C36: for every string `s` that does not end with `:`, the reference built
from the parsed components of `s` is `s`. -/
theorem Reference_of_parsed (s p : Str) (hs : s.getLast? ≠ some ':') :
    (Image.mk (ParseImageRef s).1 (ParseImageRef s).2.1 (ParseImageRef s).2.2 p).Reference
      = s := by
  by_cases hc : ':' ∈ s
  · obtain ⟨pre, t, e, ht⟩ := exists_last_sep ':' s hc
    subst e
    have htne : t ≠ [] := by
      intro h
      subst h
      exact hs (by simp)
    obtain ⟨h1, h2⟩ := splitRegistry_reassemble pre t
    rw [ParseImageRef_tagged pre t ht]
    unfold Image.Reference
    simp only [h2, htne, ne_eq, not_false_eq_true, if_true]
    rw [h1]
  · obtain ⟨h1, h2⟩ := splitRegistry_reassemble s []
    rw [ParseImageRef_untagged s hc]
    unfold Image.Reference
    simp only [h2, ne_eq, not_true_eq_false, if_false]
    exact h1

theorem Reference_of_parsed_witness :
    (Image.mk (ParseImageRef "localhost:5000/myimage:latest".toList).1
        (ParseImageRef "localhost:5000/myimage:latest".toList).2.1
        (ParseImageRef "localhost:5000/myimage:latest".toList).2.2 []).Reference
      = "localhost:5000/myimage:latest".toList :=
  Reference_of_parsed "localhost:5000/myimage:latest".toList [] (by decide)

/-- C37: for every string `x` that does not end with `:`, normalizing twice
gives the same as normalizing once, and the normalized reference parses with a
non-empty registry. -/
theorem NormalizeImageRef_normal_form (x : Str) (hx : x.getLast? ≠ some ':') :
    NormalizeImageRef (NormalizeImageRef x) = NormalizeImageRef x ∧
    (ParseImageRef (NormalizeImageRef x)).1 ≠ [] := by
  obtain ⟨g, r, hg, hr, hp, he⟩ := NormalizeImageRef_parse x hx
  constructor
  · rw [NormalizeImageRef_eq (NormalizeImageRef x), hp]
    simp only [hg, if_false]
    have hno : ¬ (g = "docker.io".toList ∧ ¬ Contains r '/' = true) := fun h => h.2 (hr h.1)
    simp only [hno, if_false]
    exact he.symm
  · rw [hp]
    exact hg

theorem NormalizeImageRef_normal_form_witness :
    NormalizeImageRef (NormalizeImageRef "grafana/grafana:12.3.3".toList)
      = NormalizeImageRef "grafana/grafana:12.3.3".toList ∧
    (ParseImageRef (NormalizeImageRef "grafana/grafana:12.3.3".toList)).1 ≠ [] :=
  NormalizeImageRef_normal_form "grafana/grafana:12.3.3".toList (by decide)

/-- C38: `buildPatchResults` returns exactly one result per image, in the same
order, and the original of the i-th result is the i-th image with registry,
repository, tag and path unchanged. -/
theorem buildPatchResults_originals {σ : Type} (x : Collaborators σ) (w : σ)
    (images : List ImageDiscovery) (resultMap : ResultMap) (reportsDir : Str) :
    (buildPatchResults x w images resultMap reportsDir).length = images.length ∧
    (buildPatchResults x w images resultMap reportsDir).map
        (fun pr => (pr.Original.Registry, pr.Original.Repository, pr.Original.Tag,
          pr.Original.Path))
      = images.map (fun d => (d.Registry, d.Repository, d.Tag, d.Path)) := by
  induction images with
  | nil => exact ⟨rfl, rfl⟩
  | cons d rest ih =>
    obtain ⟨h1, h2⟩ := ih
    constructor
    · simp only [buildPatchResults, List.length_cons, h1]
    · simp only [buildPatchResults, List.map_cons, h2, buildPatchResult_Original]
      rfl

/-- C40: a chart can be released with an empty image list.  The only image of
`failedChart` has a record with `changed=true` and a non-empty error:
`hasChanges` is true, the chart is in the published-release list of a run
without error, and its published image list is empty. -/
theorem released_with_no_images :
    failedResults imageA.Reference = some recordFailed ∧
    recordFailed.Changed = true ∧ recordFailed.Error ≠ [] ∧
    hasChanges failedResults failedChart.Images = true ∧
    (assembleCharts exampleCollaborators failedResults "reports".toList "charts".toList
        "ghcr.io/verity-org".toList true [failedChart] ⟨0, [], []⟩).1 = none ∧
    (assembleCharts exampleCollaborators failedResults "reports".toList "charts".toList
        "ghcr.io/verity-org".toList true [failedChart]
        ⟨0, [], []⟩).2.publishedCharts.map (fun pc => (pc.Name, pc.Images))
      = [(failedChart.Name, [])] := by
  decide


/-! ## The values override -/

theorem mapSet_ne_nil {β : Type} (m : List (Str × β)) (key : Str) (v : β) :
    mapSet m key v ≠ [] := by
  cases m with
  | nil => simp [mapSet]
  | cons kv rest =>
    obtain ⟨k, v0⟩ := kv
    unfold mapSet
    split <;> simp

theorem walkSet_cons_ne_nil (img : Image) (key : Str) (rest : List Str) (current : ValueMap) :
    walkSet img (key :: rest) current ≠ [] := by
  unfold walkSet
  split <;> exact mapSet_ne_nil _ _ _

theorem setImageAtPath_ne_nil (root : ValueMap) (dotPath : Str) (img : Image) :
    setImageAtPath root dotPath img ≠ [] := by
  unfold setImageAtPath
  cases h : Split '.' dotPath with
  | nil => exact absurd h (Split_ne_nil '.' dotPath)
  | cons key rest => exact walkSet_cons_ne_nil img key rest root

theorem overrideRoot_ne_nil (results : List PatchResult) :
    ∀ root : ValueMap, root ≠ [] → overrideRoot results root ≠ [] := by
  induction results with
  | nil => intro root h; exact h
  | cons r rest ih =>
    intro root h
    unfold overrideRoot
    split
    · exact ih root h
    · exact ih _ (setImageAtPath_ne_nil root _ _)

theorem overrideRoot_eq_nil_iff (results : List PatchResult) :
    overrideRoot results [] = [] ↔ ∀ r ∈ results, r.Error ≠ none ∨ r.Skipped = true := by
  induction results with
  | nil => simp [overrideRoot]
  | cons r rest ih =>
    unfold overrideRoot
    by_cases h : r.Error ≠ none ∨ r.Skipped = true
    · rw [if_pos h, ih]
      constructor
      · intro hall r1 hr1
        rcases List.mem_cons.mp hr1 with e | hm
        · rw [e]; exact h
        · exact hall r1 hm
      · intro hall r1 hr1
        exact hall r1 (List.mem_cons_of_mem _ hr1)
    · rw [if_neg h]
      constructor
      · intro hnil
        exact absurd hnil (overrideRoot_ne_nil rest _ (setImageAtPath_ne_nil [] _ _))
      · intro hall
        exact absurd (hall r (List.mem_cons_self _ _)) h

theorem overrideRoot_cons_bad (r : PatchResult) (rest : List PatchResult) (root : ValueMap)
    (h : r.Error ≠ none ∨ r.Skipped = true) :
    overrideRoot (r :: rest) root = overrideRoot rest root := by
  rw [overrideRoot, if_pos h]

theorem overrideRoot_cons_good (r : PatchResult) (rest : List PatchResult) (root : ValueMap)
    (h : ¬ (r.Error ≠ none ∨ r.Skipped = true)) :
    overrideRoot (r :: rest) root
      = overrideRoot rest (setImageAtPath root r.Original.Path r.Patched) := by
  rw [overrideRoot, if_neg h]

theorem overrideRoot_append (pre post : List PatchResult) :
    ∀ root : ValueMap,
      overrideRoot (pre ++ post) root = overrideRoot post (overrideRoot pre root) := by
  induction pre with
  | nil => intro root; rfl
  | cons r rest ih =>
    intro root
    rw [List.cons_append]
    by_cases h : r.Error ≠ none ∨ r.Skipped = true
    · rw [overrideRoot_cons_bad _ _ _ h, overrideRoot_cons_bad _ _ _ h, ih]
    · rw [overrideRoot_cons_good _ _ _ h, overrideRoot_cons_good _ _ _ h, ih]

/-- C31: the override tree built by `GenerateValuesOverride` is the
left-to-right fold of `setImageAtPath(root, Original.Path, Patched)`, starting
from the empty map, over exactly the results that have no error and are not
skipped; a skipped or errored result contributes nothing: the tree is the same
with that result taken out of the list. -/
theorem override_is_fold {σ : Type} (marshal : ValueMap → Except Str Str) (fs : FileSystem σ)
    (results : List PatchResult) (path : Str) (w : σ) :
    (GenerateValuesOverride marshal fs results path w).root
      = (results.filter fun r => decide (r.Error = none ∧ r.Skipped = false)).foldl
          (fun root r => setImageAtPath root r.Original.Path r.Patched) [] ∧
    ∀ pre r post, results = pre ++ r :: post → (r.Error ≠ none ∨ r.Skipped = true) →
      (GenerateValuesOverride marshal fs (pre ++ post) path w).root
        = (GenerateValuesOverride marshal fs results path w).root := by
  have hroot : ∀ rs : List PatchResult,
      (GenerateValuesOverride marshal fs rs path w).root = overrideRoot rs [] := by
    intro rs
    unfold GenerateValuesOverride
    simp only []
    split
    · rfl
    · split
      · rfl
      · rfl
  have hfold : ∀ (rs : List PatchResult) (root : ValueMap),
      overrideRoot rs root
        = (rs.filter fun r => decide (r.Error = none ∧ r.Skipped = false)).foldl
            (fun root r => setImageAtPath root r.Original.Path r.Patched) root := by
    intro rs
    induction rs with
    | nil => intro root; rfl
    | cons r rest ih =>
      intro root
      unfold overrideRoot
      by_cases h : r.Error ≠ none ∨ r.Skipped = true
      · have hf : decide (r.Error = none ∧ r.Skipped = false) = false := by
          rcases h with h | h
          · simp [h]
          · simp [h]
        rw [if_pos h, List.filter_cons_of_neg (by simp [hf]), ih]
      · have hf : decide (r.Error = none ∧ r.Skipped = false) = true := by
          simp only [not_or, ne_eq, not_not, Bool.not_eq_true] at h
          simp [h.1, h.2]
        rw [if_neg h, List.filter_cons_of_pos (by simpa using hf), List.foldl_cons, ih]
  refine ⟨by rw [hroot, hfold], ?_⟩
  intro pre r post he hbad
  rw [hroot, hroot, he, overrideRoot_append, overrideRoot_append]
  rw [overrideRoot_cons_bad _ _ _ hbad]

theorem override_is_fold_witness :
    (GenerateValuesOverride exampleMarshal exampleFileSystem
        (overrideResults.take 2 ++ overrideResults.drop 3) "values.yaml".toList 0).root
      = (GenerateValuesOverride exampleMarshal exampleFileSystem overrideResults
          "values.yaml".toList 0).root :=
  (override_is_fold exampleMarshal exampleFileSystem overrideResults "values.yaml".toList
    0).2 (overrideResults.take 2) (overrideResults.get ⟨2, by decide⟩) (overrideResults.drop 3)
    rfl (Or.inr rfl)

/-- C32: `GenerateValuesOverride` calls `os.WriteFile` only when some result
has neither an error nor `Skipped` set, and, when marshalling succeeds, it then
writes the marshalled tree to `path` and returns the result of the write; when
every result is skipped or errored it returns nil and writes no file. -/
theorem override_written_iff {σ : Type} (marshal : ValueMap → Except Str Str)
    (fs : FileSystem σ) (results : List PatchResult) (path : Str) (w : σ) :
    ((∀ r ∈ results, r.Error ≠ none ∨ r.Skipped = true) →
      (GenerateValuesOverride marshal fs results path w).err = none ∧
      (GenerateValuesOverride marshal fs results path w).writes = []) ∧
    ((∃ r ∈ results, r.Error = none ∧ r.Skipped = false) →
      ∀ data, marshal (GenerateValuesOverride marshal fs results path w).root = Except.ok data →
        (GenerateValuesOverride marshal fs results path w).writes = [(path, data)] ∧
        (GenerateValuesOverride marshal fs results path w).err = (fs.WriteFile path data w).1) ∧
    ((GenerateValuesOverride marshal fs results path w).writes ≠ [] →
      ∃ r ∈ results, r.Error = none ∧ r.Skipped = false) := by
  have hex : (∃ r ∈ results, r.Error = none ∧ r.Skipped = false) ↔
      overrideRoot results [] ≠ [] := by
    rw [ne_eq, overrideRoot_eq_nil_iff]
    constructor
    · rintro ⟨r, hr, h1, h2⟩ hall
      rcases hall r hr with h | h
      · exact h h1
      · rw [h2] at h; exact absurd h (by decide)
    · intro hnot
      by_contra hno
      apply hnot
      intro r hr
      by_contra hc
      simp only [not_or, ne_eq, not_not, Bool.not_eq_true] at hc
      exact hno ⟨r, hr, hc.1, hc.2⟩
  refine ⟨fun hall => ?_, fun hsome data hm => ?_, fun hw => ?_⟩
  · have hnil := (overrideRoot_eq_nil_iff results).mpr hall
    unfold GenerateValuesOverride
    simp [hnil]
  · have hne := hex.mp hsome
    have hlen : ¬ (overrideRoot results []).length = 0 := by
      intro h
      exact hne (List.length_eq_zero.mp h)
    unfold GenerateValuesOverride at hm ⊢
    simp only [hlen, if_false] at hm ⊢
    cases hmr : marshal (overrideRoot results []) with
    | error err =>
      rw [hmr] at hm
      simp only [] at hm
      rw [hmr] at hm
      exact absurd hm (by simp)
    | ok d =>
      rw [hmr] at hm
      simp only [] at hm ⊢
      rw [hmr] at hm
      have hd : d = data := Except.ok.inj hm
      subst hd
      exact ⟨rfl, rfl⟩
  · apply hex.mpr
    intro hnil
    apply hw
    unfold GenerateValuesOverride
    simp [hnil]

theorem override_written_iff_witness :
    (GenerateValuesOverride exampleMarshal exampleFileSystem overrideResults
        "values.yaml".toList 0).writes
      = [("values.yaml".toList, "alertmanager,server".toList)] ∧
    (GenerateValuesOverride exampleMarshal exampleFileSystem overrideResults
        "values.yaml".toList 0).err
      = (exampleFileSystem.WriteFile "values.yaml".toList "alertmanager,server".toList 0).1 :=
  (override_written_iff exampleMarshal exampleFileSystem overrideResults "values.yaml".toList
    0).2.1 ⟨overrideResults.get ⟨0, by decide⟩, by decide, rfl, rfl⟩
    "alertmanager,server".toList rfl


/-! ## Counting fixable vulnerabilities -/

theorem countVulnerabilities_eq (vs : List TrivyVulnerability) :
    ∀ count : Int, countVulnerabilities vs count
      = count + ((vs.filter fun v => decide (v.FixedVersion ≠ [])).length : Nat) := by
  induction vs with
  | nil => intro count; simp [countVulnerabilities]
  | cons v rest ih =>
    intro count
    unfold countVulnerabilities
    by_cases h : v.FixedVersion ≠ []
    · rw [if_pos h, ih, List.filter_cons_of_pos (by simpa using h)]
      simp only [List.length_cons, Nat.cast_add, Nat.cast_one]
      ring
    · rw [if_neg h, ih, List.filter_cons_of_neg (by simpa using h)]

theorem countResults_eq (rs : List TrivyResult) :
    ∀ count : Int, countResults rs count
      = count + (((rs.map fun r =>
          (r.Vulnerabilities.filter fun v => decide (v.FixedVersion ≠ [])).length).sum : Nat)) := by
  induction rs with
  | nil => intro count; simp [countResults]
  | cons r rest ih =>
    intro count
    unfold countResults
    rw [ih, countVulnerabilities_eq]
    simp only [List.map_cons, List.sum_cons, Nat.cast_add]
    ring

/-- C34: for a report that is read and parsed, `countFixable` returns the
number of vulnerability entries, summed over all `Results`, whose
`FixedVersion` is non-empty; it returns an error exactly when the report cannot
be read or cannot be parsed. -/
theorem countFixable_counts {σ : Type} (fs : FileSystem σ)
    (unmarshal : Str → Except Str trivyReport) (reportPath : Str) (w : σ) :
    (∀ data report, fs.ReadFile reportPath w = Except.ok data →
      unmarshal data = Except.ok report →
      countFixable fs unmarshal reportPath w
        = Except.ok (((report.Results.map fun r =>
            (r.Vulnerabilities.filter fun v => decide (v.FixedVersion ≠ [])).length).sum
              : Nat) : Int)) ∧
    ((∃ err, countFixable fs unmarshal reportPath w = Except.error err) ↔
      ((∃ err, fs.ReadFile reportPath w = Except.error err) ∨
        ∃ data err, fs.ReadFile reportPath w = Except.ok data ∧
          unmarshal data = Except.error err)) := by
  constructor
  · intro data report hread hparse
    unfold countFixable
    rw [hread]
    simp only []
    rw [hparse]
    simp only []
    rw [countResults_eq]
    simp
  · unfold countFixable
    cases hread : fs.ReadFile reportPath w with
    | error e => simp
    | ok data =>
      simp only []
      cases hparse : unmarshal data with
      | error e => simp [hparse]
      | ok report => simp [hparse]

theorem countFixable_counts_witness :
    countFixable reportFileSystem exampleUnmarshalReport "report.json".toList 0
      = Except.ok (((exampleReport.Results.map fun r =>
          (r.Vulnerabilities.filter fun v => decide (v.FixedVersion ≠ [])).length).sum
            : Nat) : Int) :=
  (countFixable_counts reportFileSystem exampleUnmarshalReport "report.json".toList 0).1
    "report".toList exampleReport rfl rfl

/-! ## Setting an image at a path -/

theorem mapGet_mapSet_same {β : Type} (m : List (Str × β)) (key : Str) (v : β) :
    mapGet (mapSet m key v) key = some v := by
  induction m with
  | nil => simp [mapSet, mapGet]
  | cons kv rest ih =>
    obtain ⟨k, v0⟩ := kv
    unfold mapSet
    by_cases h : k = key
    · rw [if_pos h]
      simp [mapGet, h]
    · rw [if_neg h]
      simp only [mapGet, if_neg h]
      exact ih

theorem mapGet_mapSet_other {β : Type} (m : List (Str × β)) (key other : Str) (v : β)
    (hne : key ≠ other) : mapGet (mapSet m key v) other = mapGet m other := by
  induction m with
  | nil => simp [mapSet, mapGet, hne]
  | cons kv rest ih =>
    obtain ⟨k, v0⟩ := kv
    unfold mapSet
    by_cases h : k = key
    · rw [if_pos h]
      have hk : k ≠ other := by rw [h]; exact hne
      simp [mapGet, hk]
    · rw [if_neg h]
      by_cases hk : k = other
      · simp [mapGet, hk]
      · simp only [mapGet, if_neg hk]
        exact ih

theorem setLeaf_repository (img : Image) (current : ValueMap) :
    mapGet (setLeaf img current) "repository".toList = some (Value.str img.Repository) := by
  unfold setLeaf
  simp only []
  split
  · rw [mapGet_mapSet_other _ _ _ _ (by decide), mapGet_mapSet_same]
  · rw [mapGet_mapSet_same]

theorem setLeaf_registry (img : Image) (current : ValueMap) (h : img.Registry ≠ []) :
    mapGet (setLeaf img current) "registry".toList = some (Value.str img.Registry) := by
  unfold setLeaf
  simp only [if_pos h]
  split
  · rw [mapGet_mapSet_other _ _ _ _ (by decide), mapGet_mapSet_other _ _ _ _ (by decide),
      mapGet_mapSet_same]
  · rw [mapGet_mapSet_other _ _ _ _ (by decide), mapGet_mapSet_same]

theorem setLeaf_tag (img : Image) (current : ValueMap) (h : img.Tag ≠ []) :
    mapGet (setLeaf img current) "tag".toList = some (Value.str img.Tag) := by
  unfold setLeaf
  simp only [if_pos h]
  rw [mapGet_mapSet_same]

theorem setLeaf_no_registry (img : Image) (h : img.Registry = []) :
    mapGet (setLeaf img []) "registry".toList = none := by
  unfold setLeaf
  have hn : ¬ img.Registry ≠ [] := by simp [h]
  simp only [if_neg hn]
  split
  · rw [mapGet_mapSet_other _ _ _ _ (by decide), mapGet_mapSet_other _ _ _ _ (by decide)]
    rfl
  · rw [mapGet_mapSet_other _ _ _ _ (by decide)]
    rfl

theorem setLeaf_no_tag (img : Image) (h : img.Tag = []) :
    mapGet (setLeaf img []) "tag".toList = none := by
  unfold setLeaf
  have hn : ¬ img.Tag ≠ [] := by simp [h]
  simp only [if_neg hn]
  split
  · rw [mapGet_mapSet_other _ _ _ _ (by decide), mapGet_mapSet_other _ _ _ _ (by decide)]
    rfl
  · rw [mapGet_mapSet_other _ _ _ _ (by decide)]
    rfl

theorem resolve_nil_map (ps : List Str) : (resolve ps []).getD [] = [] := by
  cases ps with
  | nil => rfl
  | cons key rest => rfl

theorem resolve_walkSet (img : Image) (ps : List Str) :
    ∀ current : ValueMap,
      resolve ps (walkSet img ps current)
        = some (setLeaf img ((resolve ps current).getD [])) := by
  induction ps with
  | nil => intro current; rfl
  | cons key rest ih =>
    intro current
    rcases hg : mapGet current key with _ | v
    · simp only [walkSet, resolve, hg, mapGet_mapSet_same]
      rw [ih, resolve_nil_map]
      rfl
    · cases v with
      | str s =>
        simp only [walkSet, resolve, hg, mapGet_mapSet_same]
        rw [ih, resolve_nil_map]
        rfl
      | map m =>
        simp only [walkSet, resolve, hg, mapGet_mapSet_same]
        rw [ih]

/-- C33: after `setImageAtPath(root, p, img)`, following the segments of `p`
from the root reaches a map whose `repository` is `img.Repository`, whose
`registry` is `img.Registry` when that is non-empty and whose `tag` is
`img.Tag` when that is non-empty; starting from an empty root the leaf has no
`registry` key when `img.Registry` is empty and no `tag` key when `img.Tag` is
empty. -/
theorem setImageAtPath_leaf (root : ValueMap) (p : Str) (img : Image) :
    ∃ leaf, resolve (Split '.' p) (setImageAtPath root p img) = some leaf ∧
      mapGet leaf "repository".toList = some (Value.str img.Repository) ∧
      (img.Registry ≠ [] → mapGet leaf "registry".toList = some (Value.str img.Registry)) ∧
      (img.Tag ≠ [] → mapGet leaf "tag".toList = some (Value.str img.Tag)) ∧
      (root = [] → img.Registry = [] → mapGet leaf "registry".toList = none) ∧
      (root = [] → img.Tag = [] → mapGet leaf "tag".toList = none) := by
  refine ⟨setLeaf img ((resolve (Split '.' p) root).getD []), ?_, setLeaf_repository _ _,
    setLeaf_registry _ _, setLeaf_tag _ _, ?_, ?_⟩
  · unfold setImageAtPath
    exact resolve_walkSet img _ root
  · intro hroot hreg
    rw [hroot, resolve_nil_map]
    exact setLeaf_no_registry img hreg
  · intro hroot htag
    rw [hroot, resolve_nil_map]
    exact setLeaf_no_tag img htag

theorem setImageAtPath_leaf_witness :
    ∃ leaf, resolve (Split '.' "server.image".toList)
        (setImageAtPath [] "server.image".toList serverPatched) = some leaf ∧
      mapGet leaf "repository".toList = some (Value.str serverPatched.Repository) ∧
      (serverPatched.Registry ≠ [] →
        mapGet leaf "registry".toList = some (Value.str serverPatched.Registry)) ∧
      (serverPatched.Tag ≠ [] → mapGet leaf "tag".toList = some (Value.str serverPatched.Tag)) ∧
      (([] : ValueMap) = [] → serverPatched.Registry = [] →
        mapGet leaf "registry".toList = none) ∧
      (([] : ValueMap) = [] → serverPatched.Tag = [] → mapGet leaf "tag".toList = none) :=
  setImageAtPath_leaf [] "server.image".toList serverPatched

/-! ## Numbered tags with equal numbers -/

theorem isDigit_bounds (c : Char) (h : c.isDigit = true) : 48 ≤ c.toNat ∧ c.toNat ≤ 57 := by
  unfold Char.isDigit at h
  simp only [Bool.and_eq_true, decide_eq_true_eq] at h
  exact ⟨h.1, h.2⟩

theorem char_eq_of_toNat (c d : Char) (h : c.toNat = d.toNat) : c = d := by
  rw [← Char.ofNat_toNat c, ← Char.ofNat_toNat d, h]

theorem digitsValue_foldl (s : Str) :
    ∀ a : Nat, s.foldl (fun acc c => 10 * acc + (c.toNat - 48)) a
      = a * 10 ^ s.length + digitsValue s := by
  induction s with
  | nil => intro a; simp [digitsValue]
  | cons c s ih =>
    intro a
    unfold digitsValue
    simp only [List.foldl_cons, List.length_cons]
    rw [ih, ih (10 * 0 + (c.toNat - 48))]
    ring

theorem digitsValue_cons (c : Char) (s : Str) :
    digitsValue (c :: s) = (c.toNat - 48) * 10 ^ s.length + digitsValue s := by
  unfold digitsValue
  simp only [List.foldl_cons]
  rw [digitsValue_foldl]
  simp [digitsValue]

theorem digitsValue_lt (s : Str) (h : ∀ c ∈ s, c.isDigit = true) :
    digitsValue s < 10 ^ s.length := by
  induction s with
  | nil => simp [digitsValue]
  | cons c s ih =>
    have hc := isDigit_bounds c (h c (List.mem_cons_self _ _))
    have hs := ih (fun d hd => h d (List.mem_cons_of_mem _ hd))
    rw [digitsValue_cons, List.length_cons, pow_succ]
    have hm : (c.toNat - 48) * 10 ^ s.length ≤ 9 * 10 ^ s.length :=
      Nat.mul_le_mul_right _ (by omega)
    omega

theorem digitsValue_same_length (s : Str) :
    ∀ t : Str, s.length = t.length → (∀ c ∈ s, c.isDigit = true) →
      (∀ c ∈ t, c.isDigit = true) → digitsValue s = digitsValue t → s = t := by
  induction s with
  | nil =>
    intro t hl _ _ _
    exact (List.length_eq_zero.mp hl.symm).symm
  | cons c s ih =>
    intro t hl hs ht hv
    cases t with
    | nil => simp at hl
    | cons d t =>
      have hl1 : s.length = t.length := by simpa using hl
      have hc := isDigit_bounds c (hs c (List.mem_cons_self _ _))
      have hd := isDigit_bounds d (ht d (List.mem_cons_self _ _))
      have hs1 : ∀ x ∈ s, x.isDigit = true := fun x hx => hs x (List.mem_cons_of_mem _ hx)
      have ht1 : ∀ x ∈ t, x.isDigit = true := fun x hx => ht x (List.mem_cons_of_mem _ hx)
      have bs := digitsValue_lt s hs1
      have bt := digitsValue_lt t ht1
      rw [digitsValue_cons, digitsValue_cons, hl1] at hv
      rw [hl1] at bs
      have hcd : c.toNat - 48 = d.toNat - 48 := by
        rcases Nat.lt_trichotomy (c.toNat - 48) (d.toNat - 48) with h | h | h
        · have hm := Nat.mul_le_mul_right (10 ^ t.length) (Nat.succ_le_of_lt h)
          rw [Nat.succ_mul] at hm
          omega
        · exact h
        · have hm := Nat.mul_le_mul_right (10 ^ t.length) (Nat.succ_le_of_lt h)
          rw [Nat.succ_mul] at hm
          omega
      have hce : c = d := char_eq_of_toNat c d (by omega)
      rw [hcd] at hv
      have hve : digitsValue s = digitsValue t := by omega
      rw [hce, ih t hl1 hs1 ht1 hve]

theorem canonical_length_le (s t : Str) (hs0 : s ≠ []) (hs : ∀ c ∈ s, c.isDigit = true)
    (ht : ∀ c ∈ t, c.isDigit = true) (hc : t = ['0'] ∨ t.head? ≠ some '0')
    (hv : digitsValue s = digitsValue t) : t.length ≤ s.length := by
  cases t with
  | nil => simp
  | cons d r =>
    by_cases hz : d :: r = ['0']
    · rw [hz]
      cases s with
      | nil => exact absurd rfl hs0
      | cons a s => simp
    · have hd0 : d ≠ '0' := by
        rcases hc with h | h
        · exact absurd h hz
        · intro e
          apply h
          rw [e]
          rfl
      have hd := isDigit_bounds d (ht d (List.mem_cons_self _ _))
      have hd1 : 1 ≤ d.toNat - 48 := by
        have hne : d.toNat ≠ 48 := fun e => hd0 (char_eq_of_toNat d '0' e)
        omega
      have bs := digitsValue_lt s hs
      rw [hv, digitsValue_cons] at bs
      have hm := Nat.mul_le_mul_right (10 ^ r.length) hd1
      rw [Nat.one_mul] at hm
      by_contra hlt
      have hle : s.length ≤ r.length := by
        simp only [List.length_cons] at hlt
        omega
      have hp := Nat.pow_le_pow_right (show 0 < 10 by decide) hle
      omega

theorem canonical_digits_injective (s t : Str) (hs0 : s ≠ []) (ht0 : t ≠ [])
    (hs : ∀ c ∈ s, c.isDigit = true) (ht : ∀ c ∈ t, c.isDigit = true)
    (hcs : s = ['0'] ∨ s.head? ≠ some '0') (hct : t = ['0'] ∨ t.head? ≠ some '0')
    (hv : digitsValue s = digitsValue t) : s = t :=
  digitsValue_same_length s t
    (Nat.le_antisymm (canonical_length_le t s ht0 ht hs hcs hv.symm)
      (canonical_length_le s t hs0 hs ht hct hv)) hs ht hv

/-- C35, as a counterexample: with source tag `1.29.3`, the two distinct tags
`1.29.3-patched-01` and `1.29.3-patched-1` are both of the numbered form and
both have the number 1, and which of them `LatestPatchedTag` returns depends
on their order in the list. -/
theorem leading_zero_tags_tie :
    ["1.29.3-patched-01".toList, "1.29.3-patched-1".toList].Nodup ∧
    patchNumber 9223372036854775807 "1.29.3".toList "1.29.3-patched-01".toList = some 1 ∧
    patchNumber 9223372036854775807 "1.29.3".toList "1.29.3-patched-1".toList = some 1 ∧
    LatestPatchedTag 9223372036854775807
        ["1.29.3-patched-01".toList, "1.29.3-patched-1".toList] "1.29.3".toList
      = "1.29.3-patched-01".toList ∧
    LatestPatchedTag 9223372036854775807
        ["1.29.3-patched-1".toList, "1.29.3-patched-01".toList] "1.29.3".toList
      = "1.29.3-patched-1".toList := by
  decide

/-- C35, amended: when every numbered tag of `T` writes its number without
leading zeros (the suffix is `0` or does not begin with `0`), no two distinct
tags of `T` have the same number, and when `T` has a numbered tag the result of
`LatestPatchedTag` is a tag of `T` whose number is strictly greater than that
of every other numbered tag of `T`. -/
theorem LatestPatchedTag_strict_maximum (maxInt : Nat) (S : Str) (T : List Str)
    (hT : ∀ t ∈ T, ∀ N, stripLeading (S ++ "-patched-".toList) t = some N →
      N = ['0'] ∨ N.head? ≠ some '0') :
    (∀ t ∈ T, ∀ u ∈ T, ∀ n, patchNumber maxInt S t = some n →
      patchNumber maxInt S u = some n → t = u) ∧
    ((∃ t ∈ T, ∃ n, patchNumber maxInt S t = some n) →
      ∃ m, LatestPatchedTag maxInt T S ∈ T ∧
        patchNumber maxInt S (LatestPatchedTag maxInt T S) = some m ∧
        ∀ t ∈ T, ∀ n, patchNumber maxInt S t = some n →
          t ≠ LatestPatchedTag maxInt T S → n < m) := by
  have hinj : ∀ t ∈ T, ∀ u ∈ T, ∀ n, patchNumber maxInt S t = some n →
      patchNumber maxInt S u = some n → t = u := by
    intro t ht u hu n h1 h2
    obtain ⟨N, e1, n1, d1, v1, _⟩ := (patchNumber_eq_some maxInt S t n).mp h1
    obtain ⟨M, e2, n2, d2, v2, _⟩ := (patchNumber_eq_some maxInt S u n).mp h2
    have c1 := hT t ht N ((stripLeading_eq_some _ _ _).mpr e1)
    have c2 := hT u hu M ((stripLeading_eq_some _ _ _).mpr e2)
    have hNM : N = M := canonical_digits_injective N M n1 n2 d1 d2 c1 c2 (by rw [v1, v2])
    rw [e1, e2, hNM]
  refine ⟨hinj, ?_⟩
  rintro ⟨t0, ht0, n0, hp0⟩
  cases hb : bestNumbered maxInt S T with
  | none =>
    have hnone := (bestNumbered_eq_none maxInt S T).mp hb t0 ht0
    rw [hp0] at hnone
    exact absurd hnone (by simp)
  | some mr =>
    obtain ⟨m, r⟩ := mr
    obtain ⟨hmem, hpr, hmax⟩ := bestNumbered_eq_some maxInt S T m r hb
    have hl : LatestPatchedTag maxInt T S = r := by
      unfold LatestPatchedTag
      rw [hb]
    rw [hl]
    refine ⟨m, hmem, hpr, ?_⟩
    intro t ht n hp hne
    have hle := hmax t ht n hp
    rcases Nat.lt_or_ge n m with h | h
    · exact h
    · have hnm : n = m := Nat.le_antisymm hle h
      rw [hnm] at hp
      exact absurd (hinj t ht r hmem m hp hpr) hne

theorem LatestPatchedTag_strict_maximum_witness :
    (∀ t ∈ ["1.29.3-patched".toList, "1.29.3-patched-2".toList, "1.29.3-patched-3".toList],
      ∀ u ∈ ["1.29.3-patched".toList, "1.29.3-patched-2".toList, "1.29.3-patched-3".toList],
      ∀ n, patchNumber 9223372036854775807 "1.29.3".toList t = some n →
        patchNumber 9223372036854775807 "1.29.3".toList u = some n → t = u) ∧
    ((∃ t ∈ ["1.29.3-patched".toList, "1.29.3-patched-2".toList, "1.29.3-patched-3".toList],
        ∃ n, patchNumber 9223372036854775807 "1.29.3".toList t = some n) →
      ∃ m, LatestPatchedTag 9223372036854775807
            ["1.29.3-patched".toList, "1.29.3-patched-2".toList, "1.29.3-patched-3".toList]
            "1.29.3".toList
          ∈ ["1.29.3-patched".toList, "1.29.3-patched-2".toList, "1.29.3-patched-3".toList] ∧
        patchNumber 9223372036854775807 "1.29.3".toList
          (LatestPatchedTag 9223372036854775807
            ["1.29.3-patched".toList, "1.29.3-patched-2".toList, "1.29.3-patched-3".toList]
            "1.29.3".toList) = some m ∧
        ∀ t ∈ ["1.29.3-patched".toList, "1.29.3-patched-2".toList, "1.29.3-patched-3".toList],
          ∀ n, patchNumber 9223372036854775807 "1.29.3".toList t = some n →
            t ≠ LatestPatchedTag 9223372036854775807
              ["1.29.3-patched".toList, "1.29.3-patched-2".toList, "1.29.3-patched-3".toList]
              "1.29.3".toList → n < m) :=
  LatestPatchedTag_strict_maximum 9223372036854775807 "1.29.3".toList
    ["1.29.3-patched".toList, "1.29.3-patched-2".toList, "1.29.3-patched-3".toList]
    (by
      intro t ht N hN
      simp only [List.mem_cons, List.mem_singleton, List.not_mem_nil, or_false] at ht
      rcases ht with e | e | e
      · have h : stripLeading ("1.29.3".toList ++ "-patched-".toList) "1.29.3-patched".toList
            = none := by decide
        rw [e, h] at hN
        exact absurd hN (by simp)
      · have h : stripLeading ("1.29.3".toList ++ "-patched-".toList)
            "1.29.3-patched-2".toList = some "2".toList := by decide
        rw [e, h] at hN
        rw [← Option.some.inj hN]
        exact Or.inr (by decide)
      · have h : stripLeading ("1.29.3".toList ++ "-patched-".toList)
            "1.29.3-patched-3".toList = some "3".toList := by decide
        rw [e, h] at hN
        rw [← Option.some.inj hN]
        exact Or.inr (by decide))


/-! ## Setting an image at a path, in place -/

theorem heapResolve_cons_eq_some (k : Str) (rest : List Str) (cur a : Nat) (h : Heap) :
    heapResolve (k :: rest) cur h = some a ↔
      ∃ m, mapGet (h.objs cur) k = some (HeapValue.map m) ∧ heapResolve rest m h = some a := by
  rcases hg : mapGet (h.objs cur) k with _ | v
  · simp [heapResolve, hg]
  · cases v with
    | str s => simp [heapResolve, hg]
    | map m => simp [heapResolve, hg]

theorem heapResolve_empty_object (rs : List Str) (cur a : Nat) (h : Heap)
    (hempty : h.objs cur = []) (hres : heapResolve rs cur h = some a) : a = cur := by
  cases rs with
  | nil =>
    simp only [heapResolve, Option.some.injEq] at hres
    exact hres.symm
  | cons k rest =>
    obtain ⟨m, hm, _⟩ := (heapResolve_cons_eq_some k rest cur a h).mp hres
    rw [hempty] at hm
    simp [mapGet] at hm

theorem heapResolve_append (ps rs : List Str) :
    ∀ (cur : Nat) (h : Heap) (a : Nat), heapResolve ps cur h = some a →
      heapResolve (ps ++ rs) cur h = heapResolve rs a h := by
  induction ps with
  | nil =>
    intro cur h a hres
    simp only [heapResolve, Option.some.injEq] at hres
    rw [List.nil_append, hres]
  | cons k ps ih =>
    intro cur h a hres
    obtain ⟨m, hm, hrest⟩ := (heapResolve_cons_eq_some k ps cur a h).mp hres
    rw [List.cons_append]
    simp only [heapResolve, hm]
    exact ih m h a hrest

theorem Heap.create_next (h : Heap) (cur : Nat) (key : Str) :
    (h.create cur key).next = h.next + 1 := rfl

theorem Heap.create_new (h : Heap) (cur : Nat) (key : Str) (hcur : cur < h.next) :
    (h.create cur key).objs h.next = [] := by
  have hne : ¬ h.next = cur := by omega
  simp [Heap.create, Heap.write, hne]

theorem Heap.create_current (h : Heap) (cur : Nat) (key : Str) (hcur : cur < h.next) :
    (h.create cur key).objs cur = mapSet (h.objs cur) key (HeapValue.map h.next) := by
  have hne : ¬ cur = h.next := by omega
  simp [Heap.create, Heap.write, hne]

theorem Heap.create_other (h : Heap) (cur : Nat) (key : Str) (b : Nat) (hb : b < h.next)
    (hbc : b ≠ cur) : (h.create cur key).objs b = h.objs b := by
  have hne : ¬ b = h.next := by omega
  simp [Heap.create, Heap.write, hne, hbc]

/-- The walk changes only map objects that are reachable from the map object
it starts at, and objects it creates. -/
theorem heapWalk_untouched (img : Image) (qs : List Str) :
    ∀ (cur : Nat) (h : Heap) (b : Nat),
      (∀ rs a, heapResolve rs cur h = some a → a < h.next) → b < h.next →
      (∀ rs, heapResolve rs cur h ≠ some b) →
      (heapWalk img qs cur h).objs b = h.objs b := by
  induction qs with
  | nil =>
    intro cur h b _ _ hnot
    have hne : b ≠ cur := fun e => hnot [] (by rw [e]; rfl)
    simp [heapWalk, Heap.write, hne]
  | cons key rest ih =>
    intro cur h b hwf hb hnot
    have hcur : cur < h.next := hwf [] cur rfl
    have hne : b ≠ cur := fun e => hnot [] (by rw [e]; rfl)
    have hcreate : (heapWalk img rest h.next (h.create cur key)).objs b = h.objs b := by
      have hnew := Heap.create_new h cur key hcur
      rw [ih h.next (h.create cur key) b]
      · exact Heap.create_other h cur key b hb hne
      · intro rs a hres
        rw [heapResolve_empty_object rs h.next a _ hnew hres, Heap.create_next]
        omega
      · rw [Heap.create_next]
        omega
      · intro rs hres
        have := heapResolve_empty_object rs h.next b _ hnew hres
        omega
    rcases hg : mapGet (h.objs cur) key with _ | v
    · simp only [heapWalk, hg]
      exact hcreate
    · cases v with
      | str s =>
        simp only [heapWalk, hg]
        exact hcreate
      | map m =>
        simp only [heapWalk, hg]
        apply ih m h b _ hb
        · intro rs hres
          exact hnot (key :: rs) ((heapResolve_cons_eq_some key rs cur b h).mpr ⟨m, hg, hres⟩)
        · intro rs a hres
          exact hwf (key :: rs) a ((heapResolve_cons_eq_some key rs cur a h).mpr ⟨m, hg, hres⟩)

/-- A path resolves to the same map object on two heaps that agree on every
map object reachable from its start. -/
theorem heapResolve_congr (h h2 : Heap) (ps : List Str) :
    ∀ (start a : Nat), (∀ rs b, heapResolve rs start h = some b → h2.objs b = h.objs b) →
      heapResolve ps start h = some a → heapResolve ps start h2 = some a := by
  induction ps with
  | nil =>
    intro start a _ hres
    exact hres
  | cons k ps ih =>
    intro start a hsame hres
    obtain ⟨m, hm, hrest⟩ := (heapResolve_cons_eq_some k ps start a h).mp hres
    refine (heapResolve_cons_eq_some k ps start a h2).mpr ⟨m, ?_, ?_⟩
    · rw [hsame [] start rfl]
      exact hm
    · apply ih m a _ hrest
      intro rs b hb
      exact hsame (k :: rs) b ((heapResolve_cons_eq_some k rs start b h).mpr ⟨m, hm, hb⟩)

/-- Two paths that part after a common beginning `c`: on a heap in which
every reachable map object is reached by one path only, the walk along the one
leaves the map object at the other as it was. -/
theorem heapWalk_frame (img : Image) (x y : Str) (s1 s2 : List Str) (hxy : x ≠ y)
    (c : List Str) :
    ∀ (cur : Nat) (h : Heap) (a : Nat),
      (∀ rs b, heapResolve rs cur h = some b → b < h.next) →
      (∀ r1 r2 b, heapResolve r1 cur h = some b → heapResolve r2 cur h = some b → r1 = r2) →
      heapResolve (c ++ x :: s1) cur h = some a →
      heapResolve (c ++ x :: s1) cur (heapWalk img (c ++ y :: s2) cur h) = some a ∧
        (heapWalk img (c ++ y :: s2) cur h).objs a = h.objs a := by
  induction c with
  | nil =>
    intro cur h a hwf htree hres
    rw [List.nil_append] at hres ⊢
    rw [List.nil_append]
    obtain ⟨m1, hm1, hrest⟩ := (heapResolve_cons_eq_some x s1 cur a h).mp hres
    have hcur : cur < h.next := hwf [] cur rfl
    have hunder : ∀ rs b, heapResolve rs m1 h = some b →
        heapResolve (x :: rs) cur h = some b :=
      fun rs b hb => (heapResolve_cons_eq_some x rs cur b h).mpr ⟨m1, hm1, hb⟩
    suffices hkey : (∀ rs b, heapResolve rs m1 h = some b →
          (heapWalk img (y :: s2) cur h).objs b = h.objs b) ∧
        mapGet ((heapWalk img (y :: s2) cur h).objs cur) x = some (HeapValue.map m1) by
      refine ⟨(heapResolve_cons_eq_some x s1 cur a _).mpr ⟨m1, hkey.2, ?_⟩, hkey.1 s1 a hrest⟩
      exact heapResolve_congr h _ s1 m1 a hkey.1 hrest
    have hcreate : (∀ rs b, heapResolve rs m1 h = some b →
          (heapWalk img s2 h.next (h.create cur y)).objs b = h.objs b) ∧
        mapGet ((heapWalk img s2 h.next (h.create cur y)).objs cur) x
          = some (HeapValue.map m1) := by
      have hnew := Heap.create_new h cur y hcur
      have hkeep : ∀ b, b < h.next →
          (heapWalk img s2 h.next (h.create cur y)).objs b = (h.create cur y).objs b := by
        intro b hb
        apply heapWalk_untouched img s2 h.next (h.create cur y) b
        · intro rs a1 hres1
          rw [heapResolve_empty_object rs h.next a1 _ hnew hres1, Heap.create_next]
          omega
        · rw [Heap.create_next]
          omega
        · intro rs hres1
          have := heapResolve_empty_object rs h.next b _ hnew hres1
          omega
      constructor
      · intro rs b hb
        have hbn : b < h.next := hwf (x :: rs) b (hunder rs b hb)
        have hbc : b ≠ cur := by
          intro e
          have := htree (x :: rs) [] b (hunder rs b hb) (by rw [e]; rfl)
          exact absurd this (by simp)
        rw [hkeep b hbn, Heap.create_other h cur y b hbn hbc]
      · rw [hkeep cur hcur, Heap.create_current h cur y hcur,
          mapGet_mapSet_other _ _ _ _ (Ne.symm hxy)]
        exact hm1
    rcases hg : mapGet (h.objs cur) y with _ | v
    · simp only [heapWalk, hg]
      exact hcreate
    · cases v with
      | str s =>
        simp only [heapWalk, hg]
        exact hcreate
      | map m2 =>
        simp only [heapWalk, hg]
        have hwf2 : ∀ rs b, heapResolve rs m2 h = some b → b < h.next :=
          fun rs b hb =>
            hwf (y :: rs) b ((heapResolve_cons_eq_some y rs cur b h).mpr ⟨m2, hg, hb⟩)
        constructor
        · intro rs b hb
          apply heapWalk_untouched img s2 m2 h b hwf2 (hwf (x :: rs) b (hunder rs b hb))
          intro r2 hb2
          have := htree (x :: rs) (y :: r2) b (hunder rs b hb)
            ((heapResolve_cons_eq_some y r2 cur b h).mpr ⟨m2, hg, hb2⟩)
          exact hxy (List.cons.inj this).1
        · rw [heapWalk_untouched img s2 m2 h cur hwf2 hcur]
          · exact hm1
          · intro r2 hb2
            have := htree [] (y :: r2) cur rfl
              ((heapResolve_cons_eq_some y r2 cur cur h).mpr ⟨m2, hg, hb2⟩)
            exact absurd this (by simp)
  | cons k c ih =>
    intro cur h a hwf htree hres
    rw [List.cons_append] at hres ⊢
    rw [List.cons_append]
    obtain ⟨m, hm, hrest⟩ := (heapResolve_cons_eq_some k (c ++ x :: s1) cur a h).mp hres
    have hcur : cur < h.next := hwf [] cur rfl
    have hdown : ∀ rs b, heapResolve rs m h = some b → heapResolve (k :: rs) cur h = some b :=
      fun rs b hb => (heapResolve_cons_eq_some k rs cur b h).mpr ⟨m, hm, hb⟩
    have hwfm : ∀ rs b, heapResolve rs m h = some b → b < h.next :=
      fun rs b hb => hwf (k :: rs) b (hdown rs b hb)
    have htreem : ∀ r1 r2 b, heapResolve r1 m h = some b → heapResolve r2 m h = some b →
        r1 = r2 := by
      intro r1 r2 b h1 h2
      exact (List.cons.inj (htree (k :: r1) (k :: r2) b (hdown r1 b h1) (hdown r2 b h2))).2
    have hstep : heapWalk img (k :: (c ++ y :: s2)) cur h = heapWalk img (c ++ y :: s2) m h := by
      simp only [heapWalk, hm]
    rw [hstep]
    obtain ⟨ih1, ih2⟩ := ih m h a hwfm htreem hrest
    refine ⟨(heapResolve_cons_eq_some k _ cur a _).mpr ⟨m, ?_, ih1⟩, ih2⟩
    rw [heapWalk_untouched img (c ++ y :: s2) m h cur hwfm hcur]
    · exact hm
    · intro rs hb
      have := htree [] (k :: rs) cur rfl (hdown rs cur hb)
      exact absurd this (by simp)

/-- Two lists of which neither begins with the other part after a common
beginning. -/
theorem exists_parting (ps : List Str) :
    ∀ qs : List Str, (¬ ∃ t, qs = ps ++ t) → (¬ ∃ t, ps = qs ++ t) →
      ∃ c x s1 y s2, x ≠ y ∧ ps = c ++ x :: s1 ∧ qs = c ++ y :: s2 := by
  induction ps with
  | nil =>
    intro qs hpq _
    exact absurd ⟨qs, rfl⟩ hpq
  | cons k ps ih =>
    intro qs hpq hqp
    cases qs with
    | nil => exact absurd ⟨k :: ps, rfl⟩ hqp
    | cons k1 qs =>
      by_cases hk : k = k1
      · subst hk
        obtain ⟨c, x, s1, y, s2, hxy, e1, e2⟩ := ih qs
          (by rintro ⟨t, ht⟩; exact hpq ⟨t, by rw [ht]; rfl⟩)
          (by rintro ⟨t, ht⟩; exact hqp ⟨t, by rw [ht]; rfl⟩)
        exact ⟨k :: c, x, s1, y, s2, hxy, by rw [e1]; rfl, by rw [e2]; rfl⟩
      · exact ⟨[], k, ps, k1, qs, hk, rfl, rfl⟩

theorem serverHeap_paths (rs : List Str) (a : Nat)
    (hres : heapResolve rs 0 serverHeap = some a) :
    (rs = [] ∧ a = 0) ∨ (rs = ["server".toList] ∧ a = 1) ∨
      (rs = ["server".toList, "image".toList] ∧ a = 2) := by
  cases rs with
  | nil =>
    simp only [heapResolve, Option.some.injEq] at hres
    exact Or.inl ⟨rfl, hres.symm⟩
  | cons k1 r1 =>
    obtain ⟨m1, hm1, hres1⟩ := (heapResolve_cons_eq_some k1 r1 0 a serverHeap).mp hres
    have h0 : serverHeap.objs 0 = [("server".toList, HeapValue.map 1)] := rfl
    rw [h0] at hm1
    simp only [mapGet] at hm1
    split at hm1
    · rename_i hk1
      simp only [Option.some.injEq, HeapValue.map.injEq] at hm1
      subst hm1
      subst hk1
      cases r1 with
      | nil =>
        simp only [heapResolve, Option.some.injEq] at hres1
        exact Or.inr (Or.inl ⟨rfl, hres1.symm⟩)
      | cons k2 r2 =>
        obtain ⟨m2, hm2, hres2⟩ := (heapResolve_cons_eq_some k2 r2 1 a serverHeap).mp hres1
        have h1 : serverHeap.objs 1 = [("image".toList, HeapValue.map 2)] := rfl
        rw [h1] at hm2
        simp only [mapGet] at hm2
        split at hm2
        · rename_i hk2
          simp only [Option.some.injEq, HeapValue.map.injEq] at hm2
          subst hm2
          subst hk2
          cases r2 with
          | nil =>
            simp only [heapResolve, Option.some.injEq] at hres2
            exact Or.inr (Or.inr ⟨rfl, hres2.symm⟩)
          | cons k3 r3 =>
            obtain ⟨m3, hm3, _⟩ := (heapResolve_cons_eq_some k3 r3 2 a serverHeap).mp hres2
            have h2 : serverHeap.objs 2
                = [ ("repository".toList, HeapValue.str "quay.io/prometheus/prometheus".toList),
                    ("tag".toList, HeapValue.str "v2.48.0-patched".toList) ] := rfl
            rw [h2] at hm3
            simp only [mapGet] at hm3
            split at hm3
            · exact absurd hm3 (by simp)
            · split at hm3
              · exact absurd hm3 (by simp)
              · exact absurd hm3 (by simp)
        · exact absurd hm2 (by simp)
    · exact absurd hm1 (by simp)

/-- C39, as a counterexample: in a root map that holds the same map object
under the keys `a` and `b`, the path `a` resolves to that object, neither of
the segment lists of `a` and `b.image` begins with the other, and
`setImageAtPath(root, "b.image", img)` adds the key `image` to the map reached
at `a`. -/
theorem shared_leaf_changed :
    heapResolve (Split '.' "a".toList) 0 sharedHeap = some 1 ∧
    heapResolve ["b".toList] 0 sharedHeap = some 1 ∧
    (¬ ∃ t, Split '.' "b.image".toList = Split '.' "a".toList ++ t) ∧
    (¬ ∃ t, Split '.' "a".toList = Split '.' "b.image".toList ++ t) ∧
    heapResolve (Split '.' "a".toList) 0
        (setImageAtPathInPlace sharedHeap 0 "b.image".toList alertmanagerPatched) = some 1 ∧
    sharedHeap.objs 1 = [] ∧
    (setImageAtPathInPlace sharedHeap 0 "b.image".toList alertmanagerPatched).objs 1
      = [("image".toList, HeapValue.map 2)] := by
  have h1 : Split '.' "b.image".toList = ["b".toList, "image".toList] := by decide
  have h2 : Split '.' "a".toList = ["a".toList] := by decide
  refine ⟨by decide, by decide, ?_, ?_, by decide, by decide, by decide⟩
  · rw [h1, h2]
    rintro ⟨t, ht⟩
    exact absurd (List.cons.inj ht).1 (by decide)
  · rw [h1, h2]
    rintro ⟨t, ht⟩
    exact absurd (List.cons.inj ht).1 (by decide)

/-- C39, amended: on a heap in which no map object is reachable from the root
along two different paths (no sub-map is shared and none contains itself),
when path `p` resolves through maps to a leaf map and neither of the segment
lists of `p` and `q` begins with the other, after
`setImageAtPath(root, q, img)` the path `p` resolves to the same map object
with the same entries, and so does every path below it.  The map objects
reachable from the root are allocated ones: their addresses are below the one
the next `make` returns. -/
theorem setImageAtPathInPlace_frame (h : Heap) (root leaf : Nat) (p q : Str) (img : Image)
    (hwf : ∀ rs a, heapResolve rs root h = some a → a < h.next)
    (htree : ∀ r1 r2 a, heapResolve r1 root h = some a → heapResolve r2 root h = some a →
      r1 = r2)
    (hres : heapResolve (Split '.' p) root h = some leaf)
    (hpq : ¬ ∃ t, Split '.' q = Split '.' p ++ t)
    (hqp : ¬ ∃ t, Split '.' p = Split '.' q ++ t) :
    heapResolve (Split '.' p) root (setImageAtPathInPlace h root q img) = some leaf ∧
    (setImageAtPathInPlace h root q img).objs leaf = h.objs leaf ∧
    ∀ rs a, heapResolve rs leaf h = some a →
      heapResolve rs leaf (setImageAtPathInPlace h root q img) = some a ∧
      (setImageAtPathInPlace h root q img).objs a = h.objs a := by
  obtain ⟨c, x, s1, y, s2, hxy, e1, e2⟩ := exists_parting _ _ hpq hqp
  unfold setImageAtPathInPlace
  simp only []
  rw [e2]
  have hall : ∀ rs a, heapResolve rs leaf h = some a →
      heapResolve (Split '.' p ++ rs) root (heapWalk img (c ++ y :: s2) root h) = some a ∧
      (heapWalk img (c ++ y :: s2) root h).objs a = h.objs a := by
    intro rs a ha
    have hfull : heapResolve (c ++ x :: (s1 ++ rs)) root h = some a := by
      have := heapResolve_append (Split '.' p) rs root h leaf hres
      rw [e1, List.append_assoc, List.cons_append] at this
      rw [this]
      exact ha
    have := heapWalk_frame img x y (s1 ++ rs) s2 hxy c root h a hwf htree hfull
    rw [e1, List.append_assoc, List.cons_append]
    exact this
  have hleaf := hall [] leaf rfl
  rw [List.append_nil] at hleaf
  refine ⟨hleaf.1, hleaf.2, ?_⟩
  intro rs a ha
  have hboth := hall rs a ha
  rw [heapResolve_append (Split '.' p) rs root _ leaf hleaf.1] at hboth
  exact hboth

theorem setImageAtPathInPlace_frame_witness :
    heapResolve (Split '.' "server.image".toList) 0
        (setImageAtPathInPlace serverHeap 0 "alertmanager.image".toList alertmanagerPatched)
      = some 2 ∧
    (setImageAtPathInPlace serverHeap 0 "alertmanager.image".toList alertmanagerPatched).objs 2
      = serverHeap.objs 2 ∧
    ∀ rs a, heapResolve rs 2 serverHeap = some a →
      heapResolve rs 2
          (setImageAtPathInPlace serverHeap 0 "alertmanager.image".toList alertmanagerPatched)
        = some a ∧
      (setImageAtPathInPlace serverHeap 0 "alertmanager.image".toList alertmanagerPatched).objs a
        = serverHeap.objs a :=
  setImageAtPathInPlace_frame serverHeap 0 2 "server.image".toList "alertmanager.image".toList
    alertmanagerPatched
    (by
      intro rs a hres
      rcases serverHeap_paths rs a hres with ⟨_, e⟩ | ⟨_, e⟩ | ⟨_, e⟩ <;>
        rw [e] <;> decide)
    (by
      intro r1 r2 a hr1 hr2
      rcases serverHeap_paths r1 a hr1 with ⟨e1, a1⟩ | ⟨e1, a1⟩ | ⟨e1, a1⟩ <;>
        rcases serverHeap_paths r2 a hr2 with ⟨e2, a2⟩ | ⟨e2, a2⟩ | ⟨e2, a2⟩ <;>
        first
          | (rw [a1] at a2; exact absurd a2 (by decide))
          | (rw [e1, e2]))
    (by decide)
    (by
      have h1 : Split '.' "alertmanager.image".toList
          = ["alertmanager".toList, "image".toList] := by decide
      have h2 : Split '.' "server.image".toList = ["server".toList, "image".toList] := by decide
      rw [h1, h2]
      rintro ⟨t, ht⟩
      exact absurd (List.cons.inj ht).1 (by decide))
    (by
      have h1 : Split '.' "alertmanager.image".toList
          = ["alertmanager".toList, "image".toList] := by decide
      have h2 : Split '.' "server.image".toList = ["server".toList, "image".toList] := by decide
      rw [h1, h2]
      rintro ⟨t, ht⟩
      exact absurd (List.cons.inj ht).1 (by decide))

end Verity
